import Mathlib

/-!
# vmas-fs: path normalisation and the path-indexed node tree

A shallow embedding of `src/lib/vmasFSData.cpp`, `src/lib/fileNode.h` and the
rename entry of `src/lib/vmas-fs.cpp`.

* A C string (`const char *`) is the list of its characters before the
  terminating NUL.  A pointer into a string is the suffix that starts there.
* A call either returns or fails; a failure is a thrown `std::runtime_error`
  or a failed `assert`.
* A node pointer is an address into a heap of `FileNode` records; the path
  map holds addresses.
* `src/lib/fileNode.cpp` is not among the sources: what the tree code needs of
  it is modelled from the spec and marked so.
-/

namespace VmasFS

/-! ## Outcomes -/

/-- The ways in which a call can fail to return normally. -/
inductive Failure where
  /-- `throw std::runtime_error("empty file name")` -/
  | empty_name
  /-- `throw std::runtime_error("bad file name (two slashes): ...")` -/
  | two_slashes
  /-- `throw std::runtime_error("absolute paths are not supported in read-write mode")` -/
  | absolute_rw
  /-- `throw std::runtime_error("paths relative to parent directory are not supported ...")` -/
  | parent_rw
  /-- `throw std::runtime_error("bad file name: ...")` -/
  | bad_name
  /-- `throw std::runtime_error("duplicate file names")` -/
  | duplicate
  /-- `throw std::runtime_error("bad archive structure")` -/
  | bad_structure
  /-- A failed `assert(...)`: the process aborts. -/
  | assertion
  /-- The step budget of a loop of the model ran out (never the case for the
  budgets `convertFileName` and `build_tree` pass, see `componentLoop_fuel`
  and `build_tree_spec`). -/
  | fuel
  /-- A pointer was followed to an address that holds no node. -/
  | dangling
  deriving DecidableEq, Repr

deriving instance DecidableEq for Except

/-- The failure is a C++ exception (an error raised to the caller). -/
def Failure.isThrown : Failure → Bool
  | .assertion => false
  | .fuel => false
  | .dangling => false
  | _ => true

/-! ## C string helpers -/

/-- `strncmp(s, p, strlen(p)) == 0`: the string `s` starts with `p`. -/
def startsWith (s p : List Char) : Bool :=
  p.isPrefixOf s

/-- `strstr(hay, needle)`: the suffix of `hay` at the first occurrence of
`needle`, or `none` for `NULL`. -/
def strstr : List Char → List Char → Option (List Char)
  | [], needle => if needle = [] then some [] else none
  | c :: rest, needle =>
    if startsWith (c :: rest) needle then some (c :: rest) else strstr rest needle

/-- `strchr(s, c)`: the suffix of `s` at the first occurrence of `c`, or
`none` for `NULL`. -/
def strchr : List Char → Char → Option (List Char)
  | [], _ => none
  | x :: xs, c => if x = c then some (x :: xs) else strchr xs c

/-! ## `VmasFSData::validateFileName` and `VmasFSData::convertFileName` -/

def UP_PREFIX : List Char := "UP".toList
def CUR_PREFIX : List Char := "CUR".toList
def ROOT_PREFIX : List Char := "ROOT".toList

/-- `VmasFSData::validateFileName`. -/
def validateFileName (fname : List Char) : Except Failure Unit :=
  if fname = [] then .error .empty_name
  else if (strstr fname "//".toList).isSome then .error .two_slashes
  else .ok ()

/-- The `while (strncmp(fname, "../", 3) == 0)` loop of `convertFileName`.
The state is `(converted, fname, parentRelative)`. -/
def upLoop (readonly needPrefix : Bool) :
    List Char → List Char → Bool → Except Failure (List Char × List Char × Bool)
  | c1 :: c2 :: c3 :: rest, converted, parentRelative =>
    if c1 = '.' ∧ c2 = '.' ∧ c3 = '/' then
      if !readonly then .error .parent_rw
      else if !needPrefix then .error .assertion
      else upLoop readonly needPrefix rest (converted ++ UP_PREFIX) true
    else .ok (converted, c1 :: c2 :: c3 :: rest, parentRelative)
  | fname, converted, parentRelative => .ok (converted, fname, parentRelative)

/-- The component loop of `convertFileName`:
`while (start[0] != 0 && (cur = strchr(start + 1, '/')) != NULL)`.
Returns `(start, converted)` at loop exit.  The first argument bounds the
number of iterations. -/
def componentLoop : Nat → List Char → List Char → Except Failure (List Char × List Char)
  | 0, _, _ => .error .fuel
  | n + 1, start, converted =>
    match start with
    | [] => .ok (start, converted)
    | c :: tl =>
      match strchr tl '/' with
      | none => .ok (start, converted)
      | some cur =>
        let d := start.length - cur.length
        if (d = 1 ∧ c = '.') ∨ (d = 2 ∧ c = '.' ∧ tl.head? = some '.') then
          .error .bad_name
        else
          componentLoop n cur.tail (converted ++ start.take (d + 1))

/-- The part of `convertFileName` after the prefix has been added. -/
def convertTail (fname converted : List Char) : Except Failure (List Char) :=
  if fname = [] then .ok converted
  else if fname.head? = some '/' then .error .assertion
  else
    match componentLoop (fname.length + 1) fname converted with
    | .error e => .error e
    | .ok (start, converted) =>
      if start = ".".toList ∨ start = "..".toList then .error .bad_name
      else .ok (converted ++ start)

/-- The prefix part of `convertFileName`: returns `(converted, fname)`. -/
def convertHead (fname : List Char) (readonly needPrefix : Bool) :
    Except Failure (List Char × List Char) :=
  if fname.head? = some '/' then
    if !readonly then .error .absolute_rw
    else if !needPrefix then .error .assertion
    else .ok (ROOT_PREFIX, fname.tail)
  else
    match upLoop readonly needPrefix fname [] false with
    | .error e => .error e
    | .ok (converted, fname, parentRelative) =>
      .ok (if needPrefix && !parentRelative then converted ++ CUR_PREFIX else converted, fname)

/-- `VmasFSData::convertFileName`. -/
def convertFileName (fname : List Char) (readonly needPrefix : Bool) :
    Except Failure (List Char) :=
  match validateFileName fname with
  | .error e => .error e
  | .ok () =>
    if fname = [] then .error .assertion
    else
      match convertHead fname readonly needPrefix with
      | .error e => .error e
      | .ok (converted, fname) =>
        convertTail fname (if needPrefix then converted ++ ['/'] else converted)

/-! ## Vocabulary of the path-normalisation claims -/

/-- The raw prefix made of `k` segments `../`. -/
def upSegments : Nat → List Char
  | 0 => []
  | k + 1 => '.' :: '.' :: '/' :: upSegments k

/-- The canonical prefix the code builds for `k` leading `../` segments:
`k` copies of `UP_PREFIX`, one after the other. -/
def upNames (k : Nat) : List Char :=
  (List.replicate k UP_PREFIX).flatten

/-- A path component equal to `.` or `..`. -/
def isDotOrDotDot (c : List Char) : Prop :=
  c = ".".toList ∨ c = "..".toList

instance (c : List Char) : Decidable (isDotOrDotDot c) := by
  unfold isDotOrDotDot; infer_instance

/-- The name without its whole run of leading `../` segments. -/
def dropUpSegments : List Char → List Char
  | c1 :: c2 :: c3 :: rest =>
    if c1 = '.' ∧ c2 = '.' ∧ c3 = '/' then dropUpSegments rest else c1 :: c2 :: c3 :: rest
  | fname => fname

/-- The remainder of a raw name: what is left after stripping the single
leading `/`, or the whole run of leading `../` segments. -/
def remainder (fname : List Char) : List Char :=
  if fname.head? = some '/' then fname.tail else dropUpSegments fname

/-- Some `/`-separated component of `s` equals `.` or `..`. -/
def hasDotComponent (s : List Char) : Prop :=
  ∃ c ∈ s.splitOn '/', isDotOrDotDot c

instance (s : List Char) : Decidable (hasDotComponent s) := by
  unfold hasDotComponent; infer_instance

/-! ## Nodes (`src/lib/fileNode.h`) -/

/-- `FileNode::nodeState`. -/
inductive nodeState where
  | CLOSED
  | OPENED
  | CHANGED
  | NEW
  | NEW_DIR
  deriving DecidableEq, Repr

/-- The fields of `FileNode` that the tree code reads and writes.  `name`, a
pointer into `full_name`, is its offset there; `childs` and `parent` hold node
addresses, `none` being `NULL`.  Times, mode, owner, size and the buffer are
left out. -/
structure FileNode where
  full_name : List Char
  name : Nat
  is_dir : Bool
  id : Int
  childs : List Nat
  parent : Option Nat
  state : nodeState
  metadataChanged : Bool
  deriving DecidableEq, Repr

/-- Modelled from the spec: the value of `FileNode::ROOT_NODE_INDEX`, declared
in fileNode.h and defined in fileNode.cpp, which is not among the sources;
the spec calls it a negative sentinel. -/
def ROOT_NODE_INDEX : Int := -1

/-- Modelled from the spec: the value of `FileNode::NEW_NODE_INDEX`, declared
in fileNode.h and defined in fileNode.cpp, which is not among the sources;
the spec calls it a negative sentinel distinct from the root one. -/
def NEW_NODE_INDEX : Int := -2

/-- Modelled from the spec: the offset at which `FileNode::parse_name`
(fileNode.cpp, not among the sources) leaves the `name` pointer: the short
name is the byte range following the last `/` of the full path, or the whole
path if it has none. -/
def nameOffset : List Char → Nat
  | [] => 0
  | c :: cs => if '/' ∈ cs then nameOffset cs + 1 else if c = '/' then 1 else 0

/-- Modelled from the spec: the path a node stores for a given name
(`FileNode::parse_name`, not among the sources): a trailing `/` classifies
the entry as a directory and is not part of the stored path, which is the key
that `find` is called with and that `getParentName` returns. -/
def storedName (fname : List Char) : List Char :=
  if fname.getLast? = some '/' then fname.dropLast else fname

/-- `FileNode::getParentName`. -/
def FileNode.getParentName (n : FileNode) : List Char :=
  if n.name > 0 then n.full_name.take (n.name - 1) else []

/-- The short name `name` points to. -/
def FileNode.shortName (n : FileNode) : List Char :=
  n.full_name.drop n.name

/-- `FileNode::isChanged`. -/
def FileNode.isChanged (n : FileNode) : Bool :=
  n.state = .CHANGED || n.state = .NEW

/-- `FileNode::isTemporaryDir`. -/
def FileNode.isTemporaryDir (n : FileNode) : Bool :=
  n.state = .NEW_DIR && n.id = NEW_NODE_INDEX

/-- Modelled from the spec: `FileNode::appendChild` (declared in fileNode.h,
"add child node to list"; the body is not among the sources). -/
def FileNode.appendChild (n : FileNode) (child : Nat) : FileNode :=
  { n with childs := n.childs ++ [child] }

/-- Modelled from the spec: `FileNode::detachChild` (declared in fileNode.h,
"remove child node from list"; the body is not among the sources). -/
def FileNode.detachChild (n : FileNode) (child : Nat) : FileNode :=
  { n with childs := n.childs.filter (fun c => c ≠ child) }

/-- Modelled from the spec: `FileNode::setCTime` (declared in fileNode.h, the
body is not among the sources): it changes the change time, which the model
leaves out, and sets the metadata-dirty flag. -/
def FileNode.setCTime (n : FileNode) : FileNode :=
  { n with metadataChanged := true }

/-- Modelled from the spec: `FileNode::rename` (declared in fileNode.h,
"Rename file without reparenting"; the body is not among the sources): the
stored path is updated and the `name` pointer rederived; the kind of the node
does not change. -/
def FileNode.rename (n : FileNode) (new_name : List Char) : FileNode :=
  { n with full_name := storedName new_name, name := nameOffset (storedName new_name) }

/-- Modelled from the spec: `FileNode::createRootNode` (not among the
sources): path `""`, a directory, archive index `ROOT_NODE_INDEX`. -/
def createRootNode : FileNode :=
  { full_name := [], name := 0, is_dir := true, id := ROOT_NODE_INDEX, childs := [],
    parent := none, state := .NEW_DIR, metadataChanged := false }

/-- Modelled from the spec: `FileNode::createNodeForZipEntry` (not among the
sources): a trailing `/` of the entry name classifies the node as a directory;
the node starts `CLOSED`. -/
def createNodeForZipEntry (fname : List Char) (id : Int) : FileNode :=
  { full_name := storedName fname, name := nameOffset (storedName fname),
    is_dir := fname.getLast? = some '/', id := id, childs := [], parent := none,
    state := .CLOSED, metadataChanged := false }

/-- Modelled from the spec: `FileNode::createIntermediateDir` (not among the
sources): a directory with archive index `NEW_NODE_INDEX` and state `NEW_DIR`. -/
def createIntermediateDir (fname : List Char) : FileNode :=
  { full_name := fname, name := nameOffset fname, is_dir := true, id := NEW_NODE_INDEX,
    childs := [], parent := none, state := .NEW_DIR, metadataChanged := false }

/-! ## The path map (`src/lib/types.h`) -/

/-- `ltstr`: `strcmp(s1, s2) < 0`, the characters compared as unsigned values. -/
def ltstr : List Char → List Char → Bool
  | [], [] => false
  | [], _ :: _ => true
  | _ :: _, [] => false
  | a :: as, b :: bs => if a = b then ltstr as bs else decide (a.toNat < b.toNat)

/-- `filemap_t`, a `std::map` from paths to node addresses: a list of entries
with distinct keys.  The order of a `std::map` shows only in iteration, see
`filemap_t.upper`. -/
abbrev filemap_t := List (List Char × Nat)

/-- `files.find(key)`: the address stored under `key`, `none` for `end()`. -/
def filemap_t.find : filemap_t → List Char → Option Nat
  | [], _ => none
  | (k, v) :: rest, key => if k = key then some v else filemap_t.find rest key

/-- `files.erase(key)`. -/
def filemap_t.erase (m : filemap_t) (key : List Char) : filemap_t :=
  m.filter (fun e => e.1 ≠ key)

/-- `files[key] = v`. -/
def filemap_t.insert (m : filemap_t) (key : List Char) (v : Nat) : filemap_t :=
  (key, v) :: filemap_t.erase m key

/-- Whether `key` lies above the lower bound `lo` of an iteration. -/
def aboveKey (lo : Option (List Char)) (key : List Char) : Bool :=
  match lo with
  | none => true
  | some l => ltstr l key

/-- Iteration over the map: the smallest key above `lo` in the order `ltstr`
(any key when `lo` is `none`).  `files.begin()` is `upper m none`; for an
iterator at key `k`, `++i` moves to `upper m (some k)`; `none` is `end()`. -/
def filemap_t.upper : filemap_t → Option (List Char) → Option (List Char)
  | [], _ => none
  | (k, _) :: rest, lo =>
    let r := filemap_t.upper rest lo
    if aboveKey lo k then
      match r with
      | none => some k
      | some b => if ltstr k b then some k else some b
    else r

/-! ## The tree (`src/lib/vmasFSData.cpp`) -/

/-- One call made to the archive library. -/
inductive ZipCall where
  | zip_delete (id : Int)
  | zip_file_rename (id : Int) (name : List Char)
  deriving DecidableEq, Repr

/-- `VmasFSData`, with the memory its node pointers point into: `heap p` is
the node at address `p` (`none` if there is none), `next` the address the
next `new FileNode` gets, and `zipLog` the calls made on `m_zip` so far. -/
structure VmasFSData where
  heap : Nat → Option FileNode
  next : Nat
  files : filemap_t
  m_root : Nat
  zipLog : List ZipCall

/-- The archive library, as far as the tree code sees it: `zip_delete id` is
the value `zip_delete(m_zip, id)` returns. -/
structure ZipLib where
  zip_delete : Int → Int

def ENOENT : Int := 2
def EIO : Int := 5
def ENOMEM : Int := 12
def EINVAL : Int := 22

/-- `*p` for a node pointer `p`; an address without a node cannot be read. -/
def VmasFSData.deref (s : VmasFSData) (p : Nat) : Except Failure FileNode :=
  match s.heap p with
  | some n => .ok n
  | none => .error .dangling

/-- Write the node at address `p`. -/
def VmasFSData.store (s : VmasFSData) (p : Nat) (n : FileNode) : VmasFSData :=
  { s with heap := fun q => if q = p then some n else s.heap q }

/-- `new FileNode(...)`: the node is placed at a fresh address. -/
def VmasFSData.alloc (s : VmasFSData) (n : FileNode) : VmasFSData × Nat :=
  ({ s with heap := fun q => if q = s.next then some n else s.heap q, next := s.next + 1 },
    s.next)

/-- `delete node`. -/
def VmasFSData.free (s : VmasFSData) (p : Nat) : VmasFSData :=
  { s with heap := fun q => if q = p then none else s.heap q }

/-- `VmasFSData::find`. -/
def VmasFSData.find (s : VmasFSData) (fname : List Char) : Option Nat :=
  s.files.find fname

/-- `VmasFSData::numFiles`. -/
def VmasFSData.numFiles (s : VmasFSData) : Int :=
  (s.files.length : Int) - 1

/-- `VmasFSData::findParent`. -/
def VmasFSData.findParent (s : VmasFSData) (node : FileNode) : Option Nat :=
  s.find node.getParentName

/-- The last two statements of `connectNodeToTree`:
`node->parent = parent; parent->appendChild(node);`. -/
def VmasFSData.attach (s : VmasFSData) (node parent : Nat) : Except Failure VmasFSData := do
  let nd ← s.deref node
  let s1 := s.store node { nd with parent := some parent }
  let pd ← s1.deref parent
  pure (s1.store parent (pd.appendChild node))

/-- `VmasFSData::connectNodeToTree`.  The first argument bounds the depth of
the recursion. -/
def VmasFSData.connectNodeToTree : Nat → VmasFSData → Nat → Except Failure VmasFSData
  | 0, _, _ => .error .fuel
  | n + 1, s, node => do
    let nd ← s.deref node
    match s.findParent nd with
    | none =>
      let (s1, parent) := s.alloc (createIntermediateDir nd.getParentName)
      let pd ← s1.deref parent
      let s2 := { s1 with files := s1.files.insert pd.full_name parent }
      let s3 ← VmasFSData.connectNodeToTree n s2 parent
      s3.attach node parent
    | some parent =>
      let pd ← s.deref parent
      if !pd.is_dir then .error .bad_structure
      else s.attach node parent

/-- The loop of `build_tree` that connects the nodes: the iterator `i` runs
over the live map, `none` being `files.end()`.  The first argument bounds the
number of iterations. -/
def VmasFSData.connectLoop : Nat → VmasFSData → Option (List Char) → Except Failure VmasFSData
  | 0, _, _ => .error .fuel
  | _ + 1, s, none => .ok s
  | n + 1, s, some key => do
    let node ← (match s.files.find key with
      | some node => .ok node
      | none => .error .dangling)
    let nd ← s.deref node
    let s1 ← (if node ≠ s.m_root then s.connectNodeToTree (nd.full_name.length + 1) node
      else .ok s)
    VmasFSData.connectLoop n s1 (s1.files.upper (some key))

/-- The loop of `build_tree` that adds the archive entries: `names` are the
raw names of the entries from index `i` on. -/
def VmasFSData.addEntries (readonly needPrefix : Bool) :
    List (List Char) → Nat → VmasFSData → Except Failure VmasFSData
  | [], _, s => .ok s
  | name :: rest, i, s => do
    let converted ← convertFileName name readonly needPrefix
    if (s.files.find converted).isSome then .error .duplicate
    else
      let (s1, node) := s.alloc (createNodeForZipEntry converted i)
      let nd ← s1.deref node
      let s2 := { s1 with files := s1.files.insert nd.full_name node }
      VmasFSData.addEntries readonly needPrefix rest (i + 1) s2

/-- The scan of `build_tree` for absolute or parent-relative names. -/
def needPrefixOf (readonly : Bool) (names : List (List Char)) : Bool :=
  readonly && names.any (fun name => name.head? = some '/' || startsWith name "../".toList)

/-- The first part of `build_tree`, up to and including the loop that adds
the archive entries. -/
def build_entries (names : List (List Char)) (readonly : Bool) : Except Failure VmasFSData := do
  let s0 : VmasFSData :=
    { heap := fun _ => none, next := 0, files := [], m_root := 0, zipLog := [] }
  let (s1, root) := s0.alloc createRootNode
  let rd ← s1.deref root
  let s2 := { s1 with m_root := root, files := s1.files.insert rd.full_name root }
  let needPrefix := needPrefixOf readonly names
  VmasFSData.addEntries readonly needPrefix names 0 s2

/-- `VmasFSData::build_tree`, on the archive whose entries have the raw names
`names`, entry `i` being `names[i]`. -/
def build_tree (names : List (List Char)) (readonly : Bool) : Except Failure VmasFSData := do
  let s3 ← build_entries names readonly
  VmasFSData.connectLoop (s3.files.length + 1) s3 (s3.files.upper none)

/-- The directory listing of `path`: the short names of the children of the
node filed under `path`, when that node is a directory. -/
def VmasFSData.dirList (s : VmasFSData) (path : List Char) : Option (List (List Char)) :=
  match s.find path with
  | none => none
  | some p =>
    match s.heap p with
    | none => none
    | some nd =>
      if nd.is_dir then
        some (nd.childs.map (fun c =>
          match s.heap c with
          | some cd => cd.shortName
          | none => []))
      else none

/-- `VmasFSData::removeNode`. -/
def VmasFSData.removeNode (zip : ZipLib) (s : VmasFSData) (node : Nat) :
    Except Failure (Int × VmasFSData) := do
  let nd ← s.deref node
  match nd.parent with
  | none => .error .assertion
  | some parent =>
    let pd ← s.deref parent
    let s1 := s.store parent (pd.detachChild node)
    let pd1 ← s1.deref parent
    let s2 := s1.store parent pd1.setCTime
    let nd2 ← s2.deref node
    let s3 := { s2 with files := s2.files.erase nd2.full_name }
    let id := nd2.id
    let s4 := s3.free node
    if id ≥ 0 then
      let s5 := { s4 with zipLog := s4.zipLog ++ [.zip_delete id] }
      pure (if zip.zip_delete id = 0 then 0 else ENOENT, s5)
    else
      pure (0, s4)

/-- `VmasFSData::insertNode`. -/
def VmasFSData.insertNode (s : VmasFSData) (node : Nat) : Except Failure VmasFSData := do
  let nd ← s.deref node
  match s.findParent nd with
  | none => .error .assertion
  | some parent =>
    let pd ← s.deref parent
    let s1 := s.store parent (pd.appendChild node)
    let nd1 ← s1.deref node
    let s2 := s1.store node { nd1 with parent := some parent }
    let pd2 ← s2.deref parent
    let s3 := s2.store parent pd2.setCTime
    let nd3 ← s3.deref node
    if (s3.files.find nd3.full_name).isSome then .error .assertion
    else pure { s3 with files := s3.files.insert nd3.full_name node }

/-- `VmasFSData::renameNode`. -/
def VmasFSData.renameNode (s : VmasFSData) (node : Nat) (newName : List Char)
    (reparent : Bool) : Except Failure VmasFSData := do
  let nd ← s.deref node
  match nd.parent with
  | none => .error .assertion
  | some parent1 =>
    let s1 ← (if reparent then do
        let pd ← s.deref parent1
        pure (s.store parent1 (pd.detachChild node))
      else pure s)
    let nd1 ← s1.deref node
    let s2 := { s1 with files := s1.files.erase nd1.full_name }
    let s3 := s2.store node (nd1.rename newName)
    let nd3 ← s3.deref node
    let s4 := { s3 with files := s3.files.insert nd3.full_name node }
    if reparent then
      match s4.findParent nd3 with
      | none => .error .assertion
      | some parent2 =>
        let pd2 ← s4.deref parent2
        let s5 := s4.store parent2 (pd2.appendChild node)
        let nd5 ← s5.deref node
        let s6 := s5.store node { nd5 with parent := some parent2 }
        if parent1 ≠ parent2 then do
          let p1 ← s6.deref parent1
          let s7 := s6.store parent1 p1.setCTime
          let p2 ← s7.deref parent2
          pure (s7.store parent2 p2.setCTime)
        else pure s6
    else pure s4

/-! ## Invariants of the tree -/

/-- What the tree code keeps true of a `VmasFSData`: addresses from `next` on
hold no node; a node filed in the map is filed under its own path, with its
`name` pointer after the last `/`; the empty path is the root, a directory. -/
structure WF (s : VmasFSData) : Prop where
  fresh : ∀ p, s.next ≤ p → s.heap p = none
  filed : ∀ key p, s.find key = some p →
    ∃ nd, s.heap p = some nd ∧ nd.full_name = key ∧ nd.name = nameOffset key
  root : s.find [] = some s.m_root
  rootDir : ∃ rd, s.heap s.m_root = some rd ∧ rd.is_dir = true

/-- The node at `p` is connected: its parent pointer is the node filed under
its parent path, that node is a directory, and it lists `p` as a child. -/
def Connected (s : VmasFSData) (p : Nat) : Prop :=
  ∃ nd par pd, s.heap p = some nd ∧ nd.parent = some par ∧
    s.find nd.getParentName = some par ∧ s.heap par = some pd ∧ pd.is_dir = true ∧
    p ∈ pd.childs

/-- From `s` to `t` the tree only grew: map entries and nodes are kept, child
lists only gain members, and parent pointers are kept except at the addresses
in `E`. -/
structure Grows (E : Nat → Prop) (s t : VmasFSData) : Prop where
  root : t.m_root = s.m_root
  next : s.next ≤ t.next
  files : ∀ key q, s.find key = some q → t.find key = some q
  heap : ∀ q nd, s.heap q = some nd →
    ∃ nd', t.heap q = some nd' ∧ nd'.full_name = nd.full_name ∧ nd'.name = nd.name ∧
      nd'.is_dir = nd.is_dir ∧ nd'.id = nd.id ∧ (∀ c ∈ nd.childs, c ∈ nd'.childs) ∧
      (¬ E q → nd'.parent = nd.parent)

/-- The state after `createNodeForZipEntry(cname, i)` and
`files[node->full_name.c_str()] = node` in `build_tree`; the new node is at
address `s.next`. -/
def VmasFSData.withEntry (s : VmasFSData) (cname : List Char) (i : Nat) : VmasFSData :=
  { s with
    heap := fun q => if q = s.next then some (createNodeForZipEntry cname i) else s.heap q,
    next := s.next + 1,
    files := s.files.insert (storedName cname) s.next }

/-- The number of keys of the map at or after `c` in iteration order. -/
def keysFrom (m : filemap_t) (c : List Char) : Nat :=
  m.countP (fun e => !ltstr e.1 c)

/-- Every node of the tree other than the root is connected. -/
def AllConnected (s : VmasFSData) : Prop :=
  ∀ key q, s.find key = some q → q ≠ s.m_root → Connected s q

/-- The loop of `build_tree` has not yet connected only nodes at or after the
iterator `cur`. -/
def LoopInv (s : VmasFSData) (cur : Option (List Char)) : Prop :=
  ∀ key q, s.find key = some q → q ≠ s.m_root →
    Connected s q ∨ ∃ c, cur = some c ∧ ltstr key c = false

/-- The state after `createIntermediateDir(pn)` and `files[pn] = parent` in
`connectNodeToTree`; the new node is at address `s.next`. -/
def VmasFSData.withDir (s : VmasFSData) (pn : List Char) : VmasFSData :=
  { s with
    heap := fun q => if q = s.next then some (createIntermediateDir pn) else s.heap q,
    next := s.next + 1,
    files := s.files.insert pn s.next }

/-- The tree right after `build_tree` has created the root and filed it under
the empty path. -/
def VmasFSData.initial : VmasFSData :=
  { heap := fun q => if q = 0 then some createRootNode else none,
    next := 1,
    files := filemap_t.insert [] [] 0,
    m_root := 0,
    zipLog := [] }

/-- The failure of a call, `none` if it returned. -/
def failureOf {α : Type} (r : Except Failure α) : Option Failure :=
  match r with
  | .error e => some e
  | .ok _ => none

/-! ## The rename entry of the adapter (`src/lib/vmas-fs.cpp`) -/

/-- The name `vmasfs_rename` builds for a descendant of a renamed directory:
`strcpy(name, new_name); strcpy(name + len, full_name + oldLen);` and a `/`
appended for a directory. -/
def descendantName (len oldLen : Nat) (new_name : List Char) (cd : FileNode) : List Char :=
  new_name.take len ++ cd.full_name.drop oldLen ++ (if cd.is_dir then ['/'] else [])

/-- The `for` loop of `vmasfs_rename` over the child list of one directory:
each child is pushed on the queue and renamed, without reparenting. -/
def renameChilds (len oldLen : Nat) (new_name : List Char) :
    List Nat → List Nat → VmasFSData → Except Failure (List Nat × VmasFSData)
  | [], q, s => .ok (q, s)
  | nn :: rest, q, s => do
    let cd ← s.deref nn
    let name := descendantName len oldLen new_name cd
    let s1 := if cd.id ≥ 0 then { s with zipLog := s.zipLog ++ [.zip_file_rename cd.id name] }
      else s
    let s2 ← s1.renameNode nn name false
    renameChilds len oldLen new_name rest (q ++ [nn]) s2

/-- The `while (!q.empty())` loop of `vmasfs_rename`.  The first argument
bounds the number of iterations. -/
def renameQueue (len oldLen : Nat) (new_name : List Char) :
    Nat → List Nat → VmasFSData → Except Failure VmasFSData
  | 0, _, _ => .error .fuel
  | _ + 1, [], s => .ok s
  | k + 1, n :: q, s => do
    let nd ← s.deref n
    let (q1, s1) ← renameChilds len oldLen new_name nd.childs q s
    renameQueue len oldLen new_name k q1 s1

/-- `vmasfs_rename`: the value returned to the host and the tree afterwards.
Allocation never fails in the model, so nothing is thrown inside the `try`
block and its `catch (...)` is not entered. -/
def vmasfs_rename (zip : ZipLib) (s : VmasFSData) (path new_path : List Char) :
    Except Failure (Int × VmasFSData) :=
  if path = [] then .ok (-ENOENT, s)
  else
    match s.find path.tail with
    | none => .ok (-ENOENT, s)
    | some node =>
      if new_path = [] then .ok (-EINVAL, s)
      else do
        let (res, s1) ← (match s.find new_path.tail with
          | some new_node => s.removeNode zip new_node
          | none => .ok (0, s))
        if res ≠ 0 then .ok (-res, s1)
        else
          let nd ← s1.deref node
          let len := if nd.is_dir then new_path.length else new_path.length - 1
          let oldLen := if nd.is_dir then path.tail.length + 1 else path.tail.length + 1 - 1
          let new_name := new_path.tail ++ (if nd.is_dir then ['/'] else [])
          let s2 ← (if nd.is_dir then
              renameQueue len oldLen new_name (s1.files.length + 1) [node] s1
            else .ok s1)
          let nd2 ← s2.deref node
          let s3 := if nd2.id ≥ 0 then
              { s2 with zipLog := s2.zipLog ++ [.zip_file_rename nd2.id new_name] }
            else s2
          let s4 ← s3.renameNode node new_name true
          pure (0, s4)

/-! ## Tree invariant 1 -/

/-- Every node filed in the map, the root included, is filed under its own
path. -/
def FiledOK (s : VmasFSData) : Prop :=
  ∀ key p, s.find key = some p → ∃ nd, s.heap p = some nd ∧ nd.full_name = key

/-- Tree invariant 1: every node `n` of the tree other than the root is filed
under its own path (`find(n.path) = n`) and is in the child list of its
parent. -/
def Inv1 (s : VmasFSData) : Prop :=
  ∀ key p, s.find key = some p → p ≠ s.m_root →
    ∃ nd par pd, s.heap p = some nd ∧ nd.full_name = key ∧ nd.parent = some par ∧
      s.heap par = some pd ∧ p ∈ pd.childs

/-- From `s` to `t` nothing has changed for the nodes other than `node`:
neither their map entry, nor their parent, nor the membership of any of them
in a child list. -/
structure Frame (s t : VmasFSData) (node : Nat) : Prop where
  root : t.m_root = s.m_root
  files : ∀ key p, p ≠ node → (t.find key = some p ↔ s.find key = some p)
  heap : ∀ q, q ≠ node → ∀ ndq, s.heap q = some ndq →
    ∃ ndq', t.heap q = some ndq' ∧ ndq'.full_name = ndq.full_name ∧
      ndq'.parent = ndq.parent ∧ ndq'.is_dir = ndq.is_dir ∧
      ∀ c, c ≠ node → (c ∈ ndq'.childs ↔ c ∈ ndq.childs)
  alloc : ∀ q, q ≠ node → s.heap q = none → t.heap q = none

/-- A child list holds only nodes whose parent pointer points back to the
owner of the list. -/
def ChildsOK (s : VmasFSData) : Prop :=
  ∀ q ndq c, s.heap q = some ndq → c ∈ ndq.childs →
    ∃ cd, s.heap c = some cd ∧ cd.parent = some q

/-- The tree after `insertNode(node)`, for the node `nd` at `node` and its
parent `pd` at `par`. -/
def VmasFSData.inserted (s : VmasFSData) (node par : Nat) (nd pd : FileNode) : VmasFSData :=
  { s with
    heap := fun q =>
      if q = par then some (pd.appendChild node).setCTime
      else if q = node then some { nd with parent := some par }
      else s.heap q,
    files := s.files.insert nd.full_name node }

/-- The tree after `removeNode(node)`, for the node `nd` at `node` and its
parent `pd` at `par`. -/
def VmasFSData.removed (s : VmasFSData) (node par : Nat) (nd pd : FileNode) : VmasFSData :=
  { s with
    heap := fun q =>
      if q = node then none
      else if q = par then some (pd.detachChild node).setCTime
      else s.heap q,
    files := s.files.erase nd.full_name,
    zipLog := if nd.id ≥ 0 then s.zipLog ++ [.zip_delete nd.id] else s.zipLog }

/-- The tree after `renameNode(node, newName, false)`, for the node `nd` at
`node`. -/
def VmasFSData.renamed (s : VmasFSData) (node : Nat) (nd : FileNode) (newName : List Char) :
    VmasFSData :=
  { s with
    heap := fun q => if q = node then some (nd.rename newName) else s.heap q,
    files := (s.files.erase nd.full_name).insert (storedName newName) node }

/-- The tree after `renameNode(node, newName, true)`, for the node `nd` at
`node`, its old parent `pd1` at `par1` and its new parent `pd2` at `par2`
(a node that is its own old parent is detached from itself and gets the
change time of an old parent). -/
def VmasFSData.reparented (s : VmasFSData) (node par1 par2 : Nat) (nd pd1 pd2 : FileNode)
    (newName : List Char) : VmasFSData :=
  { s with
    heap := fun q =>
      if q = node then
        some { (if par1 = node then (nd.detachChild node).setCTime else nd).rename newName with
          parent := some par2 }
      else if par1 = par2 then
        (if q = par1 then some ((pd1.detachChild node).appendChild node) else s.heap q)
      else if q = par1 then some (pd1.detachChild node).setCTime
      else if q = par2 then some (pd2.appendChild node).setCTime
      else s.heap q,
    files := (s.files.erase nd.full_name).insert (storedName newName) node }

/-- The parent path of a stored path: what precedes its last `/`, the empty
path if it has none (what `getParentName` returns for a node that stores the
path). -/
def parentPath (path : List Char) : List Char :=
  if nameOffset path > 0 then path.take (nameOffset path - 1) else []

/-! ## Further entries of the adapter (`src/lib/vmas-fs.cpp`) -/

def ENOTDIR : Int := 20
def EISDIR : Int := 21
def ENOTEMPTY : Int := 39

/-- `vmasfs_unlink`: the value returned to the host and the tree afterwards. -/
def vmasfs_unlink (zip : ZipLib) (s : VmasFSData) (path : List Char) :
    Except Failure (Int × VmasFSData) :=
  if path = [] then .ok (-ENOENT, s)
  else
    match s.find path.tail with
    | none => .ok (-ENOENT, s)
    | some node => do
      let nd ← s.deref node
      if nd.is_dir then .ok (-EISDIR, s)
      else do
        let (res, s1) ← s.removeNode zip node
        pure (-res, s1)

/-- `vmasfs_rmdir`: the value returned to the host and the tree afterwards. -/
def vmasfs_rmdir (zip : ZipLib) (s : VmasFSData) (path : List Char) :
    Except Failure (Int × VmasFSData) :=
  if path = [] then .ok (-ENOENT, s)
  else
    match s.find path.tail with
    | none => .ok (-ENOENT, s)
    | some node => do
      let nd ← s.deref node
      if !nd.is_dir then .ok (-ENOTDIR, s)
      else if !nd.childs.isEmpty then .ok (-ENOTEMPTY, s)
      else do
        let (res, s1) ← s.removeNode zip node
        pure (-res, s1)

/-- The fields of `struct statvfs` that `vmasfs_statfs` reads or writes, as
unsigned 64-bit values. -/
structure statvfs_t where
  f_bsize : Nat
  f_frsize : Nat
  f_blocks : Nat
  f_bfree : Nat
  f_bavail : Nat
  f_files : Nat
  f_ffree : Nat
  f_favail : Nat
  f_namemax : Nat
  deriving DecidableEq, Repr

/-- `vmasfs_statfs`: `host` is what `statvfs(m_cwd, &st)` returns, its return
value and the `st` it fills; the result is the value returned to the host of
the file system and `*buf` afterwards. -/
def vmasfs_statfs (s : VmasFSData) (host : Int × statvfs_t) (buf : statvfs_t) :
    Int × statvfs_t :=
  let err := host.1
  let st := host.2
  if err ≠ 0 then (-err, buf)
  else
    let avail := (st.f_frsize * st.f_bavail) % 2 ^ 64
    (0, { buf with
      f_bavail := avail, f_bfree := avail, f_bsize := 1, f_blocks := avail,
      f_ffree := 0, f_favail := 0, f_files := (s.numFiles % 2 ^ 64).toNat, f_namemax := 255 })

/-! ## `VmasFSData::try_passwd` (`src/lib/vmasFSData.cpp`) -/

/-- What a call of `BigBuffer::open(m_zip, 0, &zep)` gives: a file handle, or
`NULL` with the error code left in `zep`. -/
inductive OpenResult where
  | opened
  | failed (zep : Int)
  deriving DecidableEq, Repr

/-- `ZIP_ER_NOPASSWD` of libzip. -/
def ZIP_ER_NOPASSWD : Int := 26

/-- The process-wide state `try_passwd` works on: `passwd` is
`BigBuffer::passwd` (`none` for `NULL`), `opens` the password in effect at
each call of `BigBuffer::open` made so far. -/
structure PasswdState where
  passwd : Option (List Char)
  opens : List (Option (List Char))
  deriving DecidableEq, Repr

/-- `VmasFSData::try_passwd` from the label `just_try` on.  `bbOpen i p` is
what the `i`-th call of `BigBuffer::open` on entry 0 gives while the password
is `p` (the body of `BigBuffer::open` is not among the sources).  The first
argument bounds the number of jumps to the label. -/
def just_try (bbOpen : Nat → Option (List Char) → OpenResult) (pass : List Char) :
    Nat → Int → PasswdState → Except Failure (Bool × PasswdState)
  | 0, _, _ => .error .fuel
  | k + 1, try_count, st =>
    let zf := bbOpen st.opens.length st.passwd
    let st1 := { st with opens := st.opens ++ [st.passwd] }
    match zf with
    | .opened => .ok (true, st1)
    | .failed zep =>
      if ZIP_ER_NOPASSWD = zep then
        if try_count ≠ 0 then
          just_try bbOpen pass k (try_count - 1) { st1 with passwd := some pass }
        else .ok (false, st1)
      else .ok (false, st1)

/-- `VmasFSData::try_passwd`. -/
def try_passwd (bbOpen : Nat → Option (List Char) → OpenResult) (pass : List Char)
    (st : PasswdState) : Except Failure (Bool × PasswdState) :=
  just_try bbOpen pass 3 1 st

/-! ## The chunked buffer (`src/lib/bigBuffer.h`) -/

/-- `BigBuffer::chunkSize`. -/
def chunkSize : Nat := 4 * 1024

/-- `BigBuffer::chunksCount`: the sum and the quotient are computed in
`zip_uint64_t`, the result is converted to `unsigned int` (32 bits). -/
def chunksCount (offset : Nat) : Nat :=
  ((offset + chunkSize - 1) % 2 ^ 64 / chunkSize) % 2 ^ 32

/-- `BigBuffer::chunkNumber`, converted to `unsigned int` (32 bits). -/
def chunkNumber (offset : Nat) : Nat :=
  (offset / chunkSize) % 2 ^ 32

/-- `BigBuffer::chunkOffset`. -/
def chunkOffset (offset : Nat) : Nat :=
  offset % chunkSize

/-! ## `VmasFSData::save` (`src/lib/vmasFSData.cpp`) -/

/-- One call that `save` makes on a node or on the archive: `node->save()`,
`zip_dir_add(m_zip, name, ZIP_FL_ENC_UTF_8)`, and `node->saveMetadata()` with
the archive index the node has at that moment. -/
inductive SaveCall where
  | node_save (node : Nat)
  | zip_dir_add (name : List Char)
  | node_saveMetadata (node : Nat) (id : Int)
  deriving DecidableEq, Repr

/-- What the archive answers during `save`: `node_save nd` is the result code
of `nd.save()` with the index of the entry it added, `zip_dir_add name` the
index `zip_dir_add` returns, negative on failure.  The value
`saveMetadata()` returns is only logged by `save` and is left out. -/
structure SaveLib where
  node_save : FileNode → Int × Int
  zip_dir_add : List Char → Int

/-- Modelled from the spec: `FileNode::save` (declared in fileNode.h, the body
is not among the sources): the buffer is handed to the archive, added for a
`NEW` node and replaced for a `CHANGED` one, and for a `NEW` node the archive
index becomes that of the added entry.  `r` is the answer of the archive; the
result is the result code and the node afterwards. -/
def FileNode.save (n : FileNode) (r : Int × Int) : Int × FileNode :=
  (r.1, if n.state = .NEW then { n with id := r.2 } else n)

/-- The body of the loop of `VmasFSData::save` for the map entry of `node`:
the tree afterwards and the calls made. -/
def VmasFSData.saveNode (lib : SaveLib) (s : VmasFSData) (node : Nat) :
    Except Failure (VmasFSData × List SaveCall) :=
  if node = s.m_root then .ok (s, [])
  else do
    let nd ← s.deref node
    let changedFile := nd.isChanged && !nd.is_dir
    let r := nd.save (lib.node_save nd)
    let saveMetadata := if changedFile then decide (r.1 = 0) else nd.metadataChanged
    let s1 := if changedFile then s.store node r.2 else s
    let calls := if changedFile then [SaveCall.node_save node] else []
    if saveMetadata then do
      let nd1 ← s1.deref node
      if nd1.isTemporaryDir then
        let idx := lib.zip_dir_add nd1.full_name
        if idx < 0 then .ok (s1, calls ++ [.zip_dir_add nd1.full_name])
        else
          let s2 := s1.store node { nd1 with id := idx }
          let nd2 ← s2.deref node
          .ok (s2, calls ++ [.zip_dir_add nd1.full_name, .node_saveMetadata node nd2.id])
      else .ok (s1, calls ++ [.node_saveMetadata node nd1.id])
    else .ok (s1, calls)

/-- The entries of the map in the order in which an iterator runs from
`files.begin()` to `files.end()`: sorted by key. -/
def filemap_t.inOrder (m : filemap_t) : filemap_t :=
  m.insertionSort (fun a b => ltstr b.1 a.1 = false)

/-- The loop of `VmasFSData::save` over the entries `entries`. -/
def VmasFSData.saveLoop (lib : SaveLib) :
    List (List Char × Nat) → VmasFSData → List SaveCall →
      Except Failure (VmasFSData × List SaveCall)
  | [], s, calls => .ok (s, calls)
  | e :: rest, s, calls => do
    let (s1, c1) ← s.saveNode lib e.2
    VmasFSData.saveLoop lib rest s1 (calls ++ c1)

/-- `VmasFSData::save`: the tree afterwards and the calls made, in order. -/
def VmasFSData.save (lib : SaveLib) (s : VmasFSData) :
    Except Failure (VmasFSData × List SaveCall) :=
  VmasFSData.saveLoop lib s.files.inOrder s []

/-- Whether `save` writes the metadata of a node it comes by (the value of
the variable `saveMetadata` at its test). -/
def savesMetadata (lib : SaveLib) (nd : FileNode) : Bool :=
  if nd.isChanged && !nd.is_dir then decide ((lib.node_save nd).1 = 0) else nd.metadataChanged

/-- The node `nd` when `save` has passed it. -/
def savedNode (lib : SaveLib) (nd : FileNode) : FileNode :=
  let nd1 := if nd.isChanged && !nd.is_dir then (nd.save (lib.node_save nd)).2 else nd
  if savesMetadata lib nd && nd1.isTemporaryDir && decide (0 ≤ lib.zip_dir_add nd1.full_name)
  then { nd1 with id := lib.zip_dir_add nd1.full_name } else nd1

/-- The calls `save` makes for the node `nd` at `node`, not the root. -/
def saveCalls (lib : SaveLib) (node : Nat) (nd : FileNode) : List SaveCall :=
  let nd1 := if nd.isChanged && !nd.is_dir then (nd.save (lib.node_save nd)).2 else nd
  (if nd.isChanged && !nd.is_dir then [SaveCall.node_save node] else []) ++
  (if savesMetadata lib nd then
    (if nd1.isTemporaryDir then
      (if lib.zip_dir_add nd1.full_name < 0 then [SaveCall.zip_dir_add nd1.full_name]
       else [SaveCall.zip_dir_add nd1.full_name,
         SaveCall.node_saveMetadata node (lib.zip_dir_add nd1.full_name)])
    else [SaveCall.node_saveMetadata node nd1.id])
  else [])

/-- The calls `save` makes when it comes by the address `q` in the tree `s`. -/
def callsOf (lib : SaveLib) (s : VmasFSData) (q : Nat) : List SaveCall :=
  if q = s.m_root then []
  else match s.heap q with
    | some nd => saveCalls lib q nd
    | none => []

/-- What is at the address `q` when `save` has come by it in the tree `s`. -/
def afterOf (lib : SaveLib) (s : VmasFSData) (q : Nat) : Option FileNode :=
  if q = s.m_root then s.heap q else (s.heap q).map (savedNode lib)

/-! ## Renaming a directory: the order of the walk -/

/-- The child list of the node at `q`, empty if there is no node. -/
def VmasFSData.childsOf (s : VmasFSData) (q : Nat) : List Nat :=
  match s.heap q with
  | some nd => nd.childs
  | none => []

/-- The node at `c` is a descendant of the node at `a`: a child, or a child of
a descendant. -/
def Descendant (s : VmasFSData) (a c : Nat) : Prop :=
  Relation.TransGen (fun q x => x ∈ s.childsOf q) a c

/-- The nodes that a breadth-first walk over the child lists `ch` comes by,
in order, when it starts with the queue `q`: the front of the queue is popped
and its children are visited and pushed.  The first argument bounds the number
of nodes popped. -/
def bfsOrder (ch : Nat → List Nat) : Nat → List Nat → List Nat
  | 0, _ => []
  | _ + 1, [] => []
  | k + 1, n :: q => ch n ++ bfsOrder ch k (q ++ ch n)

/-- The walk of `bfsOrder` empties its queue within the bound. -/
def bfsDone (ch : Nat → List Nat) : Nat → List Nat → Bool
  | 0, _ => false
  | _ + 1, [] => true
  | k + 1, n :: q => bfsDone ch k (q ++ ch n)

/-- No node of the list is a descendant of a node of the list, and no node
occurs twice. -/
def Antichain (ch : Nat → List Nat) (Q : List Nat) : Prop :=
  Q.Nodup ∧ ∀ x ∈ Q, ∀ y ∈ Q, ¬ Relation.TransGen (fun q x => x ∈ ch q) x y

/-- The recursive part of a directory rename as the spec words it: for each
descendant in turn, with the new path computed for it, the archive is told to
rename the entry if the descendant has a real archive index, then
`renameNode(descendant, newPath, false)` is called. -/
def renameEach : List (Nat × List Char) → VmasFSData → Except Failure VmasFSData
  | [], s => .ok s
  | (c, name) :: rest, s => do
    let cd ← s.deref c
    let s1 := if cd.id ≥ 0 then { s with zipLog := s.zipLog ++ [.zip_file_rename cd.id name] }
      else s
    let s2 ← s1.renameNode c name false
    renameEach rest s2

/-- The nodes `cs` of the tree `s0`, each with the name `vmasfs_rename` builds
for it from the path it has in `s0`. -/
def descendantCalls (len oldLen : Nat) (new_name : List Char) (s0 : VmasFSData)
    (cs : List Nat) : List (Nat × List Char) :=
  cs.map (fun c => (c,
    match s0.heap c with
    | some cd => descendantName len oldLen new_name cd
    | none => []))

/-- From `s0` to `s` nodes have changed at most their paths: the same
addresses hold nodes, with the same child lists, parents, kinds and indices. -/
def SameShape (s0 s : VmasFSData) : Prop :=
  ∀ q, (s.heap q).map (fun n => (n.childs, n.parent, n.is_dir, n.id)) =
    (s0.heap q).map (fun n => (n.childs, n.parent, n.is_dir, n.id))

/-- The members of the child lists are nodes of the map other than the root. -/
def ChildsFiled (s : VmasFSData) : Prop :=
  ∀ q ndq c, s.heap q = some ndq → c ∈ ndq.childs →
    c ≠ s.m_root ∧ ∃ key, s.find key = some c

/-- No child list holds a node twice. -/
def ChildsNodup (s : VmasFSData) : Prop :=
  ∀ q ndq, s.heap q = some ndq → ndq.childs.Nodup

/-- The length of the path of the node at `q`, 0 if there is no node. -/
def pathLength (s : VmasFSData) (q : Nat) : Nat :=
  match s.heap q with
  | some nd => nd.full_name.length
  | none => 0

/-! ## Reading and writing the chunked buffer -/

/-- Modelled from the spec: the chunked buffer `BigBuffer` (bigBuffer.h
declares its members, bigBuffer.cpp is not among the sources): an ordered
sequence of chunks of `chunkSize` bytes each and a logical length.  Chunk `i`
covers the bytes `[i * chunkSize, (i + 1) * chunkSize)`; the bytes of the last
chunk past `len` are unspecified. -/
structure BigBuffer where
  chunks : List (List Nat)
  len : Nat
  deriving DecidableEq, Repr

/-- The invariant of the buffer: `chunksCount len` chunks are allocated, of
`chunkSize` bytes each. -/
def BigBuffer.WellFormed (b : BigBuffer) : Prop :=
  b.chunks.length = chunksCount b.len ∧ ∀ c ∈ b.chunks, c.length = chunkSize

/-- Modelled from the spec: a chunk of zero bytes, what a chunk is when it is
allocated. -/
def zeroChunk : List Nat :=
  List.replicate chunkSize 0

/-- Modelled from the spec: clearing the tail of a chunk from `pos` on. -/
def chunkClearTail (c : List Nat) (pos : Nat) : List Nat :=
  c.take pos ++ List.replicate (chunkSize - pos) 0

/-- Modelled from the spec: writing into one chunk at `pos` as much of `src`
as the chunk has room for; the chunk afterwards and the number of bytes
written. -/
def chunkWrite (c src : List Nat) (pos : Nat) : List Nat × Nat :=
  let w := min src.length (chunkSize - pos)
  (c.take pos ++ src.take w ++ c.drop (pos + w), w)

/-- Modelled from the spec: reading from one chunk at `pos` as many of
`count` bytes as the chunk holds from there. -/
def chunkRead (c : List Nat) (pos count : Nat) : List Nat :=
  (c.drop pos).take (min count (chunkSize - pos))

/-- Modelled from the spec: the loop of `BigBuffer::write` that dispatches
the bytes of `src` to the chunks from chunk `chunk`, position `pos`, on.  The
first argument bounds the number of iterations; a chunk that is not allocated
cannot be written. -/
def BigBuffer.writeLoop :
    Nat → List (List Nat) → Nat → Nat → List Nat → Except Failure (List (List Nat))
  | 0, _, _, _, _ => .error .fuel
  | k + 1, cs, chunk, pos, src =>
    if src = [] then .ok cs
    else
      match cs.get? chunk with
      | none => .error .dangling
      | some c =>
        let r := chunkWrite c src pos
        BigBuffer.writeLoop k (cs.set chunk r.1) (chunk + 1) 0 (src.drop r.2)

/-- Modelled from the spec: the first step of `BigBuffer::write`: if `offset`
is after the end and the chunk of the byte at `len` is allocated, its tail
from that byte on is cleared.  The chunk and the position in it are those of
`chunkNumber` and `chunkOffset`, the number of chunks that of `chunksCount`. -/
def BigBuffer.clearLast (b : BigBuffer) (offset : Nat) : Except Failure (List (List Nat)) :=
  if offset > b.len ∧ chunkNumber b.len < chunksCount b.len then
    match b.chunks.get? (chunkNumber b.len) with
    | none => .error .dangling
    | some c =>
      .ok (b.chunks.set (chunkNumber b.len) (chunkClearTail c (chunkOffset b.len)))
  else .ok b.chunks

/-- Modelled from the spec: `chunks.resize(n)` on the vector of chunks: the
chunks after the first `n` are dropped, the missing ones are allocated as
zero chunks. -/
def resizeChunks (cs : List (List Nat)) (n : Nat) : List (List Nat) :=
  cs.take n ++ List.replicate (n - cs.length) zeroChunk

/-- The conversion of a `size_t` value to `int`, the result type of
`BigBuffer::write` (32 bits, two's complement). -/
def sizeToInt (n : Nat) : Int :=
  if n % 2 ^ 32 < 2 ^ 31 then ((n % 2 ^ 32 : Nat) : Int)
  else ((n % 2 ^ 32 : Nat) : Int) - 2 ^ 32

/-- Modelled from the spec: `BigBuffer::write(buf, size, offset)`, `src` being
the `size` bytes at `buf`; allocation does not fail.  If `offset` is after
the end, the tail of the last chunk is cleared; the length becomes
`max len (offset + size)`, the sum computed in `zip_uint64_t`; the vector is
resized to `chunksCount` of that length; the bytes are dispatched to the
chunks from chunk `chunkNumber offset`, position `chunkOffset offset`, on.
The result is `size` as an `int` and the buffer afterwards. -/
def BigBuffer.write (b : BigBuffer) (src : List Nat) (offset : Nat) :
    Except Failure (Int × BigBuffer) := do
  let cs1 ← b.clearLast offset
  let len := max b.len ((offset + src.length) % 2 ^ 64)
  let cs2 := resizeChunks cs1 (chunksCount len)
  let cs3 ← BigBuffer.writeLoop (src.length + 1) cs2 (chunkNumber offset) (chunkOffset offset)
    src
  pure (sizeToInt src.length, { chunks := cs3, len := len })

/-- Modelled from the spec: the loop of `BigBuffer::read` that collects
`size` bytes from the chunks from chunk `chunk`, position `pos`, on. -/
def BigBuffer.readLoop :
    Nat → List (List Nat) → Nat → Nat → Nat → Except Failure (List Nat)
  | 0, _, _, _, _ => .error .fuel
  | k + 1, cs, chunk, pos, size =>
    if size = 0 then .ok []
    else
      match cs.get? chunk with
      | none => .error .dangling
      | some c => do
        let r := chunkRead c pos size
        let rest ← BigBuffer.readLoop k cs (chunk + 1) 0 (size - r.length)
        pure (r ++ rest)

/-- Modelled from the spec: `BigBuffer::read(buf, size, offset)`: `size` is
clamped to `len - offset`, to zero if `offset` is at or after the end; the
bytes are collected from chunk `chunkNumber offset`, position
`chunkOffset offset`, on; the result is the bytes read. -/
def BigBuffer.read (b : BigBuffer) (size offset : Nat) : Except Failure (List Nat) :=
  let size1 := if offset ≥ b.len then 0 else min size (b.len - offset)
  BigBuffer.readLoop (size1 + 1) b.chunks (chunkNumber offset) (chunkOffset offset) size1

/-- The bytes `F` with `src` written over them from position `o` on. -/
def splice (F : List Nat) (o : Nat) (src : List Nat) : List Nat :=
  F.take o ++ src ++ F.drop (o + src.length)

/-- Every chunk of the list has `chunkSize` bytes. -/
def Uniform (cs : List (List Nat)) : Prop :=
  ∀ c ∈ cs, c.length = chunkSize





/-- The nodes filed at or after the iterator `cur` of the loop of `build_tree`
have not been given a parent yet. -/
def Unvisited (s : VmasFSData) (cur : Option (List Char)) : Prop :=
  ∀ key q nd c, s.find key = some q → s.heap q = some nd → cur = some c →
    ltstr key c = false → nd.parent = none

/-- No node has a parent or a child yet. -/
def Unconnected (s : VmasFSData) : Prop :=
  ∀ q nd, s.heap q = some nd → nd.parent = none ∧ nd.childs = []

/-! ## Facts about the C string helpers -/

theorem strstr_isSome_iff (hay needle : List Char) :
    (strstr hay needle).isSome = true ↔ needle <:+: hay := by
  induction hay with
  | nil =>
    unfold strstr
    by_cases h : needle = []
    · simp [h]
    · simp [h]
  | cons c rest ih =>
    unfold strstr
    by_cases h : startsWith (c :: rest) needle = true
    · simp only [h, if_true, Option.isSome_some, true_iff]
      exact (List.isPrefixOf_iff_prefix.mp h).isInfix
    · have h2 : startsWith (c :: rest) needle = false := by simpa using h
      simp only [h2, Bool.false_eq_true, if_false]
      rw [ih]
      constructor
      · intro hi
        exact hi.trans (List.suffix_cons c rest).isInfix
      · intro hi
        rcases List.infix_cons_iff.mp hi with hp | hi2
        · exact absurd (List.isPrefixOf_iff_prefix.mpr hp) h
        · exact hi2

theorem strchr_none {s : List Char} {c : Char} (h : strchr s c = none) : c ∉ s := by
  induction s with
  | nil => simp
  | cons x xs ih =>
    unfold strchr at h
    by_cases hx : x = c
    · simp [hx] at h
    · simp only [hx, if_false] at h
      simp only [List.mem_cons, not_or]
      exact ⟨fun e => hx e.symm, ih h⟩

theorem strchr_some {s cur : List Char} {c : Char} (h : strchr s c = some cur) :
    ∃ pre post, s = pre ++ c :: post ∧ cur = c :: post ∧ c ∉ pre := by
  induction s with
  | nil => simp [strchr] at h
  | cons x xs ih =>
    unfold strchr at h
    by_cases hx : x = c
    · simp only [hx, if_true, Option.some.injEq] at h
      exact ⟨[], xs, by simp [hx], h.symm, by simp⟩
    · simp only [hx, if_false] at h
      obtain ⟨pre, post, h1, h2, h3⟩ := ih h
      refine ⟨x :: pre, post, by simp [h1], h2, ?_⟩
      simp only [List.mem_cons, not_or]
      exact ⟨fun e => hx e.symm, h3⟩

theorem splitOn_slash_single {s : List Char} (h : '/' ∉ s) : s.splitOn '/' = [s] := by
  unfold List.splitOn
  apply List.splitOnP_eq_single
  intro x hx
  simp only [beq_iff_eq]
  rintro rfl
  exact h hx

theorem splitOn_slash_first {comp : List Char} (post : List Char) (h : '/' ∉ comp) :
    (comp ++ '/' :: post).splitOn '/' = comp :: post.splitOn '/' := by
  unfold List.splitOn
  apply List.splitOnP_first
  · intro x hx
    simp only [beq_iff_eq]
    rintro rfl
    exact h hx
  · simp

theorem hasDotComponent_single {s : List Char} (h : '/' ∉ s) :
    hasDotComponent s ↔ isDotOrDotDot s := by
  unfold hasDotComponent
  rw [splitOn_slash_single h]
  simp

theorem hasDotComponent_first {comp : List Char} (post : List Char) (h : '/' ∉ comp) :
    hasDotComponent (comp ++ '/' :: post) ↔ isDotOrDotDot comp ∨ hasDotComponent post := by
  unfold hasDotComponent
  rw [splitOn_slash_first post h]
  simp

theorem hasDotComponent_nil : ¬ hasDotComponent [] := by
  rw [hasDotComponent_single (by simp)]
  unfold isDotOrDotDot
  decide

/-- The test of the component loop, on the component `c :: pre` that ends at the
next slash, is the test "the component is `.` or `..`". -/
theorem component_test (c : Char) (pre rest : List Char) :
    ((pre.length + 1 = 1 ∧ c = '.') ∨
      (pre.length + 1 = 2 ∧ c = '.' ∧ (pre ++ rest).head? = some '.')) ↔
      isDotOrDotDot (c :: pre) := by
  unfold isDotOrDotDot
  cases pre with
  | nil => simp
  | cons x xs =>
    cases xs with
    | nil => simp
    | cons y ys => simp

/-- Behaviour of the component loop on a remainder that has no `//` and does
not start with `/`: with a budget above the length it never runs out of
steps, it throws exactly on a bad component before the last one, and
otherwise copies everything before the last component. -/
theorem componentLoop_spec : ∀ (n : Nat) (start conv : List Char),
    start.length < n → ¬ "//".toList <:+: start → start.head? ≠ some '/' →
    (componentLoop n start conv = .error .bad_name ∧ hasDotComponent start) ∨
    (∃ pre last, componentLoop n start conv = .ok (last, conv ++ pre) ∧
      pre ++ last = start ∧ (hasDotComponent start ↔ isDotOrDotDot last)) := by
  intro n
  induction n with
  | zero => intro start conv h; omega
  | succ n ih =>
    intro start conv hlen hds hhead
    cases start with
    | nil =>
      right
      refine ⟨[], [], by simp [componentLoop], rfl, ?_⟩
      constructor
      · intro h; exact absurd h hasDotComponent_nil
      · intro h
        have hn : ¬ isDotOrDotDot [] := by unfold isDotOrDotDot; decide
        exact absurd h hn
    | cons c tl =>
      have hc : c ≠ '/' := by
        intro e; apply hhead; simp [e]
      cases hs : strchr tl '/' with
      | none =>
        have hno : '/' ∉ c :: tl := by
          simp only [List.mem_cons, not_or]
          exact ⟨fun e => hc e.symm, strchr_none hs⟩
        right
        refine ⟨[], c :: tl, by simp [componentLoop, hs], rfl, hasDotComponent_single hno⟩
      | some cur =>
        obtain ⟨pre, post, h1, h2, h3⟩ := strchr_some hs
        subst h1 h2
        have hno : '/' ∉ c :: pre := by
          simp only [List.mem_cons, not_or]
          exact ⟨fun e => hc e.symm, h3⟩
        have hd : (c :: (pre ++ '/' :: post)).length - ('/' :: post).length = pre.length + 1 := by
          simp only [List.length_cons, List.length_append]; omega
        have hsplit : hasDotComponent (c :: (pre ++ '/' :: post)) ↔
            isDotOrDotDot (c :: pre) ∨ hasDotComponent post := by
          have := hasDotComponent_first post hno
          simpa using this
        have htake : (c :: (pre ++ '/' :: post)).take (pre.length + 1 + 1) = c :: pre ++ ['/'] := by
          simp [List.take_append_eq_append_take]
        by_cases hbad : isDotOrDotDot (c :: pre)
        · left
          refine ⟨?_, hsplit.mpr (Or.inl hbad)⟩
          have ht := (component_test c pre ('/' :: post)).mpr hbad
          simp only [componentLoop, hs, hd]
          rw [if_pos ht]
        · have ht : ¬ _ := fun h => hbad ((component_test c pre ('/' :: post)).mp h)
          have hstep : componentLoop (n + 1) (c :: (pre ++ '/' :: post)) conv =
              componentLoop n post (conv ++ (c :: pre ++ ['/'])) := by
            simp only [componentLoop, hs, hd]
            rw [if_neg ht, htake]
            rfl
          have hpost_ds : ¬ "//".toList <:+: post := by
            intro hi
            apply hds
            refine hi.trans ?_
            exact (List.suffix_append (c :: pre ++ ['/']) post).isInfix.trans (by simp)
          have hpost_head : post.head? ≠ some '/' := by
            intro e
            apply hds
            cases post with
            | nil => simp at e
            | cons y ys =>
              simp only [List.head?_cons, Option.some.injEq] at e
              subst e
              exact ⟨c :: pre, ys, by simp⟩
          have hpost_len : post.length < n := by
            simp only [List.length_cons, List.length_append] at hlen; omega
          rcases ih post (conv ++ (c :: pre ++ ['/'])) hpost_len hpost_ds hpost_head with
            ⟨he, hdot⟩ | ⟨pre2, last, hok, hcat, hiff⟩
          · left
            exact ⟨hstep.trans he, hsplit.mpr (Or.inr hdot)⟩
          · right
            refine ⟨c :: pre ++ ['/'] ++ pre2, last, ?_, ?_, ?_⟩
            · rw [hstep, hok]; simp
            · simp [← hcat]
            · rw [hsplit, ← hiff]
              constructor
              · rintro (h | h)
                · exact absurd h hbad
                · exact h
              · exact Or.inr

theorem componentLoop_fuel (start conv : List Char)
    (hds : ¬ "//".toList <:+: start) (hhead : start.head? ≠ some '/') :
    componentLoop (start.length + 1) start conv ≠ .error .fuel := by
  rcases componentLoop_spec (start.length + 1) start conv (by omega) hds hhead with
    ⟨he, _⟩ | ⟨pre, last, hok, _, _⟩
  · rw [he]; decide
  · rw [hok]; intro h; cases h

theorem convertTail_bad (fname conv : List Char)
    (hds : ¬ "//".toList <:+: fname) (hhead : fname.head? ≠ some '/')
    (hdot : hasDotComponent fname) : convertTail fname conv = .error .bad_name := by
  have hne : fname ≠ [] := by
    rintro rfl; exact hasDotComponent_nil hdot
  unfold convertTail
  rw [if_neg hne, if_neg hhead]
  rcases componentLoop_spec (fname.length + 1) fname conv (by omega) hds hhead with
    ⟨he, _⟩ | ⟨pre, last, hok, _, hiff⟩
  · rw [he]
  · rw [hok]
    have hl : isDotOrDotDot last := hiff.mp hdot
    unfold isDotOrDotDot at hl
    simp only [hl, if_true]

theorem convertTail_ok (fname conv : List Char)
    (hds : ¬ "//".toList <:+: fname) (hhead : fname.head? ≠ some '/')
    (hdot : ¬ hasDotComponent fname) : convertTail fname conv = .ok (conv ++ fname) := by
  unfold convertTail
  by_cases hne : fname = []
  · simp [hne]
  rw [if_neg hne, if_neg hhead]
  rcases componentLoop_spec (fname.length + 1) fname conv (by omega) hds hhead with
    ⟨_, hd⟩ | ⟨pre, last, hok, hcat, hiff⟩
  · exact absurd hd hdot
  · rw [hok]
    have hl : ¬ isDotOrDotDot last := fun h => hdot (hiff.mpr h)
    unfold isDotOrDotDot at hl
    simp only [hl, if_false]
    rw [List.append_assoc, hcat]

theorem startsWith_up_cons (c1 c2 c3 : Char) (rest : List Char) :
    startsWith (c1 :: c2 :: c3 :: rest) "../".toList = true ↔ c1 = '.' ∧ c2 = '.' ∧ c3 = '/' := by
  simp only [startsWith, String.toList, List.isPrefixOf, Bool.and_eq_true, beq_iff_eq,
    Bool.and_true]
  constructor
  · rintro ⟨h1, h2, h3⟩; exact ⟨h1.symm, h2.symm, h3.symm⟩
  · rintro ⟨h1, h2, h3⟩; exact ⟨h1.symm, h2.symm, h3.symm⟩

theorem startsWith_up_short {s : List Char} (h : s.length < 3) :
    startsWith s "../".toList = false := by
  match s, h with
  | [], _ => rfl
  | [a], _ => simp [startsWith, List.isPrefixOf]
  | [a, b], _ => simp [startsWith, List.isPrefixOf]

theorem upLoop_stop (ro np : Bool) (fname conv : List Char) (pr : Bool)
    (h : startsWith fname "../".toList = false) :
    upLoop ro np fname conv pr = .ok (conv, fname, pr) := by
  match fname, h with
  | [], _ => simp [upLoop]
  | [a], _ => simp [upLoop]
  | [a, b], _ => simp [upLoop]
  | c1 :: c2 :: c3 :: rest, h =>
    have hn : ¬ (c1 = '.' ∧ c2 = '.' ∧ c3 = '/') := by
      intro hc
      rw [(startsWith_up_cons c1 c2 c3 rest).mpr hc] at h
      cases h
    simp only [upLoop, if_neg hn]

theorem dropUpSegments_stop (fname : List Char)
    (h : startsWith fname "../".toList = false) : dropUpSegments fname = fname := by
  match fname, h with
  | [], _ => simp [dropUpSegments]
  | [a], _ => simp [dropUpSegments]
  | [a, b], _ => simp [dropUpSegments]
  | c1 :: c2 :: c3 :: rest, h =>
    have hn : ¬ (c1 = '.' ∧ c2 = '.' ∧ c3 = '/') := by
      intro hc
      rw [(startsWith_up_cons c1 c2 c3 rest).mpr hc] at h
      cases h
    simp only [dropUpSegments, if_neg hn]

theorem upNames_succ (k : Nat) : upNames (k + 1) = UP_PREFIX ++ upNames k := by
  simp [upNames, List.replicate_succ]

theorem upLoop_segments (k : Nat) : ∀ (r conv : List Char) (pr : Bool),
    startsWith r "../".toList = false →
    upLoop true true (upSegments k ++ r) conv pr =
      .ok (conv ++ upNames k, r, pr || decide (0 < k)) := by
  induction k with
  | zero =>
    intro r conv pr h
    simp [upSegments, upNames, upLoop_stop true true r conv pr h]
  | succ k ih =>
    intro r conv pr h
    have hstep : upLoop true true (upSegments (k + 1) ++ r) conv pr =
        upLoop true true (upSegments k ++ r) (conv ++ UP_PREFIX) true := by
      simp [upSegments, upLoop]
    rw [hstep, ih r _ true h, upNames_succ]
    simp

theorem dropUpSegments_segments (k : Nat) (r : List Char)
    (h : startsWith r "../".toList = false) : dropUpSegments (upSegments k ++ r) = r := by
  induction k with
  | zero => simpa [upSegments] using dropUpSegments_stop r h
  | succ k ih => simpa [upSegments, dropUpSegments] using ih

/-- Every name is a run of `../` segments followed by a remainder that does
not start with `../`. -/
theorem exists_upSegments : ∀ (n : Nat) (fname : List Char), fname.length ≤ n →
    ∃ k r, fname = upSegments k ++ r ∧ startsWith r "../".toList = false := by
  intro n
  induction n with
  | zero =>
    intro fname h
    refine ⟨0, fname, rfl, startsWith_up_short (by omega)⟩
  | succ n ih =>
    intro fname h
    by_cases hs : startsWith fname "../".toList = true
    · match fname, hs, h with
      | [], hs, _ => simp [startsWith, List.isPrefixOf] at hs
      | [a], hs, _ => simp [startsWith, List.isPrefixOf] at hs
      | [a, b], hs, _ => simp [startsWith, List.isPrefixOf] at hs
      | c1 :: c2 :: c3 :: rest, hs, h =>
        obtain ⟨h1, h2, h3⟩ := (startsWith_up_cons c1 c2 c3 rest).mp hs
        subst h1 h2 h3
        obtain ⟨k, r, hk, hr⟩ := ih rest (by simp only [List.length_cons] at h; omega)
        exact ⟨k + 1, r, by simp [upSegments, hk], hr⟩
    · exact ⟨0, fname, rfl, by simpa using hs⟩

theorem validateFileName_ok {fname : List Char} (hne : fname ≠ [])
    (hds : ¬ "//".toList <:+: fname) : validateFileName fname = .ok () := by
  unfold validateFileName
  rw [if_neg hne]
  have h : (strstr fname "//".toList).isSome = false := by
    cases hh : (strstr fname "//".toList).isSome
    · rfl
    · exact absurd ((strstr_isSome_iff _ _).mp hh) hds
  rw [h]
  rfl

theorem convertFileName_nil (ro np : Bool) :
    convertFileName [] ro np = .error .empty_name := by
  simp [convertFileName, validateFileName]

theorem convertFileName_two_slashes {fname : List Char} (ro np : Bool) (hne : fname ≠ [])
    (hds : "//".toList <:+: fname) : convertFileName fname ro np = .error .two_slashes := by
  have h := (strstr_isSome_iff fname "//".toList).mpr hds
  have hv : validateFileName fname = .error .two_slashes := by
    unfold validateFileName
    rw [if_neg hne, if_pos h]
  unfold convertFileName
  rw [hv]

/-- An absolute name. -/
theorem convertFileName_abs (r : List Char) (ro np : Bool)
    (hds : ¬ "//".toList <:+: '/' :: r) :
    convertFileName ('/' :: r) ro np =
      if ro = false then .error .absolute_rw
      else if np = false then .error .assertion
      else convertTail r "ROOT/".toList := by
  have hv := validateFileName_ok (List.cons_ne_nil '/' r) hds
  unfold convertFileName
  rw [hv]
  cases ro <;> cases np <;> simp [convertHead]
  rfl

/-- A parent-relative name. -/
theorem convertFileName_up (k : Nat) (r : List Char) (ro np : Bool)
    (hr : startsWith r "../".toList = false)
    (hds : ¬ "//".toList <:+: upSegments (k + 1) ++ r) :
    convertFileName (upSegments (k + 1) ++ r) ro np =
      if ro = false then .error .parent_rw
      else if np = false then .error .assertion
      else convertTail r (upNames (k + 1) ++ ['/']) := by
  have hne : upSegments (k + 1) ++ r ≠ [] := by simp [upSegments]
  have hv := validateFileName_ok hne hds
  have hhead : (upSegments (k + 1) ++ r).head? ≠ some '/' := by
    simp [upSegments]
  unfold convertFileName
  rw [hv]
  simp only [if_neg hne, convertHead, if_neg hhead]
  cases ro
  · simp [upSegments, upLoop]
  · cases np
    · simp [upSegments, upLoop]
    · have hl := upLoop_segments (k + 1) r [] false hr
      rw [hl]
      simp

/-- A name that is neither absolute nor parent-relative. -/
theorem convertFileName_plain (fname : List Char) (ro np : Bool) (hne : fname ≠ [])
    (hds : ¬ "//".toList <:+: fname) (hhead : fname.head? ≠ some '/')
    (hs : startsWith fname "../".toList = false) :
    convertFileName fname ro np =
      convertTail fname (if np = true then "CUR/".toList else []) := by
  have hv := validateFileName_ok hne hds
  have hl := upLoop_stop ro np fname [] false hs
  unfold convertFileName
  rw [hv]
  simp only [if_neg hne, convertHead, if_neg hhead, hl]
  cases np
  · simp
  · simp
    rfl

theorem no_two_slashes_tail {r : List Char} (hds : ¬ "//".toList <:+: '/' :: r) :
    ¬ "//".toList <:+: r ∧ r.head? ≠ some '/' := by
  constructor
  · intro h; exact hds (h.trans (List.suffix_cons '/' r).isInfix)
  · intro h
    cases r with
    | nil => simp at h
    | cons y ys =>
      simp only [List.head?_cons, Option.some.injEq] at h
      subst h
      exact hds ⟨[], ys, by simp⟩

theorem no_two_slashes_up {k : Nat} {r : List Char}
    (hds : ¬ "//".toList <:+: upSegments (k + 1) ++ r) :
    ¬ "//".toList <:+: r ∧ r.head? ≠ some '/' := by
  induction k with
  | zero =>
    have h1 : ¬ "//".toList <:+: '/' :: r := by
      intro h
      apply hds
      refine h.trans ?_
      exact ⟨['.', '.'], [], by simp [upSegments]⟩
    exact no_two_slashes_tail h1
  | succ k ih =>
    apply ih
    intro h
    apply hds
    refine h.trans ?_
    exact ⟨['.', '.', '/'], [], by simp [upSegments]⟩

theorem convertTail_eq (fname conv : List Char)
    (hds : ¬ "//".toList <:+: fname) (hhead : fname.head? ≠ some '/') :
    convertTail fname conv =
      if hasDotComponent fname then .error .bad_name else .ok (conv ++ fname) := by
  by_cases h : hasDotComponent fname
  · rw [if_pos h]; exact convertTail_bad fname conv hds hhead h
  · rw [if_neg h]; exact convertTail_ok fname conv hds hhead h

theorem remainder_abs (r : List Char) : remainder ('/' :: r) = r := by
  simp [remainder]

theorem remainder_up (k : Nat) (r : List Char) (hr : startsWith r "../".toList = false) :
    remainder (upSegments (k + 1) ++ r) = r := by
  have h : (upSegments (k + 1) ++ r).head? ≠ some '/' := by simp [upSegments]
  unfold remainder
  rw [if_neg h]
  exact dropUpSegments_segments (k + 1) r hr

theorem remainder_plain (fname : List Char) (hhead : fname.head? ≠ some '/')
    (hs : startsWith fname "../".toList = false) : remainder fname = fname := by
  unfold remainder
  rw [if_neg hhead]
  exact dropUpSegments_stop fname hs

/-- The five shapes of a raw name, with what `convertFileName` returns on each. -/
theorem convertFileName_cases (fname : List Char) (ro np : Bool) :
    (fname = [] ∧ convertFileName fname ro np = .error .empty_name) ∨
    (fname ≠ [] ∧ "//".toList <:+: fname ∧
      convertFileName fname ro np = .error .two_slashes) ∨
    (¬ "//".toList <:+: fname ∧ ∃ r, fname = '/' :: r ∧ remainder fname = r ∧
      convertFileName fname ro np =
        if ro = false then .error .absolute_rw
        else if np = false then .error .assertion
        else if hasDotComponent r then .error .bad_name
        else .ok ("ROOT/".toList ++ r)) ∨
    (¬ "//".toList <:+: fname ∧ ∃ k r, fname = upSegments (k + 1) ++ r ∧
      startsWith r "../".toList = false ∧ remainder fname = r ∧
      convertFileName fname ro np =
        if ro = false then .error .parent_rw
        else if np = false then .error .assertion
        else if hasDotComponent r then .error .bad_name
        else .ok (upNames (k + 1) ++ '/' :: r)) ∨
    (fname ≠ [] ∧ ¬ "//".toList <:+: fname ∧ fname.head? ≠ some '/' ∧
      startsWith fname "../".toList = false ∧ remainder fname = fname ∧
      convertFileName fname ro np =
        if hasDotComponent fname then .error .bad_name
        else .ok ((if np = true then "CUR/".toList else []) ++ fname)) := by
  by_cases hne : fname = []
  · left; subst hne; exact ⟨rfl, convertFileName_nil ro np⟩
  right
  by_cases hds : "//".toList <:+: fname
  · left; exact ⟨hne, hds, convertFileName_two_slashes ro np hne hds⟩
  right
  by_cases hhead : fname.head? = some '/'
  · left
    cases fname with
    | nil => exact absurd rfl hne
    | cons c r =>
      simp only [List.head?_cons, Option.some.injEq] at hhead
      subst hhead
      refine ⟨hds, r, rfl, remainder_abs r, ?_⟩
      rw [convertFileName_abs r ro np hds]
      obtain ⟨h1, h2⟩ := no_two_slashes_tail hds
      rw [convertTail_eq r _ h1 h2]
  right
  obtain ⟨k, r, hk, hr⟩ := exists_upSegments fname.length fname (le_refl _)
  cases k with
  | zero =>
    right
    simp only [upSegments, List.nil_append] at hk
    subst hk
    refine ⟨hne, hds, hhead, hr, remainder_plain fname hhead hr, ?_⟩
    rw [convertFileName_plain fname ro np hne hds hhead hr, convertTail_eq fname _ hds hhead]
  | succ k =>
    left
    subst hk
    refine ⟨hds, k, r, rfl, hr, remainder_up k r hr, ?_⟩
    rw [convertFileName_up k r ro np hr hds]
    obtain ⟨h1, h2⟩ := no_two_slashes_up hds
    rw [convertTail_eq r _ h1 h2]
    simp

theorem startsWith_iff (s p : List Char) : startsWith s p = true ↔ p <+: s := by
  unfold startsWith
  exact List.isPrefixOf_iff_prefix

theorem startsWith_false_iff (s p : List Char) : startsWith s p = false ↔ ¬ p <+: s := by
  rw [← startsWith_iff]
  simp

theorem upSegments_starts (k : Nat) (r : List Char) :
    "../".toList <+: upSegments (k + 1) ++ r :=
  ⟨upSegments k ++ r, by simp [upSegments]⟩

/-- The shape of every successful result. -/
theorem convertFileName_ok_form {fname out : List Char} {ro np : Bool}
    (hok : convertFileName fname ro np = .ok out) :
    (∃ r, fname = '/' :: r ∧ ro = true ∧ np = true ∧ out = "ROOT/".toList ++ r) ∨
    (∃ k r, fname = upSegments (k + 1) ++ r ∧ ¬ "../".toList <+: r ∧ ro = true ∧ np = true ∧
      out = upNames (k + 1) ++ '/' :: r) ∨
    (fname ≠ [] ∧ fname.head? ≠ some '/' ∧ ¬ "../".toList <+: fname ∧
      out = (if np = true then "CUR/".toList else []) ++ fname) := by
  rcases convertFileName_cases fname ro np with
    ⟨_, h⟩ | ⟨_, _, h⟩ | ⟨_, r, hf, _, h⟩ | ⟨_, k, r, hf, hr, _, h⟩ | ⟨hne, _, hh, hs, _, h⟩
  · rw [h] at hok; cases hok
  · rw [h] at hok; cases hok
  · left
    rw [h] at hok
    cases ro
    · simp at hok
    cases np
    · simp at hok
    by_cases hd : hasDotComponent r
    · simp [hd] at hok
    · simp only [Bool.true_eq_false, if_false, hd, Except.ok.injEq] at hok
      exact ⟨r, hf, rfl, rfl, hok.symm⟩
  · right; left
    rw [h] at hok
    cases ro
    · simp at hok
    cases np
    · simp at hok
    by_cases hd : hasDotComponent r
    · simp [hd] at hok
    · simp only [Bool.true_eq_false, if_false, hd, Except.ok.injEq] at hok
      exact ⟨k, r, hf, (startsWith_false_iff _ _).mp hr, rfl, rfl, hok.symm⟩
  · right; right
    rw [h] at hok
    by_cases hd : hasDotComponent fname
    · simp [hd] at hok
    · simp only [hd, if_false, Except.ok.injEq] at hok
      exact ⟨hne, hh, (startsWith_false_iff _ _).mp hs, hok.symm⟩

theorem upNames_slash_inj : ∀ (a b : Nat) (r1 r2 : List Char),
    upNames a ++ '/' :: r1 = upNames b ++ '/' :: r2 → a = b ∧ r1 = r2 := by
  intro a
  induction a with
  | zero =>
    intro b r1 r2 h
    cases b with
    | zero => simpa [upNames] using h
    | succ b =>
      rw [upNames_succ] at h
      simp [upNames, UP_PREFIX] at h
  | succ a ih =>
    intro b r1 r2 h
    cases b with
    | zero =>
      rw [upNames_succ] at h
      simp [upNames, UP_PREFIX] at h
    | succ b =>
      rw [upNames_succ, upNames_succ] at h
      simp only [List.append_assoc, List.append_cancel_left_eq] at h
      obtain ⟨h1, h2⟩ := ih b r1 r2 h
      exact ⟨by omega, h2⟩

theorem upNames_head (k : Nat) (r : List Char) :
    (upNames (k + 1) ++ r).head? = some 'U' := by
  rw [upNames_succ]
  simp [UP_PREFIX]

theorem upSegments_getLast (k : Nat) : (upSegments (k + 1)).getLast? = some '/' := by
  induction k with
  | zero => simp [upSegments]
  | succ k ih =>
    have : upSegments (k + 1 + 1) = ['.', '.', '/'] ++ upSegments (k + 1) := by
      simp [upSegments]
    rw [this, List.getLast?_append, ih]
    rfl

/-! ## Path normalisation: the claims -/

/-- C1: whenever `convertFileName` succeeds on a raw name that does not begin
with `../`: a name beginning with `/` was converted in read-only mode with
`needPrefix` set and the result is `ROOT/` followed by the name without its
leading `/`; any other name gives `CUR/` followed by the unchanged name when
`needPrefix` is set, and the unchanged name when it is not. -/
theorem convertFileName_root_cur (fname out : List Char) (ro np : Bool)
    (hok : convertFileName fname ro np = .ok out) (hup : ¬ "../".toList <+: fname) :
    (fname.head? = some '/' →
      ro = true ∧ np = true ∧ out = "ROOT/".toList ++ fname.tail) ∧
    (fname.head? ≠ some '/' →
      out = if np = true then "CUR/".toList ++ fname else fname) := by
  rcases convertFileName_ok_form hok with
    ⟨r, hf, hro, hnp, ho⟩ | ⟨k, r, hf, _, _, _, _⟩ | ⟨_, hh, _, ho⟩
  · subst hf
    refine ⟨fun _ => ⟨hro, hnp, by simpa using ho⟩, fun h => absurd (by simp) h⟩
  · subst hf
    exact absurd (upSegments_starts k r) hup
  · refine ⟨fun h => absurd h hh, fun _ => ?_⟩
    rw [ho]
    cases np <;> simp

/-- C1 at the names `/x/y` and `x/y` of a read-only mount with prefixes:
the results are `ROOT/x/y` and `CUR/x/y`. -/
theorem convertFileName_root_cur_witness :
    (convertFileName "/x/y".toList true true = .ok "ROOT/x/y".toList ∧
      convertFileName "x/y".toList true true = .ok "CUR/x/y".toList) ∧
    (true = true ∧ true = true ∧ "ROOT/x/y".toList = "ROOT/".toList ++ "/x/y".toList.tail) ∧
    "CUR/x/y".toList = (if true = true then "CUR/".toList ++ "x/y".toList else "x/y".toList) :=
  ⟨⟨by decide, by decide⟩,
    (convertFileName_root_cur "/x/y".toList "ROOT/x/y".toList true true (by decide)
      (by decide)).1 (by decide),
    (convertFileName_root_cur "x/y".toList "CUR/x/y".toList true true (by decide)
      (by decide)).2 (by decide)⟩

/-- C2, as stated, fails: `../../x` is normalised to `UPUP/x`, not to
`UP/UP/x`, and a remainder such as `..` is rejected although it does not
begin with `../`. -/
theorem convertFileName_up_counterexample :
    convertFileName "../../x".toList true true = .ok "UPUP/x".toList ∧
    convertFileName "../../x".toList true true ≠ .ok "UP/UP/x".toList ∧
    convertFileName "../..".toList true true = .error .bad_name := by
  decide

/-- C2, amended: in read-only mode with `needPrefix` set, for `k ≥ 1` and a
remainder `r` that does not begin with `../`, the name made of `k` segments
`../` followed by `r` is accepted exactly when it has no `//` and no component
of `r` is `.` or `..`, and is then normalised to `k` copies of `UP`, one `/`,
and `r`. -/
theorem convertFileName_up_names (k : Nat) (r : List Char) (hk : 1 ≤ k)
    (hr : ¬ "../".toList <+: r) :
    (∀ out, convertFileName (upSegments k ++ r) true true = .ok out →
      out = upNames k ++ '/' :: r) ∧
    ((¬ "//".toList <:+: upSegments k ++ r ∧ ¬ hasDotComponent r) ↔
      convertFileName (upSegments k ++ r) true true = .ok (upNames k ++ '/' :: r)) := by
  obtain ⟨j, rfl⟩ : ∃ j, k = j + 1 := ⟨k - 1, by omega⟩
  have hr2 := (startsWith_false_iff r "../".toList).mpr hr
  by_cases hds : "//".toList <:+: upSegments (j + 1) ++ r
  · have he := convertFileName_two_slashes true true (by simp [upSegments]) hds
    rw [he]
    refine ⟨fun out h => (by cases h), ?_⟩
    constructor
    · rintro ⟨h, _⟩; exact absurd hds h
    · intro h; cases h
  · have he := convertFileName_up j r true true hr2 hds
    obtain ⟨h1, h2⟩ := no_two_slashes_up hds
    rw [convertTail_eq r _ h1 h2] at he
    rw [he]
    by_cases hd : hasDotComponent r
    · simp [hd]
    · simp only [Bool.true_eq_false, if_false, hd, Except.ok.injEq, List.append_assoc,
        List.singleton_append, not_false_eq_true, and_true, true_and, iff_true]
      exact ⟨fun out h => h.symm, hds⟩

/-- C2 amended, at `../../x`: the result is `UPUP/x`. -/
theorem convertFileName_up_names_witness :
    (1 ≤ 2 ∧ ¬ "../".toList <+: "x".toList) ∧
    convertFileName (upSegments 2 ++ "x".toList) true true = .ok (upNames 2 ++ '/' :: "x".toList) :=
  ⟨⟨by decide, by decide⟩,
    (convertFileName_up_names 2 "x".toList (by decide) (by decide)).2.mp
      ⟨by decide, by decide⟩⟩

theorem error_iff_of_error {x : Except Failure (List Char)} {e : Failure} {P : Prop}
    (h : x = .error e) (ht : e.isThrown = true) (hp : P) :
    (∀ e, x = .error e → e.isThrown = true) ∧ ((∃ e, x = .error e) ↔ P) := by
  subst h
  exact ⟨fun e he => (by cases he; exact ht), fun _ => hp, fun _ => ⟨_, rfl⟩⟩

theorem error_iff_of_ok {x : Except Failure (List Char)} {o : List Char} {P : Prop}
    (h : x = .ok o) (hp : ¬ P) :
    (∀ e, x = .error e → e.isThrown = true) ∧ ((∃ e, x = .error e) ↔ P) := by
  subst h
  exact ⟨fun e he => (by cases he), fun ⟨e, he⟩ => (by cases he), fun h => absurd h hp⟩

/-- C3: when `needPrefix` is set in every read-only call on a name that begins
with `/` or `../` (so that no assertion can fail), `convertFileName` fails
only by throwing, and it throws if and only if the name is empty, or contains
`//`, or the mount is read-write and the name begins with `/` or `../`, or
some `/`-separated component of the remainder is `.` or `..`. -/
theorem convertFileName_error_iff (fname : List Char) (ro np : Bool)
    (hpre : ro = true → (fname.head? = some '/' ∨ "../".toList <+: fname) → np = true) :
    (∀ e, convertFileName fname ro np = .error e → e.isThrown = true) ∧
    ((∃ e, convertFileName fname ro np = .error e) ↔
      (fname = [] ∨ "//".toList <:+: fname ∨
        (ro = false ∧ (fname.head? = some '/' ∨ "../".toList <+: fname)) ∨
        hasDotComponent (remainder fname))) := by
  rcases convertFileName_cases fname ro np with
    ⟨hf, h⟩ | ⟨_, hds, h⟩ | ⟨hds, r, hf, hrem, h⟩ | ⟨hds, k, r, hf, hr, hrem, h⟩ |
    ⟨hne, hds, hh, hs, hrem, h⟩
  · exact error_iff_of_error h rfl (Or.inl hf)
  · exact error_iff_of_error h rfl (Or.inr (Or.inl hds))
  · have hhead : fname.head? = some '/' := by rw [hf]; rfl
    have hne : fname ≠ [] := by rw [hf]; simp
    by_cases hro : ro = false
    · rw [if_pos hro] at h
      exact error_iff_of_error h rfl (Or.inr (Or.inr (Or.inl ⟨hro, Or.inl hhead⟩)))
    · have hro2 : ro = true := by simpa using hro
      have hnp : np = true := hpre hro2 (Or.inl hhead)
      have hnp2 : ¬ np = false := by simp [hnp]
      rw [if_neg hro, if_neg hnp2] at h
      by_cases hd : hasDotComponent r
      · rw [if_pos hd] at h
        exact error_iff_of_error h rfl (Or.inr (Or.inr (Or.inr (hrem ▸ hd))))
      · rw [if_neg hd] at h
        apply error_iff_of_ok h
        rintro (h1 | h1 | ⟨h1, _⟩ | h1)
        · exact hne h1
        · exact hds h1
        · exact hro h1
        · exact hd (hrem ▸ h1)
  · have hup : "../".toList <+: fname := by rw [hf]; exact upSegments_starts k r
    have hne : fname ≠ [] := by rw [hf]; simp [upSegments]
    by_cases hro : ro = false
    · rw [if_pos hro] at h
      exact error_iff_of_error h rfl (Or.inr (Or.inr (Or.inl ⟨hro, Or.inr hup⟩)))
    · have hro2 : ro = true := by simpa using hro
      have hnp : np = true := hpre hro2 (Or.inr hup)
      have hnp2 : ¬ np = false := by simp [hnp]
      rw [if_neg hro, if_neg hnp2] at h
      by_cases hd : hasDotComponent r
      · rw [if_pos hd] at h
        exact error_iff_of_error h rfl (Or.inr (Or.inr (Or.inr (hrem ▸ hd))))
      · rw [if_neg hd] at h
        apply error_iff_of_ok h
        rintro (h1 | h1 | ⟨h1, _⟩ | h1)
        · exact hne h1
        · exact hds h1
        · exact hro h1
        · exact hd (hrem ▸ h1)
  · have hs2 := (startsWith_false_iff _ _).mp hs
    by_cases hd : hasDotComponent fname
    · rw [if_pos hd] at h
      exact error_iff_of_error h rfl (Or.inr (Or.inr (Or.inr (hrem.symm ▸ hd))))
    · rw [if_neg hd] at h
      apply error_iff_of_ok h
      rintro (h1 | h1 | ⟨_, h1 | h1⟩ | h1)
      · exact hne h1
      · exact hds h1
      · exact hh h1
      · exact hs2 h1
      · exact hd (hrem ▸ h1)

/-- C3 at the read-write name `a/../b`: the precondition holds and the call
throws, the remainder `a/../b` having the component `..`. -/
theorem convertFileName_error_iff_witness :
    (false = true → (("a/../b".toList).head? = some '/' ∨ "../".toList <+: "a/../b".toList) →
      false = true) ∧
    (∃ e, convertFileName "a/../b".toList false false = .error e) ∧
    hasDotComponent (remainder "a/../b".toList) :=
  ⟨by decide,
    (convertFileName_error_iff "a/../b".toList false false (by decide)).2.mpr
      (Or.inr (Or.inr (Or.inr (by decide)))),
    by decide⟩

/-- C4: for fixed flags, two raw names on which `convertFileName` succeeds
with the same canonical result are equal.  (The result is a function of the
name and the flags alone: `convertFileName` is a function of these three
arguments.) -/
theorem convertFileName_injective (n1 n2 out : List Char) (ro np : Bool)
    (h1 : convertFileName n1 ro np = .ok out) (h2 : convertFileName n2 ro np = .ok out) :
    n1 = n2 := by
  rcases convertFileName_ok_form h1 with
    ⟨r1, hf1, _, hnp1, ho1⟩ | ⟨k1, r1, hf1, _, _, hnp1, ho1⟩ | ⟨_, _, _, ho1⟩ <;>
  rcases convertFileName_ok_form h2 with
    ⟨r2, hf2, _, hnp2, ho2⟩ | ⟨k2, r2, hf2, _, _, hnp2, ho2⟩ | ⟨_, _, _, ho2⟩
  · rw [ho1] at ho2
    rw [hf1, hf2, List.append_cancel_left ho2]
  · exfalso
    have := congrArg List.head? (ho1.symm.trans ho2)
    rw [upNames_head] at this
    simp at this
  · exfalso
    have := congrArg List.head? (ho1.symm.trans ho2)
    rw [hnp1] at this
    simp at this
  · exfalso
    have := congrArg List.head? (ho2.symm.trans ho1)
    rw [upNames_head] at this
    simp at this
  · rw [ho1] at ho2
    obtain ⟨hk, hr⟩ := upNames_slash_inj _ _ _ _ ho2
    have hk2 : k1 = k2 := by omega
    rw [hf1, hf2, hk2, hr]
  · exfalso
    have := congrArg List.head? (ho2.symm.trans ho1)
    rw [upNames_head, hnp1] at this
    simp at this
  · exfalso
    have := congrArg List.head? (ho2.symm.trans ho1)
    rw [hnp2] at this
    simp at this
  · exfalso
    have := congrArg List.head? (ho1.symm.trans ho2)
    rw [upNames_head, hnp2] at this
    simp at this
  · rw [ho1] at ho2
    exact List.append_cancel_left ho2

/-- C4 at the name `x/y` of a read-only mount with prefixes. -/
theorem convertFileName_injective_witness :
    (convertFileName "x/y".toList true true = .ok "CUR/x/y".toList ∧
      convertFileName "x/y".toList true true = .ok "CUR/x/y".toList) ∧
    "x/y".toList = "x/y".toList :=
  ⟨⟨by decide, by decide⟩,
    convertFileName_injective "x/y".toList "x/y".toList "CUR/x/y".toList true true
      (by decide) (by decide)⟩

/-- C5: whenever `convertFileName` succeeds, with any flags, the canonical
result ends with `/` if and only if the raw name ends with `/`. -/
theorem convertFileName_trailing_slash (fname out : List Char) (ro np : Bool)
    (hok : convertFileName fname ro np = .ok out) :
    out.getLast? = some '/' ↔ fname.getLast? = some '/' := by
  rcases convertFileName_ok_form hok with
    ⟨r, hf, _, _, ho⟩ | ⟨k, r, hf, _, _, _, ho⟩ | ⟨hne, _, _, ho⟩
  · have e1 : out.getLast? = r.getLast?.or (some '/') := by
      rw [ho, List.getLast?_append]; rfl
    have e2 : fname.getLast? = r.getLast?.or (some '/') := by
      rw [hf, ← List.singleton_append, List.getLast?_append]; rfl
    rw [e1, e2]
  · have e1 : out.getLast? = r.getLast?.or (some '/') := by
      have : upNames (k + 1) ++ '/' :: r = (upNames (k + 1) ++ ['/']) ++ r := by simp
      rw [ho, this, List.getLast?_append, List.getLast?_concat]
    have e2 : fname.getLast? = r.getLast?.or (some '/') := by
      rw [hf, List.getLast?_append, upSegments_getLast]
    rw [e1, e2]
  · have e1 : out.getLast? = fname.getLast? := by
      rw [ho, List.getLast?_append]
      cases hl : fname.getLast? with
      | none => exact absurd (List.getLast?_eq_none_iff.mp hl) hne
      | some x => rfl
    rw [e1]

/-- C5 at the directory entry `a/b/` of a read-write mount. -/
theorem convertFileName_trailing_slash_witness :
    convertFileName "a/b/".toList false false = .ok "a/b/".toList ∧
    ("a/b/".toList.getLast? = some '/' ↔ "a/b/".toList.getLast? = some '/') :=
  ⟨by decide,
    convertFileName_trailing_slash "a/b/".toList "a/b/".toList false false (by decide)⟩

/-! ## The order of the path map -/

theorem ltstr_irrefl : ∀ a : List Char, ltstr a a = false
  | [] => rfl
  | a :: as => by simp [ltstr, ltstr_irrefl as]

theorem ltstr_trans : ∀ a b c : List Char, ltstr a b = true → ltstr b c = true →
    ltstr a c = true
  | [], [], _, h, _ => by simp [ltstr] at h
  | [], _ :: _, [], _, h => by simp [ltstr] at h
  | [], _ :: _, _ :: _, _, _ => by simp [ltstr]
  | _ :: _, [], _, h, _ => by simp [ltstr] at h
  | _ :: _, _ :: _, [], _, h => by simp [ltstr] at h
  | a :: as, b :: bs, c :: cs, h1, h2 => by
    simp only [ltstr] at h1 h2 ⊢
    by_cases hab : a = b
    · subst hab
      simp only [if_true] at h1
      by_cases hac : a = c
      · subst hac
        simp only [if_true] at h2 ⊢
        exact ltstr_trans as bs cs h1 h2
      · simp only [hac, if_false] at h2 ⊢
        exact h2
    · simp only [hab, if_false, decide_eq_true_eq] at h1
      by_cases hbc : b = c
      · subst hbc
        simp only [hab, if_false, decide_eq_true_eq]
        exact h1
      · simp only [hbc, if_false, decide_eq_true_eq] at h2
        have hac : a ≠ c := by
          rintro rfl
          omega
        simp only [hac, if_false, decide_eq_true_eq]
        omega

theorem ltstr_total : ∀ a b : List Char, ltstr a b = false → a ≠ b → ltstr b a = true
  | [], [], _, h => absurd rfl h
  | [], _ :: _, h, _ => by simp [ltstr] at h
  | _ :: _, [], _, _ => by simp [ltstr]
  | a :: as, b :: bs, h1, h2 => by
    simp only [ltstr] at h1 ⊢
    by_cases hab : a = b
    · subst hab
      simp only [if_true] at h1 ⊢
      exact ltstr_total as bs h1 (fun e => h2 (by rw [e]))
    · have hba : ¬ b = a := fun e => hab e.symm
      simp only [hab, if_false, decide_eq_false_iff_not] at h1
      simp only [hba, if_false, decide_eq_true_eq]
      have hne : a.toNat ≠ b.toNat := by
        intro e
        apply hab
        exact Char.eq_of_val_eq (UInt32.ext e)
      omega

/-- A proper initial segment of a path sorts before the path. -/
theorem ltstr_of_prefix : ∀ a b : List Char, a <+: b → a ≠ b → ltstr a b = true
  | [], [], _, h => absurd rfl h
  | [], _ :: _, _, _ => by simp [ltstr]
  | _ :: _, [], h, _ => by simp at h
  | a :: as, b :: bs, h1, h2 => by
    obtain ⟨hab, hp⟩ := List.cons_prefix_cons.mp h1
    subst hab
    simp only [ltstr, if_true]
    exact ltstr_of_prefix as bs hp (fun e => h2 (by rw [e]))

/-! ## The path map -/

theorem find_erase (m : filemap_t) (key k : List Char) :
    (filemap_t.erase m key).find k = if k = key then none else m.find k := by
  induction m with
  | nil => simp [filemap_t.erase, filemap_t.find]
  | cons e rest ih =>
    obtain ⟨k0, v0⟩ := e
    unfold filemap_t.erase at ih ⊢
    by_cases h0 : k0 = key
    · subst h0
      simp only [List.filter, ne_eq, not_true_eq_false, decide_False]
      rw [ih]
      by_cases hk : k = k0
      · simp [hk]
      · have hk2 : ¬ k0 = k := fun e => hk e.symm
        simp [hk, filemap_t.find, hk2]
    · simp only [List.filter, ne_eq, h0, not_false_eq_true, decide_True, filemap_t.find]
      rw [ih]
      by_cases hk : k = key
      · subst hk
        simp [h0]
      · simp [hk]

theorem find_insert (m : filemap_t) (key k : List Char) (v : Nat) :
    (filemap_t.insert m key v).find k = if k = key then some v else m.find k := by
  unfold filemap_t.insert
  simp only [filemap_t.find]
  rw [find_erase]
  by_cases hk : k = key
  · simp [hk]
  · have hk2 : ¬ key = k := fun e => hk e.symm
    simp [hk, hk2]

theorem upper_mem (m : filemap_t) (lo : Option (List Char)) (b : List Char)
    (h : m.upper lo = some b) : (m.find b).isSome = true ∧ aboveKey lo b = true := by
  induction m generalizing b with
  | nil => simp [filemap_t.upper] at h
  | cons e rest ih =>
    obtain ⟨k0, v0⟩ := e
    simp only [filemap_t.upper] at h
    have hfind : ∀ x, (filemap_t.find rest x).isSome = true →
        (filemap_t.find ((k0, v0) :: rest) x).isSome = true := by
      intro x hx
      simp only [filemap_t.find]
      by_cases hk : k0 = x
      · simp [hk]
      · simpa [hk] using hx
    have hself : (filemap_t.find ((k0, v0) :: rest) k0).isSome = true := by
      simp [filemap_t.find]
    by_cases ha : aboveKey lo k0 = true
    · rw [if_pos ha] at h
      cases hr : filemap_t.upper rest lo with
      | none =>
        rw [hr] at h
        simp only [Option.some.injEq] at h
        subst h
        exact ⟨hself, ha⟩
      | some b0 =>
        rw [hr] at h
        by_cases hl : ltstr k0 b0 = true
        · simp only [if_pos hl, Option.some.injEq] at h
          subst h
          exact ⟨hself, ha⟩
        · simp only [if_neg hl, Option.some.injEq] at h
          subst h
          exact ⟨hfind _ (ih _ hr).1, (ih _ hr).2⟩
    · rw [if_neg ha] at h
      exact ⟨hfind _ (ih _ h).1, (ih _ h).2⟩

/-- `upper` returns the least key above the bound. -/
theorem upper_least (m : filemap_t) (lo : Option (List Char)) (key : List Char)
    (hk : (m.find key).isSome = true) (ha : aboveKey lo key = true) :
    ∃ b, m.upper lo = some b ∧ ltstr key b = false := by
  induction m with
  | nil => simp [filemap_t.find] at hk
  | cons e rest ih =>
    obtain ⟨k0, v0⟩ := e
    simp only [filemap_t.upper]
    by_cases h0 : k0 = key
    · subst h0
      rw [if_pos ha]
      cases hr : filemap_t.upper rest lo with
      | none => exact ⟨k0, rfl, ltstr_irrefl k0⟩
      | some b0 =>
        by_cases hl : ltstr k0 b0 = true
        · simp only [if_pos hl]
          exact ⟨k0, rfl, ltstr_irrefl k0⟩
        · simp only [if_neg hl]
          exact ⟨b0, rfl, by simpa using hl⟩
    · simp only [filemap_t.find, h0, if_false] at hk
      obtain ⟨b, hb, hlt⟩ := ih hk
      rw [hb]
      by_cases ha0 : aboveKey lo k0 = true
      · rw [if_pos ha0]
        by_cases hl : ltstr k0 b = true
        · simp only [if_pos hl]
          refine ⟨k0, rfl, ?_⟩
          cases hkk : ltstr key k0 with
          | false => rfl
          | true =>
            rw [ltstr_trans key k0 b hkk hl] at hlt
            cases hlt
        · simp only [if_neg hl]
          exact ⟨b, rfl, hlt⟩
      · rw [if_neg ha0]
        exact ⟨b, rfl, hlt⟩

/-! ## Connecting a node -/

theorem Grows.refl (E : Nat → Prop) (s : VmasFSData) : Grows E s s :=
  ⟨rfl, le_refl _, fun _ _ h => h, fun _ nd h => ⟨nd, h, rfl, rfl, rfl, rfl, fun _ h => h, fun _ => rfl⟩⟩

theorem Grows.trans {E F : Nat → Prop} {s t u : VmasFSData} (h1 : Grows E s t)
    (h2 : Grows F t u) : Grows (fun q => E q ∨ F q) s u := by
  refine ⟨h2.root.trans h1.root, le_trans h1.next h2.next,
    fun key q h => h2.files key q (h1.files key q h), ?_⟩
  intro q nd h
  obtain ⟨nd1, e1, a1, b1, c1, d1, f1, g1⟩ := h1.heap q nd h
  obtain ⟨nd2, e2, a2, b2, c2, d2, f2, g2⟩ := h2.heap q nd1 e1
  refine ⟨nd2, e2, a2.trans a1, b2.trans b1, c2.trans c1, d2.trans d1,
    fun c hc => f2 c (f1 c hc), ?_⟩
  intro hE
  rw [g2 (fun h => hE (Or.inr h)), g1 (fun h => hE (Or.inl h))]

theorem Grows.mono {E F : Nat → Prop} {s t : VmasFSData} (h : Grows E s t)
    (hEF : ∀ q, s.heap q ≠ none → E q → F q) : Grows F s t := by
  refine ⟨h.root, h.next, h.files, ?_⟩
  intro q nd hq
  obtain ⟨nd1, e1, a1, b1, c1, d1, f1, g1⟩ := h.heap q nd hq
  refine ⟨nd1, e1, a1, b1, c1, d1, f1, fun hF => g1 (fun hE => hF (hEF q ?_ hE))⟩
  rw [hq]
  exact Option.some_ne_none nd

theorem FileNode.getParentName_congr {a b : FileNode} (h1 : a.full_name = b.full_name)
    (h2 : a.name = b.name) : a.getParentName = b.getParentName := by
  unfold FileNode.getParentName
  rw [h1, h2]

theorem Connected.grows {E : Nat → Prop} {s t : VmasFSData} {q : Nat} (h : Grows E s t)
    (hq : ¬ E q) (hc : Connected s q) : Connected t q := by
  obtain ⟨nd, par, pd, h1, h2, h3, h4, h5, h6⟩ := hc
  obtain ⟨nd', e1, a1, b1, _, _, _, g1⟩ := h.heap q nd h1
  obtain ⟨pd', e2, _, _, c2, _, f2, _⟩ := h.heap par pd h4
  refine ⟨nd', par, pd', e1, (g1 hq).trans h2, ?_, e2, c2.trans h5, f2 q h6⟩
  rw [FileNode.getParentName_congr a1 b1]
  exact h.files _ _ h3

theorem attach_eq (s : VmasFSData) (p par : Nat) (nd pd : FileNode)
    (h1 : s.heap p = some nd) (h2 : s.heap par = some pd) (hne : par ≠ p) :
    s.attach p par =
      .ok ((s.store p { nd with parent := some par }).store par (pd.appendChild p)) := by
  simp [VmasFSData.attach, VmasFSData.deref, VmasFSData.store, h1, h2, hne, bind, Except.bind,
    pure, Except.pure]

theorem WF.lt_next {s : VmasFSData} (h : WF s) {p : Nat} {nd : FileNode}
    (hp : s.heap p = some nd) : p < s.next := by
  by_contra hlt
  rw [h.fresh p (by omega)] at hp
  cases hp

theorem attach_grows (s : VmasFSData) (p par : Nat) (nd pd : FileNode)
    (h1 : s.heap p = some nd) (h2 : s.heap par = some pd) (hne : par ≠ p) :
    Grows (fun q => q = p) s
      ((s.store p { nd with parent := some par }).store par (pd.appendChild p)) := by
  refine ⟨rfl, le_refl _, fun _ _ h => h, ?_⟩
  intro q nd0 hq
  simp only [VmasFSData.store]
  by_cases hqpar : q = par
  · subst hqpar
    rw [h2] at hq
    cases hq
    refine ⟨pd.appendChild p, by simp, rfl, rfl, rfl, rfl, ?_, fun _ => rfl⟩
    intro c hc
    simp [FileNode.appendChild, hc]
  · by_cases hqp : q = p
    · subst hqp
      rw [h1] at hq
      cases hq
      exact ⟨{ nd with parent := some par }, by simp [hqpar], rfl, rfl, rfl, rfl,
        fun _ h => h, fun h => absurd rfl h⟩
    · exact ⟨nd0, by simp [hqpar, hqp, hq], rfl, rfl, rfl, rfl, fun _ h => h, fun _ => rfl⟩

/-- A step that keeps the map and the set of allocated addresses keeps `WF`. -/
theorem WF.of_grows {E : Nat → Prop} {s t : VmasFSData} (h : WF s) (hg : Grows E s t)
    (hfiles : t.files = s.files) (hnext : t.next = s.next)
    (hnone : ∀ q, s.heap q = none → t.heap q = none) : WF t := by
  have hfind : ∀ key, t.find key = s.find key := by
    intro key; simp [VmasFSData.find, hfiles]
  refine ⟨?_, ?_, ?_, ?_⟩
  · intro p hp
    exact hnone p (h.fresh p (by omega))
  · intro key p hk
    rw [hfind] at hk
    obtain ⟨nd, e, a, b⟩ := h.filed key p hk
    obtain ⟨nd', e', a', b', _⟩ := hg.heap p nd e
    exact ⟨nd', e', a'.trans a, b'.trans b⟩
  · rw [hfind, hg.root]
    exact h.root
  · obtain ⟨rd, e, a⟩ := h.rootDir
    obtain ⟨rd', e', _, _, c', _⟩ := hg.heap _ rd e
    rw [hg.root]
    exact ⟨rd', e', c'.trans a⟩

theorem attach_wf (s : VmasFSData) (p par : Nat) (nd pd : FileNode) (hwf : WF s)
    (h1 : s.heap p = some nd) (h2 : s.heap par = some pd) (hne : par ≠ p) :
    WF ((s.store p { nd with parent := some par }).store par (pd.appendChild p)) := by
  refine hwf.of_grows (attach_grows s p par nd pd h1 h2 hne) rfl rfl ?_
  intro q hq
  have hqp : q ≠ p := by rintro rfl; rw [h1] at hq; cases hq
  have hqpar : q ≠ par := by rintro rfl; rw [h2] at hq; cases hq
  simp [VmasFSData.store, hqp, hqpar, hq]

theorem attach_connected (s : VmasFSData) (p par : Nat) (nd pd : FileNode) (hne : par ≠ p)
    (hfind : s.find nd.getParentName = some par) (hdir : pd.is_dir = true) :
    Connected ((s.store p { nd with parent := some par }).store par (pd.appendChild p)) p := by
  refine ⟨{ nd with parent := some par }, par, pd.appendChild p, ?_, rfl, hfind, ?_, hdir, ?_⟩
  · simp [VmasFSData.store, hne.symm]
  · simp [VmasFSData.store]
  · simp [FileNode.appendChild]

/-! ### The `name` pointer -/

theorem nameOffset_le : ∀ k : List Char, nameOffset k ≤ k.length
  | [] => by simp [nameOffset]
  | c :: cs => by
    have := nameOffset_le cs
    simp only [nameOffset, List.length_cons]
    split
    · omega
    · split <;> omega

theorem nameOffset_pos_of_mem : ∀ k : List Char, '/' ∈ k → 0 < nameOffset k
  | [], h => by simp at h
  | c :: cs, h => by
    simp only [nameOffset]
    split
    · omega
    · rename_i hcs
      have hc : c = '/' := by
        rcases List.mem_cons.mp h with h | h
        · exact h.symm
        · exact absurd h hcs
      simp [hc]

/-- The last `/` of a path is right before the `name` pointer: the path is
its parent path, a `/`, and a short name without `/`. -/
theorem nameOffset_split : ∀ k : List Char, 0 < nameOffset k →
    k = k.take (nameOffset k - 1) ++ '/' :: k.drop (nameOffset k) ∧
      '/' ∉ k.drop (nameOffset k)
  | [], h => by simp [nameOffset] at h
  | c :: cs, h => by
    simp only [nameOffset] at h ⊢
    by_cases hcs : '/' ∈ cs
    · simp only [hcs, if_true] at h ⊢
      have hpos := nameOffset_pos_of_mem cs hcs
      obtain ⟨h1, h2⟩ := nameOffset_split cs hpos
      obtain ⟨j, hj⟩ : ∃ j, nameOffset cs = j + 1 := ⟨nameOffset cs - 1, by omega⟩
      rw [hj] at h1 h2
      simp only [hj, Nat.add_sub_cancel, List.take_succ_cons, List.drop_succ_cons,
        List.cons_append, List.cons.injEq, true_and]
      simp only [Nat.add_sub_cancel] at h1
      exact ⟨h1, h2⟩
    · simp only [hcs, if_false] at h ⊢
      by_cases hc : c = '/'
      · simp [hc, hcs]
      · simp [hc] at h

theorem getParentName_length_lt (nd : FileNode) (hname : nd.name = nameOffset nd.full_name)
    (hne : nd.getParentName ≠ []) : nd.getParentName.length < nd.full_name.length := by
  unfold FileNode.getParentName at hne ⊢
  have hle := nameOffset_le nd.full_name
  by_cases hpos : nd.name > 0
  · simp only [hpos, if_true, List.length_take]
    omega
  · simp [hpos] at hne

theorem getParentName_starts (nd : FileNode) : nd.getParentName <+: nd.full_name := by
  unfold FileNode.getParentName
  split
  · exact List.take_prefix _ _
  · exact List.nil_prefix

/-! ### `connectNodeToTree` -/

theorem ok_bind {α β : Type} (a : α) (f : α → Except Failure β) :
    (Except.ok a >>= f) = f a := rfl

theorem error_bind {α β : Type} (e : Failure) (f : α → Except Failure β) :
    (Except.error e >>= f) = Except.error e := rfl

theorem connect_unfold_none (n : Nat) (s : VmasFSData) (p : Nat) (nd : FileNode)
    (h1 : s.heap p = some nd) (h2 : s.find nd.getParentName = none) :
    s.connectNodeToTree (n + 1) p =
      ((s.withDir nd.getParentName).connectNodeToTree n s.next >>=
        fun s3 => s3.attach p s.next) := by
  simp only [VmasFSData.connectNodeToTree, VmasFSData.deref, h1, VmasFSData.findParent, h2,
    VmasFSData.alloc, ok_bind, if_true, createIntermediateDir, VmasFSData.withDir]

theorem connect_unfold_some (n : Nat) (s : VmasFSData) (p par : Nat) (nd pd : FileNode)
    (h1 : s.heap p = some nd) (h2 : s.find nd.getParentName = some par)
    (h3 : s.heap par = some pd) :
    s.connectNodeToTree (n + 1) p =
      if pd.is_dir = true then s.attach p par else .error .bad_structure := by
  simp only [VmasFSData.connectNodeToTree, VmasFSData.deref, h1, VmasFSData.findParent, h2, h3,
    bind, Except.bind]
  cases pd.is_dir <;> simp

theorem erase_of_find_none (m : filemap_t) (key : List Char) (h : m.find key = none) :
    filemap_t.erase m key = m := by
  induction m with
  | nil => rfl
  | cons e rest ih =>
    obtain ⟨k0, v0⟩ := e
    simp only [filemap_t.find] at h
    by_cases h0 : k0 = key
    · simp [h0] at h
    · simp only [h0, if_false] at h
      have := ih h
      unfold filemap_t.erase at this ⊢
      rw [List.filter_cons_of_pos (by simpa using h0), this]

theorem withDir_find (s : VmasFSData) (pn key : List Char) :
    (s.withDir pn).find key = if key = pn then some s.next else s.find key := by
  simp [VmasFSData.withDir, VmasFSData.find, find_insert]

theorem withDir_heap_old (s : VmasFSData) (hwf : WF s) (pn : List Char) (q : Nat)
    (nd : FileNode) (h : s.heap q = some nd) : (s.withDir pn).heap q = some nd := by
  have hlt := hwf.lt_next h
  have hne : q ≠ s.next := by omega
  simp [VmasFSData.withDir, hne, h]

theorem withDir_wf (s : VmasFSData) (hwf : WF s) (pn : List Char) (hpn : pn ≠ []) :
    WF (s.withDir pn) := by
  refine ⟨?_, ?_, ?_, ?_⟩
  · intro p hp
    have h1 : s.next + 1 ≤ p := hp
    have hne : p ≠ s.next := by omega
    simp only [VmasFSData.withDir, hne, if_false]
    exact hwf.fresh p (by omega)
  · intro key p hk
    rw [withDir_find] at hk
    by_cases hkey : key = pn
    · subst hkey
      simp only [if_true, Option.some.injEq] at hk
      subst hk
      exact ⟨createIntermediateDir key, by simp [VmasFSData.withDir], rfl, rfl⟩
    · simp only [hkey, if_false] at hk
      obtain ⟨nd, e, a, b⟩ := hwf.filed key p hk
      exact ⟨nd, withDir_heap_old s hwf pn p nd e, a, b⟩
  · rw [withDir_find]
    have : ¬ [] = pn := fun e => hpn e.symm
    simp only [this, if_false]
    exact hwf.root
  · obtain ⟨rd, e, a⟩ := hwf.rootDir
    exact ⟨rd, withDir_heap_old s hwf pn _ rd e, a⟩

theorem withDir_grows (s : VmasFSData) (hwf : WF s) (pn : List Char)
    (hnone : s.find pn = none) : Grows (fun _ => False) s (s.withDir pn) := by
  refine ⟨rfl, Nat.le_succ _, ?_, ?_⟩
  · intro key q h
    rw [withDir_find]
    have : key ≠ pn := by rintro rfl; rw [hnone] at h; cases h
    simp [this, h]
  · intro q nd h
    exact ⟨nd, withDir_heap_old s hwf pn q nd h, rfl, rfl, rfl, rfl, fun _ h => h, fun _ => rfl⟩

theorem WF.ptr_ne {s : VmasFSData} (hwf : WF s) {k1 k2 : List Char} {p1 p2 : Nat}
    (h1 : s.find k1 = some p1) (h2 : s.find k2 = some p2) (hne : k1 ≠ k2) : p1 ≠ p2 := by
  rintro rfl
  obtain ⟨nd1, e1, a1, _⟩ := hwf.filed k1 p1 h1
  obtain ⟨nd2, e2, a2, _⟩ := hwf.filed k2 p1 h2
  rw [e1] at e2
  cases e2
  exact hne (a1.symm.trans a2)

/-- What `connectNodeToTree` does to a node filed in the map under a
non-empty path, when the recursion bound exceeds the length of the path: it
throws "bad archive structure", or it returns a tree in which the node is
connected, every key added is a proper initial segment of the path and is
connected, and nothing else has changed. -/
theorem connect_spec : ∀ (n : Nat) (s : VmasFSData) (p : Nat) (nd : FileNode), WF s →
    s.heap p = some nd → s.find nd.full_name = some p → nd.full_name ≠ [] →
    nd.full_name.length < n →
    s.connectNodeToTree n p = .error .bad_structure ∨
    ∃ t, s.connectNodeToTree n p = .ok t ∧ WF t ∧ Grows (fun q => q = p) s t ∧
      Connected t p ∧
      (∀ key q, t.find key = some q → s.find key = none →
        key <+: nd.full_name ∧ key ≠ nd.full_name ∧ Connected t q) ∧
      (∃ added, t.files = added ++ s.files ∧
        ∀ e ∈ added, e.1 <+: nd.full_name ∧ e.1 ≠ nd.full_name) := by
  intro n
  induction n with
  | zero => intro s p nd _ _ _ _ h; omega
  | succ n ih =>
    intro s p nd hwf hp hfile hne hlen
    have hname : nd.name = nameOffset nd.full_name := by
      obtain ⟨nd', e, _, b⟩ := hwf.filed _ p hfile
      rw [hp] at e
      cases e
      exact b
    have hpn_ne : nd.getParentName ≠ nd.full_name := by
      intro e
      by_cases h0 : nd.getParentName = []
      · exact hne (e ▸ h0)
      · have := getParentName_length_lt nd hname h0
        rw [e] at this
        omega
    cases hf : s.find nd.getParentName with
    | none =>
      have hpn : nd.getParentName ≠ [] := by
        intro e
        rw [e, hwf.root] at hf
        cases hf
      have hlt := getParentName_length_lt nd hname hpn
      have hwf2 := withDir_wf s hwf nd.getParentName hpn
      have hg2 := withDir_grows s hwf nd.getParentName hf
      have hnew : (s.withDir nd.getParentName).heap s.next =
          some (createIntermediateDir nd.getParentName) := by
        simp [VmasFSData.withDir]
      have hfind2 : (s.withDir nd.getParentName).find
          (createIntermediateDir nd.getParentName).full_name = some s.next := by
        rw [withDir_find]
        simp [createIntermediateDir]
      have hpnext : p ≠ s.next := by
        have := hwf.lt_next hp
        omega
      rw [connect_unfold_none n s p nd hp hf]
      rcases ih (s.withDir nd.getParentName) s.next (createIntermediateDir nd.getParentName)
          hwf2 hnew hfind2 hpn (by simp only [createIntermediateDir]; omega) with
        he | ⟨t3, hok, hwf3, hg3, hc3, hnew3, added3, hadd3, hadd3p⟩
      · left
        rw [he, error_bind]
      · right
        rw [hok, ok_bind]
        obtain ⟨nd3, e3, a3, b3, _, _, _, g3⟩ :=
          hg3.heap p nd (withDir_heap_old s hwf _ p nd hp)
        obtain ⟨pd3, e4, _, _, c4, _, _, _⟩ := hg3.heap s.next _ hnew
        have hdir : pd3.is_dir = true := c4
        have hne2 : s.next ≠ p := fun e => hpnext e.symm
        have hga := attach_grows t3 p s.next nd3 pd3 e3 e4 hne2
        have hpfind3 : t3.find nd.full_name = some p :=
          hg3.files _ _ (hg2.files _ _ hfile)
        refine ⟨_, attach_eq t3 p s.next nd3 pd3 e3 e4 hne2,
          attach_wf t3 p s.next nd3 pd3 hwf3 e3 e4 hne2, ?_, ?_, ?_, ?_⟩
        · refine ((hg2.trans hg3).trans hga).mono ?_
          intro q hq hE
          rcases hE with (hE | hE) | hE
          · exact absurd hE id
          · exfalso
            rw [hE, hwf.fresh s.next (le_refl _)] at hq
            exact hq rfl
          · exact hE
        · apply attach_connected t3 p s.next nd3 pd3 hne2 _ hdir
          rw [FileNode.getParentName_congr a3 b3]
          have := hg3.files _ _ hfind2
          simpa [createIntermediateDir] using this
        · intro key q hk hs
          have hk3 : t3.find key = some q := hk
          by_cases hkey : key = nd.getParentName
          · subst hkey
            have hq : q = s.next := by
              have := hg3.files _ _ hfind2
              simp only [createIntermediateDir] at this
              rw [this] at hk3
              cases hk3
              rfl
            subst hq
            exact ⟨getParentName_starts nd, hpn_ne, hc3.grows hga hne2⟩
          · have hk2 : (s.withDir nd.getParentName).find key = none := by
              rw [withDir_find]
              simp [hkey, hs]
            obtain ⟨x1, x2, x3⟩ := hnew3 key q hk3 hk2
            simp only [createIntermediateDir] at x1 x2
            have hkne : key ≠ nd.full_name := by
              intro e
              have := x1.length_le
              rw [e] at this
              omega
            refine ⟨x1.trans (getParentName_starts nd), hkne, x3.grows hga ?_⟩
            exact hwf3.ptr_ne hk3 hpfind3 hkne
        · refine ⟨added3 ++ [(nd.getParentName, s.next)], ?_, ?_⟩
          · show t3.files = _
            rw [hadd3]
            simp [VmasFSData.withDir, filemap_t.insert, erase_of_find_none s.files _ hf]
          · intro e he
            rcases List.mem_append.mp he with he | he
            · obtain ⟨x1, x2⟩ := hadd3p e he
              simp only [createIntermediateDir] at x1 x2
              refine ⟨x1.trans (getParentName_starts nd), ?_⟩
              intro e2
              have := x1.length_le
              rw [e2] at this
              omega
            · simp only [List.mem_singleton] at he
              subst he
              exact ⟨getParentName_starts nd, hpn_ne⟩
    | some par =>
      obtain ⟨pd, e, a, _⟩ := hwf.filed _ par hf
      have hne2 : par ≠ p := by
        rintro rfl
        rw [hp] at e
        cases e
        exact hpn_ne a.symm
      rw [connect_unfold_some n s p par nd pd hp hf e]
      by_cases hdir : pd.is_dir = true
      · right
        rw [if_pos hdir]
        refine ⟨_, attach_eq s p par nd pd hp e hne2, attach_wf s p par nd pd hwf hp e hne2,
          attach_grows s p par nd pd hp e hne2,
          attach_connected s p par nd pd hne2 hf hdir, ?_, [], rfl, by simp⟩
        intro key q hk hs
        have hk2 : s.find key = some q := hk
        rw [hs] at hk2
        cases hk2
      · left
        rw [if_neg hdir]

/-! ### The loop that connects the nodes -/

theorem connectLoop_unfold (n : Nat) (s : VmasFSData) (key : List Char) (node : Nat)
    (nd : FileNode) (h1 : s.find key = some node) (h2 : s.heap node = some nd) :
    s.connectLoop (n + 1) (some key) =
      ((if node ≠ s.m_root then s.connectNodeToTree (nd.full_name.length + 1) node
        else .ok s) >>= fun s1 => s1.connectLoop n (s1.files.upper (some key))) := by
  have h1' : filemap_t.find s.files key = some node := h1
  simp only [VmasFSData.connectLoop, h1', VmasFSData.deref, h2, ok_bind]

theorem countP_lt_of {α : Type} (p q : α → Bool) (l : List α)
    (hpq : ∀ x ∈ l, p x = true → q x = true)
    (hx : ∃ x ∈ l, q x = true ∧ p x = false) : l.countP p < l.countP q := by
  induction l with
  | nil => obtain ⟨x, hx, _⟩ := hx; simp at hx
  | cons a l ih =>
    have hmono : l.countP p ≤ l.countP q :=
      List.countP_mono_left (fun x hx => hpq x (List.mem_cons_of_mem a hx))
    obtain ⟨x, hxm, hqx, hpx⟩ := hx
    rcases List.mem_cons.mp hxm with rfl | hxl
    · rw [List.countP_cons_of_pos _ _ hqx, List.countP_cons_of_neg _ _ (by simp [hpx])]
      omega
    · have hlt := ih (fun x hx => hpq x (List.mem_cons_of_mem a hx)) ⟨x, hxl, hqx, hpx⟩
      by_cases hpa : p a = true
      · rw [List.countP_cons_of_pos _ _ hpa,
          List.countP_cons_of_pos _ _ (hpq a (List.mem_cons_self a l) hpa)]
        omega
      · rw [List.countP_cons_of_neg _ _ hpa]
        by_cases hqa : q a = true
        · rw [List.countP_cons_of_pos _ _ hqa]; omega
        · rw [List.countP_cons_of_neg _ _ hqa]; exact hlt

theorem find_isSome_mem (m : filemap_t) (key : List Char) (h : (m.find key).isSome = true) :
    ∃ v, (key, v) ∈ m := by
  induction m with
  | nil => simp [filemap_t.find] at h
  | cons e rest ih =>
    obtain ⟨k0, v0⟩ := e
    simp only [filemap_t.find] at h
    by_cases h0 : k0 = key
    · subst h0
      exact ⟨v0, List.mem_cons_self _ _⟩
    · simp only [h0, if_false] at h
      obtain ⟨v, hv⟩ := ih h
      exact ⟨v, List.mem_cons_of_mem _ hv⟩

theorem keysFrom_lt (m : filemap_t) (c b : List Char) (hc : (m.find c).isSome = true)
    (hcb : ltstr c b = true) : keysFrom m b < keysFrom m c := by
  unfold keysFrom
  apply countP_lt_of
  · intro e _ he
    cases hl : ltstr e.1 c with
    | false => rfl
    | true =>
      rw [ltstr_trans _ _ _ hl hcb] at he
      cases he
  · obtain ⟨v, hv⟩ := find_isSome_mem m c hc
    exact ⟨(c, v), hv, by simp [ltstr_irrefl], by simp [hcb]⟩

theorem keysFrom_pos (m : filemap_t) (c : List Char) (hc : (m.find c).isSome = true) :
    0 < keysFrom m c := by
  obtain ⟨v, hv⟩ := find_isSome_mem m c hc
  unfold keysFrom
  exact List.countP_pos_iff.mpr ⟨(c, v), hv, by simp [ltstr_irrefl]⟩

theorem keysFrom_added (added m : filemap_t) (c b : List Char) (hcb : ltstr c b = true)
    (hadd : ∀ e ∈ added, ltstr e.1 c = true) : keysFrom (added ++ m) b = keysFrom m b := by
  unfold keysFrom
  rw [List.countP_append]
  have : List.countP (fun e => !ltstr e.1 b) added = 0 := by
    rw [List.countP_eq_zero]
    intro e he
    simp [ltstr_trans _ _ _ (hadd e he) hcb]
  omega

theorem WF.root_key {s : VmasFSData} (hwf : WF s) {key : List Char}
    (h : s.find key = some s.m_root) : key = [] := by
  by_contra hne
  exact hwf.ptr_ne h hwf.root hne rfl

/-- The loop that connects the nodes, started with a bound above the number of
keys from the iterator on: it throws "bad archive structure", or it returns
a tree in which every node is connected and that extends the one it started
from. -/
theorem connectLoop_spec : ∀ (n : Nat) (s : VmasFSData) (cur : Option (List Char)),
    WF s → LoopInv s cur → (∀ c, cur = some c → (s.find c).isSome = true) →
    (∀ c, cur = some c → keysFrom s.files c < n) → 0 < n →
    s.connectLoop n cur = .error .bad_structure ∨
    ∃ t, s.connectLoop n cur = .ok t ∧ WF t ∧ Grows (fun _ => True) s t ∧ AllConnected t := by
  intro n
  induction n with
  | zero => intro s cur _ _ _ _ h; omega
  | succ n ih =>
    intro s cur hwf hinv hsome hfuel _
    cases cur with
    | none =>
      right
      refine ⟨s, rfl, hwf, Grows.refl _ s, ?_⟩
      intro key q hk hq
      rcases hinv key q hk hq with h | ⟨c, hc, _⟩
      · exact h
      · cases hc
    | some c =>
      have hcs := hsome c rfl
      have hn : 0 < n := by
        have := keysFrom_pos s.files c hcs
        have := hfuel c rfl
        omega
      obtain ⟨node, hnode⟩ := Option.isSome_iff_exists.mp hcs
      obtain ⟨nd, hnd, hfull, _⟩ := hwf.filed c node hnode
      rw [connectLoop_unfold n s c node nd hnode hnd]
      -- what is needed of the state after the body of the loop
      have hnext : ∀ s1 : VmasFSData, WF s1 → Grows (fun q => q = node) s s1 →
          (node ≠ s.m_root → Connected s1 node) →
          (∀ key q, s1.find key = some q → s.find key = none → Connected s1 q) →
          (∃ added, s1.files = added ++ s.files ∧ ∀ e ∈ added, ltstr e.1 c = true) →
          s1.connectLoop n (s1.files.upper (some c)) = .error .bad_structure ∨
          ∃ t, s1.connectLoop n (s1.files.upper (some c)) = .ok t ∧ WF t ∧
            Grows (fun _ => True) s t ∧ AllConnected t := by
        intro s1 hwf1 hg hcn hnew ⟨added, hadd, haddlt⟩
        have hinv1 : LoopInv s1 (s1.files.upper (some c)) := by
          intro key q hk hq
          rw [hg.root] at hq
          cases hs : s.find key with
          | none => exact Or.inl (hnew key q hk hs)
          | some q' =>
            have := hg.files key q' hs
            rw [hk] at this
            cases this
            by_cases hqn : q = node
            · subst hqn
              exact Or.inl (hcn hq)
            · rcases hinv key q hs hq with h | ⟨c', hc', hlt⟩
              · exact Or.inl (h.grows hg hqn)
              · cases hc'
                right
                have hkc : key ≠ c := by
                  rintro rfl
                  rw [hnode] at hs
                  cases hs
                  exact hqn rfl
                have hck := ltstr_total key c hlt hkc
                obtain ⟨b, hb, hbl⟩ := upper_least s1.files (some c) key
                  (by
                    have hk' : filemap_t.find s1.files key = some q := hk
                    rw [hk']; rfl) hck
                exact ⟨b, hb, hbl⟩
        have hsome1 : ∀ b, s1.files.upper (some c) = some b → (s1.find b).isSome = true :=
          fun b hb => (upper_mem s1.files (some c) b hb).1
        have hfuel1 : ∀ b, s1.files.upper (some c) = some b → keysFrom s1.files b < n := by
          intro b hb
          have hcb : ltstr c b = true := (upper_mem s1.files (some c) b hb).2
          rw [hadd, keysFrom_added added s.files c b hcb haddlt]
          have := keysFrom_lt s.files c b hcs hcb
          have := hfuel c rfl
          omega
        rcases ih s1 (s1.files.upper (some c)) hwf1 hinv1 hsome1 hfuel1 hn with
          he | ⟨t, hok, hwft, hgt, hall⟩
        · exact Or.inl he
        · refine Or.inr ⟨t, hok, hwft, (hg.trans hgt).mono (fun _ _ _ => trivial), hall⟩
      by_cases hroot : node = s.m_root
      · have hif : (if node ≠ s.m_root then
            s.connectNodeToTree (nd.full_name.length + 1) node else .ok s) = .ok s := by
          simp [hroot]
        rw [hif, ok_bind]
        exact hnext s hwf (Grows.refl _ s) (fun h => absurd hroot h)
          (fun key q hk hs => by rw [hk] at hs; cases hs) ⟨[], rfl, by simp⟩
      · have hif : (if node ≠ s.m_root then
            s.connectNodeToTree (nd.full_name.length + 1) node else .ok s) =
            s.connectNodeToTree (nd.full_name.length + 1) node := by
          simp [hroot]
        rw [hif]
        have hne : nd.full_name ≠ [] := by
          intro e
          rw [hfull] at e
          subst e
          rw [hwf.root] at hnode
          cases hnode
          exact hroot rfl
        rcases connect_spec (nd.full_name.length + 1) s node nd hwf hnd
            (by rw [hfull]; exact hnode) hne (by omega) with
          he | ⟨s1, hok, hwf1, hg, hcn, hnew, added, hadd, haddp⟩
        · left
          rw [he, error_bind]
        · rw [hok, ok_bind]
          refine hnext s1 hwf1 hg (fun _ => hcn) (fun key q hk hs => (hnew key q hk hs).2.2)
            ⟨added, hadd, ?_⟩
          intro e he
          obtain ⟨x1, x2⟩ := haddp e he
          rw [hfull] at x1 x2
          exact ltstr_of_prefix _ _ x1 x2

/-! ### The loop that adds the entries -/

theorem storedName_ne_nil_of_length {c : List Char} (h : 2 ≤ c.length) : storedName c ≠ [] := by
  unfold storedName
  split
  · intro e
    have := congrArg List.length e
    simp only [List.length_dropLast, List.length_nil] at this
    omega
  · intro e
    rw [e] at h
    simp at h

/-- The path stored for a successfully converted entry name is not empty. -/
theorem storedName_ne_nil {name out : List Char} {ro np : Bool}
    (hok : convertFileName name ro np = .ok out) : storedName out ≠ [] := by
  rcases convertFileName_ok_form hok with
    ⟨r, _, _, _, ho⟩ | ⟨k, r, _, _, _, _, ho⟩ | ⟨hne, hh, _, ho⟩
  · apply storedName_ne_nil_of_length
    rw [ho]
    simp
  · apply storedName_ne_nil_of_length
    rw [ho, upNames_succ]
    simp [UP_PREFIX]
  · cases name with
    | nil => exact absurd rfl hne
    | cons c rest =>
      have hc : c ≠ '/' := by
        intro e; apply hh; simp [e]
      cases np
      · simp only [Bool.false_eq_true, if_false, List.nil_append] at ho
        subst ho
        cases rest with
        | nil =>
          unfold storedName
          have : ¬ [c].getLast? = some '/' := by simpa using hc
          rw [if_neg this]
          simp
        | cons d ds =>
          apply storedName_ne_nil_of_length
          simp
      · apply storedName_ne_nil_of_length
        rw [ho]
        simp

theorem withEntry_find (s : VmasFSData) (cname key : List Char) (i : Nat) :
    (s.withEntry cname i).find key =
      if key = storedName cname then some s.next else s.find key := by
  simp [VmasFSData.withEntry, VmasFSData.find, find_insert]

theorem withEntry_wf (s : VmasFSData) (hwf : WF s) (cname : List Char) (i : Nat)
    (hne : storedName cname ≠ []) : WF (s.withEntry cname i) := by
  have hold : ∀ q nd, s.heap q = some nd → (s.withEntry cname i).heap q = some nd := by
    intro q nd h
    have hlt := hwf.lt_next h
    have hq : q ≠ s.next := by omega
    simp [VmasFSData.withEntry, hq, h]
  refine ⟨?_, ?_, ?_, ?_⟩
  · intro p hp
    have h1 : s.next + 1 ≤ p := hp
    have hq : p ≠ s.next := by omega
    simp only [VmasFSData.withEntry, hq, if_false]
    exact hwf.fresh p (by omega)
  · intro key p hk
    rw [withEntry_find] at hk
    by_cases hkey : key = storedName cname
    · subst hkey
      simp only [if_true, Option.some.injEq] at hk
      subst hk
      exact ⟨createNodeForZipEntry cname i, by simp [VmasFSData.withEntry], rfl, rfl⟩
    · simp only [hkey, if_false] at hk
      obtain ⟨nd, e, a, b⟩ := hwf.filed key p hk
      exact ⟨nd, hold p nd e, a, b⟩
  · rw [withEntry_find]
    have : ¬ [] = storedName cname := fun e => hne e.symm
    simp only [this, if_false]
    exact hwf.root
  · obtain ⟨rd, e, a⟩ := hwf.rootDir
    exact ⟨rd, hold _ rd e, a⟩

theorem addEntries_unfold (ro np : Bool) (name : List Char) (rest : List (List Char))
    (i : Nat) (s : VmasFSData) :
    VmasFSData.addEntries ro np (name :: rest) i s =
      (convertFileName name ro np >>= fun converted =>
        if (s.files.find converted).isSome then .error .duplicate
        else VmasFSData.addEntries ro np rest (i + 1) (s.withEntry converted i)) := by
  simp only [VmasFSData.addEntries, VmasFSData.alloc, VmasFSData.deref, if_true, ok_bind,
    createNodeForZipEntry, VmasFSData.withEntry]

theorem addEntries_wf (ro np : Bool) : ∀ (names : List (List Char)) (i : Nat)
    (s t : VmasFSData), WF s → VmasFSData.addEntries ro np names i s = .ok t → WF t := by
  intro names
  induction names with
  | nil =>
    intro i s t hwf h
    simp only [VmasFSData.addEntries, Except.ok.injEq] at h
    exact h ▸ hwf
  | cons name rest ih =>
    intro i s t hwf h
    rw [addEntries_unfold] at h
    cases hc : convertFileName name ro np with
    | error e => rw [hc, error_bind] at h; cases h
    | ok converted =>
      rw [hc, ok_bind] at h
      by_cases hd : (s.files.find converted).isSome = true
      · rw [if_pos hd] at h; cases h
      · rw [if_neg hd] at h
        exact ih (i + 1) _ t (withEntry_wf s hwf converted i (storedName_ne_nil hc)) h

theorem initial_wf : WF VmasFSData.initial := by
  refine ⟨?_, ?_, ?_, ?_⟩
  · intro p hp
    have h1 : 1 ≤ p := hp
    have : p ≠ 0 := by omega
    simp [VmasFSData.initial, this]
  · intro key p hk
    simp only [VmasFSData.find, VmasFSData.initial, find_insert] at hk
    by_cases hkey : key = []
    · subst hkey
      simp only [if_true, Option.some.injEq] at hk
      subst hk
      exact ⟨createRootNode, by simp [VmasFSData.initial], rfl, rfl⟩
    · simp [hkey, filemap_t.find] at hk
  · simp [VmasFSData.find, VmasFSData.initial, find_insert]
  · exact ⟨createRootNode, by simp [VmasFSData.initial], rfl⟩

theorem build_entries_eq (names : List (List Char)) (ro : Bool) :
    build_entries names ro =
      VmasFSData.addEntries ro (needPrefixOf ro names) names 0 VmasFSData.initial := by
  simp only [build_entries, VmasFSData.alloc, VmasFSData.deref, if_true, ok_bind,
    createRootNode, VmasFSData.initial]

theorem build_entries_wf {names : List (List Char)} {ro : Bool} {s : VmasFSData}
    (h : build_entries names ro = .ok s) : WF s := by
  rw [build_entries_eq] at h
  exact addEntries_wf ro _ names 0 _ s initial_wf h

theorem keysFrom_le_length (m : filemap_t) (c : List Char) : keysFrom m c ≤ m.length :=
  List.countP_le_length _

/-- `build_tree` after its first part: it throws "bad archive structure" or
returns a tree that extends the one holding the entries and in which every
node is connected. -/
theorem build_tree_spec {names : List (List Char)} {ro : Bool} {s : VmasFSData}
    (h : build_entries names ro = .ok s) :
    build_tree names ro = .error .bad_structure ∨
    ∃ t, build_tree names ro = .ok t ∧ WF t ∧ Grows (fun _ => True) s t ∧ AllConnected t := by
  have hwf := build_entries_wf h
  have hbt : build_tree names ro = s.connectLoop (s.files.length + 1) (s.files.upper none) := by
    simp only [build_tree, h, ok_bind]
  rw [hbt]
  apply connectLoop_spec _ s _ hwf
  · intro key q hk _
    right
    obtain ⟨b, hb, hbl⟩ := upper_least s.files none key
      (by
        have hk' : filemap_t.find s.files key = some q := hk
        rw [hk']; rfl) rfl
    exact ⟨b, hb, hbl⟩
  · intro c hc
    exact (upper_mem s.files none c hc).1
  · intro c _
    have := keysFrom_le_length s.files c
    omega
  · omega

/-! ### Ancestors -/

theorem split_at_last_slash {a r b t : List Char} (h : a ++ '/' :: r = b ++ '/' :: t)
    (ht : '/' ∉ t) : a = b ∨ ∃ r', b = a ++ '/' :: r' := by
  rcases List.append_eq_append_iff.mp h with ⟨a', h1, h2⟩ | ⟨c', h1, h2⟩
  · cases a' with
    | nil => left; simpa using h1.symm
    | cons x a'' =>
      simp only [List.cons_append, List.cons.injEq] at h2
      right
      exact ⟨a'', by rw [h1, ← h2.1]⟩
  · cases c' with
    | nil => left; simpa using h1
    | cons x c'' =>
      simp only [List.cons_append, List.cons.injEq] at h2
      exfalso
      apply ht
      rw [h2.2]
      simp

theorem ancestors_present (t : VmasFSData) (hwf : WF t) (hall : AllConnected t) :
    ∀ (n : Nat) (key : List Char) (p : Nat) (anc rest : List Char), key.length ≤ n →
      t.find key = some p → key = anc ++ '/' :: rest →
      ∃ a ad, t.find anc = some a ∧ t.heap a = some ad ∧ ad.is_dir = true := by
  intro n
  induction n with
  | zero =>
    intro key p anc rest hlen _ hk
    rw [hk] at hlen
    simp at hlen
  | succ n ih =>
    intro key p anc rest hlen hfind hk
    have hmem : '/' ∈ key := by rw [hk]; simp
    have hproot : p ≠ t.m_root := by
      rintro rfl
      have := hwf.root_key hfind
      rw [this] at hmem
      simp at hmem
    obtain ⟨nd, par, pd, h1, _, h3, h4, h5, _⟩ := hall key p hfind hproot
    obtain ⟨nd', e, hfull, hname⟩ := hwf.filed key p hfind
    rw [h1] at e
    cases e
    have hpos := nameOffset_pos_of_mem key hmem
    obtain ⟨hsplit, hshort⟩ := nameOffset_split key hpos
    have hpn : nd.getParentName = key.take (nameOffset key - 1) := by
      unfold FileNode.getParentName
      rw [hname, hfull]
      simp [hpos]
    rw [hpn] at h3
    have hk2 : anc ++ '/' :: rest = key.take (nameOffset key - 1) ++ '/' :: key.drop (nameOffset key) := by
      rw [← hk]; exact hsplit
    rcases split_at_last_slash hk2 hshort with ha | ⟨r', hr'⟩
    · rw [ha]
      exact ⟨par, pd, h3, h4, h5⟩
    · have hle := nameOffset_le key
      exact ih (key.take (nameOffset key - 1)) par anc r'
        (by simp only [List.length_take]; omega) h3 hr'

/-! ## Building the tree: the claims -/

/-- C7: after every successful `build_tree`, each node of the tree other than
the root has a non-null parent pointer, to the node filed in the path map under
its parent path, which is a directory and lists it as a child; and every
ancestor path of every node (what precedes any `/` of its path) is filed in
the map as a directory.  For the single entry `a/b/c` the directories `a` and
`a/b` exist, `a` lists `b` and `a/b` lists `c`. -/
theorem build_tree_parents :
    (∀ (names : List (List Char)) (ro : Bool) (t : VmasFSData),
      build_tree names ro = .ok t →
      (∀ key p, t.find key = some p → p ≠ t.m_root →
        ∃ nd par pd, t.heap p = some nd ∧ nd.full_name = key ∧ nd.parent = some par ∧
          t.find nd.getParentName = some par ∧ t.heap par = some pd ∧ pd.is_dir = true ∧
          p ∈ pd.childs) ∧
      (∀ key p anc rest, t.find key = some p → key = anc ++ '/' :: rest →
        ∃ a ad, t.find anc = some a ∧ t.heap a = some ad ∧ ad.is_dir = true)) ∧
    (build_tree ["a/b/c".toList] false).toOption.map
      (fun t => (t.dirList "a".toList, t.dirList "a/b".toList)) =
      some (some ["b".toList], some ["c".toList]) := by
  refine ⟨?_, by decide⟩
  intro names ro t h
  cases he : build_entries names ro with
  | error e =>
    simp only [build_tree, he, error_bind] at h
    cases h
  | ok s =>
    rcases build_tree_spec he with hb | ⟨t', hok, hwf, _, hall⟩
    · rw [hb] at h; cases h
    · rw [hok] at h
      cases h
      refine ⟨?_, ?_⟩
      · intro key p hk hp
        obtain ⟨nd, par, pd, h1, h2, h3, h4, h5, h6⟩ := hall key p hk hp
        obtain ⟨nd', e, hfull, _⟩ := hwf.filed key p hk
        rw [h1] at e
        cases e
        exact ⟨nd, par, pd, h1, hfull, h2, h3, h4, h5, h6⟩
      · intro key p anc rest hk hkey
        exact ancestors_present _ hwf hall key.length key p anc rest (le_refl _) hk hkey

/-- C7 at the archive with the single entry `a/b/c`: the build succeeds and
the node filed under `a/b` has a parent, the directory filed under `a`. -/
theorem build_tree_parents_witness :
    ∃ t, build_tree ["a/b/c".toList] false = .ok t ∧
      ∃ a ad, t.find "a".toList = some a ∧ t.heap a = some ad ∧ ad.is_dir = true := by
  cases h : build_tree ["a/b/c".toList] false with
  | error e =>
    have hb : (build_tree ["a/b/c".toList] false).toBool = true := by decide
    rw [h] at hb
    cases hb
  | ok t =>
    have hfind : (t.find "a/b/c".toList).isSome = true := by
      have hb : ((build_tree ["a/b/c".toList] false).toOption.map
          (fun t => (t.find "a/b/c".toList).isSome)) = some true := by decide
      rw [h] at hb
      simpa [Except.toOption] using hb
    obtain ⟨p, hp⟩ := Option.isSome_iff_exists.mp hfind
    exact ⟨t, rfl, (build_tree_parents.1 ["a/b/c".toList] false t h).2 "a/b/c".toList p
      "a".toList "b/c".toList hp (by decide)⟩

theorem failureOf_eq_some {α : Type} {r : Except Failure α} {e : Failure}
    (h : failureOf r = some e) : r = .error e := by
  cases r with
  | error e' => simp only [failureOf, Option.some.injEq] at h; rw [h]
  | ok a => simp [failureOf] at h

/-- C6, at the archive whose two entries are both named `a/`: both names
normalise to the canonical path `a/`, yet `build_tree` returns a tree, with a
single node besides the root; two entries both named `a` are rejected. -/
theorem build_tree_duplicate_directory :
    convertFileName "a/".toList false false = .ok "a/".toList ∧
    (build_tree ["a/".toList, "a/".toList] false).toOption.map (fun t => t.numFiles) = some 1 ∧
    failureOf (build_tree ["a".toList, "a".toList] false) = some .duplicate := by
  decide

/-- C8: when, once the archive entries have been added to the map, some node
other than the root has a parent path that resolves to a node that is not a
directory, `build_tree` throws "bad archive structure"; so it does for the
entries `a`, a file, and `a/b`. -/
theorem build_tree_bad_structure :
    (∀ (names : List (List Char)) (ro : Bool) (s : VmasFSData) (key : List Char)
      (p par : Nat) (nd pd : FileNode),
      build_entries names ro = .ok s → s.find key = some p → p ≠ s.m_root →
      s.heap p = some nd → s.find nd.getParentName = some par → s.heap par = some pd →
      pd.is_dir = false → build_tree names ro = .error .bad_structure) ∧
    build_tree ["a".toList, "a/b".toList] false = .error .bad_structure := by
  refine ⟨?_, failureOf_eq_some (by decide)⟩
  intro names ro s key p par nd pd he hk hp hnd hpar hpd hdir
  rcases build_tree_spec he with hb | ⟨t, _, _, hg, hall⟩
  · exact hb
  · exfalso
    have hp' : p ≠ t.m_root := by rw [hg.root]; exact hp
    obtain ⟨nd1, par1, pd1, h1, _, h3, h4, h5, _⟩ := hall key p (hg.files _ _ hk) hp'
    obtain ⟨nd2, e2, a2, b2, _⟩ := hg.heap p nd hnd
    rw [h1] at e2
    cases e2
    rw [FileNode.getParentName_congr a2 b2, hg.files _ _ hpar] at h3
    cases h3
    obtain ⟨pd2, e3, _, _, c3, _⟩ := hg.heap par pd hpd
    rw [h4] at e3
    cases e3
    rw [c3, hdir] at h5
    cases h5

/-- C8 at the entries `a`, a file, and `a/b`: once both are in the map, the
parent path of `a/b` resolves to the file `a`. -/
theorem build_tree_bad_structure_witness :
    build_entries ["a".toList, "a/b".toList] false =
      .ok ((VmasFSData.initial.withEntry "a".toList 0).withEntry "a/b".toList 1) ∧
    build_tree ["a".toList, "a/b".toList] false = .error .bad_structure :=
  ⟨rfl,
    build_tree_bad_structure.1 ["a".toList, "a/b".toList] false
      ((VmasFSData.initial.withEntry "a".toList 0).withEntry "a/b".toList 1) "a/b".toList 2 1
      (createNodeForZipEntry "a/b".toList 1) (createNodeForZipEntry "a".toList 0)
      rfl (by decide) (by decide) rfl (by decide) rfl (by decide)⟩

/-! ## `insertNode`, `removeNode`, `renameNode` -/

theorem insertNode_eq (s : VmasFSData) (node par : Nat) (nd pd : FileNode)
    (h1 : s.heap node = some nd) (h2 : s.find nd.getParentName = some par)
    (h3 : s.heap par = some pd) (hne : par ≠ node) (h4 : s.find nd.full_name = none) :
    s.insertNode node = .ok (s.inserted node par nd pd) := by
  have h4' : filemap_t.find s.files nd.full_name = none := h4
  have hne' : node ≠ par := fun e => hne e.symm
  simp [VmasFSData.insertNode, VmasFSData.deref, h1, VmasFSData.findParent, h2, h3, ok_bind,
    VmasFSData.store, hne, hne', h4', VmasFSData.inserted, pure, Except.pure]
  funext q
  by_cases hq : q = par
  · simp [hq]
  · simp [hq]

theorem removeNode_eq (zip : ZipLib) (s : VmasFSData) (node par : Nat) (nd pd : FileNode)
    (h1 : s.heap node = some nd) (h2 : nd.parent = some par)
    (h3 : s.heap par = some pd) (hne : par ≠ node) :
    s.removeNode zip node =
      .ok (if nd.id ≥ 0 then (if zip.zip_delete nd.id = 0 then 0 else ENOENT) else 0,
        s.removed node par nd pd) := by
  have hne' : node ≠ par := fun e => hne e.symm
  simp only [VmasFSData.removeNode, VmasFSData.deref, h1, h2, h3, ok_bind,
    VmasFSData.store, hne', if_true, if_false, VmasFSData.free, VmasFSData.removed]
  have hheap : (fun q => if q = node then none
        else if q = par then some (pd.detachChild node).setCTime
        else if q = par then some (pd.detachChild node) else s.heap q) =
      (fun q => if q = node then none
        else if q = par then some (pd.detachChild node).setCTime else s.heap q) := by
    funext q
    by_cases hq : q = node
    · simp [hq]
    · by_cases hq2 : q = par
      · simp [hq, hq2]
      · simp [hq, hq2]
  by_cases hid : nd.id ≥ 0
  · simp only [hid, if_true, pure, Except.pure, hheap]
  · simp only [hid, if_false, pure, Except.pure, hheap]

theorem renameNode_eq_false (s : VmasFSData) (node par1 : Nat) (nd : FileNode)
    (newName : List Char) (h1 : s.heap node = some nd) (h2 : nd.parent = some par1) :
    s.renameNode node newName false = .ok (s.renamed node nd newName) := by
  simp [VmasFSData.renameNode, VmasFSData.deref, h1, h2, ok_bind, VmasFSData.store,
    VmasFSData.renamed, pure, Except.pure, FileNode.rename]

theorem renameNode_eq_true (s : VmasFSData) (node par1 par2 : Nat) (nd pd1 pd2 : FileNode)
    (newName : List Char) (h1 : s.heap node = some nd) (h2 : nd.parent = some par1)
    (h3 : s.heap par1 = some pd1)
    (h4 : ((s.files.erase nd.full_name).insert (storedName newName) node).find
      (nd.rename newName).getParentName = some par2)
    (h5 : s.heap par2 = some pd2) (hne2 : par2 ≠ node) :
    s.renameNode node newName true =
      .ok (s.reparented node par1 par2 nd pd1 pd2 newName) := by
  have hne2' : node ≠ par2 := fun e => hne2 e.symm
  have hfull : (nd.rename newName).full_name = storedName newName := rfl
  by_cases hp1 : par1 = node
  · subst hp1
    rw [h1] at h3
    cases h3
    have hpp : ¬ par1 = par2 := hne2'
    simp only [VmasFSData.renameNode, VmasFSData.deref, h1, h2, ok_bind, VmasFSData.store,
      if_true, pure, Except.pure, VmasFSData.findParent, VmasFSData.find,
      FileNode.rename, FileNode.detachChild, FileNode.getParentName] at h4 ⊢
    simp only [h4, hne2, hne2', if_false, h5, ok_bind, if_true, ne_eq, not_false_eq_true,
      VmasFSData.reparented, FileNode.rename, FileNode.detachChild, FileNode.setCTime,
      FileNode.appendChild]
    congr 2
    funext q
    by_cases hq : q = par1
    · simp [hq, hne2']
    · by_cases hq2 : q = par2
      · simp [hq2, hne2, hne2']
      · simp [hq, hq2, hpp]
  · have hne1' : node ≠ par1 := fun e => hp1 e.symm
    by_cases hpp : par1 = par2
    · subst hpp
      rw [h3] at h5
      cases h5
      simp only [VmasFSData.renameNode, VmasFSData.deref, h1, h2, h3, ok_bind,
        VmasFSData.store, hne1', if_true, if_false, pure, Except.pure, VmasFSData.findParent,
        VmasFSData.find, hfull, h4, hp1, ne_eq, not_true_eq_false, VmasFSData.reparented]
      congr 2
      funext q
      by_cases hq : q = node
      · simp [hq, hne1']
      · by_cases hq2 : q = par1
        · simp [hq2, hp1]
        · simp [hq, hq2]
    · have hpp' : par2 ≠ par1 := fun e => hpp e.symm
      simp only [VmasFSData.renameNode, VmasFSData.deref, h1, h2, h3, ok_bind,
        VmasFSData.store, hne1', if_true, if_false, pure, Except.pure, VmasFSData.findParent,
        VmasFSData.find, hfull, h4, hp1, hne2, hne2', h5, hpp, hpp', ne_eq, not_false_eq_true,
        VmasFSData.reparented]
      congr 2
      funext q
      by_cases hq : q = node
      · simp [hq, hne1', hne2']
      · by_cases hq1 : q = par1
        · simp [hq1, hp1, hpp]
        · by_cases hq2 : q = par2
          · simp [hq2, hne2, hpp']
          · simp [hq, hq1, hq2]

/-! ### Invariant 1 across a change of one node -/

theorem inv1_transfer {s t : VmasFSData} {node : Nat} (hinv : Inv1 s) (hf : Frame s t node)
    (hchild : ∀ key p ndp, s.find key = some p → p ≠ node → p ≠ s.m_root →
      s.heap p = some ndp → ndp.parent = some node →
      ∃ ndn, t.heap node = some ndn ∧ p ∈ ndn.childs)
    (hself : ∀ key, t.find key = some node → node ≠ t.m_root →
      ∃ nd par pd, t.heap node = some nd ∧ nd.full_name = key ∧ nd.parent = some par ∧
        t.heap par = some pd ∧ node ∈ pd.childs) : Inv1 t := by
  intro key p hk hp
  by_cases hpn : p = node
  · subst hpn
    exact hself key hk hp
  · have hks := (hf.files key p hpn).mp hk
    rw [hf.root] at hp
    obtain ⟨nd, par, pd, h1, h2, h3, h4, h5⟩ := hinv key p hks hp
    obtain ⟨nd', e1, a1, b1, _, _⟩ := hf.heap p hpn nd h1
    by_cases hparn : par = node
    · subst hparn
      obtain ⟨ndn, e2, hmem⟩ := hchild key p nd hks hpn hp h1 h3
      exact ⟨nd', par, ndn, e1, a1.trans h2, b1.trans h3, e2, hmem⟩
    · obtain ⟨pd', e2, _, _, _, m2⟩ := hf.heap par hparn pd h4
      exact ⟨nd', par, pd', e1, a1.trans h2, b1.trans h3, e2, (m2 p hpn).mpr h5⟩

theorem filedOK_transfer {s t : VmasFSData} {node : Nat} (hfiled : FiledOK s)
    (hf : Frame s t node)
    (hself : ∀ key, t.find key = some node →
      ∃ nd, t.heap node = some nd ∧ nd.full_name = key) : FiledOK t := by
  intro key p hk
  by_cases hpn : p = node
  · subst hpn
    exact hself key hk
  · obtain ⟨nd, e, a⟩ := hfiled key p ((hf.files key p hpn).mp hk)
    obtain ⟨nd', e', a', _⟩ := hf.heap p hpn nd e
    exact ⟨nd', e', a'.trans a⟩

/-- Under invariant 1 the nodes that point to `node` as their parent are in
its child list. -/
theorem Inv1.child_mem {s : VmasFSData} (hinv : Inv1 s) {key : List Char} {p node : Nat}
    {ndp nd : FileNode} (hk : s.find key = some p) (hp : p ≠ s.m_root)
    (h1 : s.heap p = some ndp) (h2 : ndp.parent = some node) (h3 : s.heap node = some nd) :
    p ∈ nd.childs := by
  obtain ⟨nd', par, pd, e1, _, e3, e4, e5⟩ := hinv key p hk hp
  rw [h1] at e1
  cases e1
  rw [h2] at e3
  cases e3
  rw [h3] at e4
  cases e4
  exact e5

theorem Inv1.key_eq {s : VmasFSData} (hinv : Inv1 s) {key key' : List Char} {p : Nat}
    (hp : p ≠ s.m_root) (h1 : s.find key = some p) (h2 : s.find key' = some p) :
    key = key' := by
  obtain ⟨nd, _, _, e1, a1, _⟩ := hinv key p h1 hp
  obtain ⟨nd', _, _, e2, a2, _⟩ := hinv key' p h2 hp
  rw [e1] at e2
  cases e2
  exact a1.symm.trans a2

/-! ### `insertNode` -/

theorem inserted_find (s : VmasFSData) (node par : Nat) (nd pd : FileNode) (key : List Char) :
    (s.inserted node par nd pd).find key =
      if key = nd.full_name then some node else s.find key := by
  simp [VmasFSData.inserted, VmasFSData.find, find_insert]

theorem inserted_frame (s : VmasFSData) (node par : Nat) (nd pd : FileNode)
    (h3 : s.heap par = some pd) (h4 : s.find nd.full_name = none) :
    Frame s (s.inserted node par nd pd) node := by
  refine ⟨rfl, ?_, ?_, ?_⟩
  · intro key p hp
    rw [inserted_find]
    by_cases hk : key = nd.full_name
    · subst hk
      simp only [if_true, Option.some.injEq, h4]
      constructor
      · intro e; exact absurd e.symm hp
      · intro e; cases e
    · simp [hk]
  · intro q hq ndq hndq
    by_cases hqp : q = par
    · subst hqp
      rw [h3] at hndq
      cases hndq
      refine ⟨(pd.appendChild node).setCTime, by simp [VmasFSData.inserted], rfl, rfl, rfl, ?_⟩
      intro c hc
      simp [FileNode.setCTime, FileNode.appendChild, hc]
    · exact ⟨ndq, by simp [VmasFSData.inserted, hqp, hq, hndq], rfl, rfl, rfl,
        fun _ _ => Iff.rfl⟩
  · intro q hq hnone
    have hqp : q ≠ par := by rintro rfl; rw [h3] at hnone; cases hnone
    simp [VmasFSData.inserted, hqp, hq, hnone]

theorem insertNode_spec (s : VmasFSData) (node par : Nat) (nd : FileNode)
    (hfiled : FiledOK s) (hinv : Inv1 s) (h1 : s.heap node = some nd)
    (h4 : s.find nd.full_name = none) (h2 : s.find nd.getParentName = some par) :
    ∃ t, s.insertNode node = .ok t ∧ FiledOK t ∧ Inv1 t ∧ Frame s t node ∧
      t.find nd.full_name = some node := by
  obtain ⟨pd, h3, hpdname⟩ := hfiled _ par h2
  have hne : par ≠ node := by
    rintro rfl
    rw [h1] at h3
    cases h3
    rw [hpdname, h2] at h4
    cases h4
  have hframe := inserted_frame s node par nd pd h3 h4
  have hkey : ∀ key, (s.inserted node par nd pd).find key = some node → key = nd.full_name := by
    intro key hk
    rw [inserted_find] at hk
    by_cases hkk : key = nd.full_name
    · exact hkk
    · simp only [hkk, if_false] at hk
      obtain ⟨nd', e, a⟩ := hfiled key node hk
      rw [h1] at e
      cases e
      exact a.symm
  have hnode : (s.inserted node par nd pd).heap node = some { nd with parent := some par } := by
    simp [VmasFSData.inserted, hne.symm]
  refine ⟨_, insertNode_eq s node par nd pd h1 h2 h3 hne h4, ?_, ?_, hframe, ?_⟩
  · apply filedOK_transfer hfiled hframe
    intro key hk
    exact ⟨_, hnode, (hkey key hk).symm⟩
  · apply inv1_transfer hinv hframe
    · intro key p ndp hk _ hp hndp hpar
      have hm : p ∈ nd.childs := hinv.child_mem hk hp hndp hpar h1
      exact ⟨_, hnode, hm⟩
    · intro key hk _
      refine ⟨_, par, (pd.appendChild node).setCTime, hnode, (hkey key hk).symm, rfl,
        by simp [VmasFSData.inserted], by simp [FileNode.setCTime, FileNode.appendChild]⟩
  · rw [inserted_find]
    simp

/-! ### `removeNode` -/

theorem removed_find (s : VmasFSData) (node par : Nat) (nd pd : FileNode) (key : List Char) :
    (s.removed node par nd pd).find key =
      if key = nd.full_name then none else s.find key := by
  simp [VmasFSData.removed, VmasFSData.find, find_erase]

theorem removed_frame (s : VmasFSData) (node par : Nat) (nd pd : FileNode)
    (h3 : s.heap par = some pd) (h4 : s.find nd.full_name = some node) :
    Frame s (s.removed node par nd pd) node := by
  refine ⟨rfl, ?_, ?_, ?_⟩
  · intro key p hp
    rw [removed_find]
    by_cases hk : key = nd.full_name
    · subst hk
      simp only [if_true, h4, Option.some.injEq]
      constructor
      · intro e; cases e
      · intro e; exact absurd e.symm hp
    · simp [hk]
  · intro q hq ndq hndq
    by_cases hqp : q = par
    · subst hqp
      rw [h3] at hndq
      cases hndq
      refine ⟨(pd.detachChild node).setCTime, by simp [VmasFSData.removed, hq], rfl, rfl, rfl,
        ?_⟩
      intro c hc
      simp [FileNode.setCTime, FileNode.detachChild, hc]
    · exact ⟨ndq, by simp [VmasFSData.removed, hqp, hq, hndq], rfl, rfl, rfl,
        fun _ _ => Iff.rfl⟩
  · intro q hq hnone
    have hqp : q ≠ par := by rintro rfl; rw [h3] at hnone; cases hnone
    simp [VmasFSData.removed, hqp, hq, hnone]

/-- `removeNode` on a node of the tree, other than the root, that no node of
the tree has as its parent. -/
theorem removeNode_spec (zip : ZipLib) (s : VmasFSData) (key : List Char) (node : Nat)
    (nd : FileNode) (hinv : Inv1 s) (hk : s.find key = some node) (hroot : node ≠ s.m_root)
    (h1 : s.heap node = some nd)
    (hleaf : ∀ key' p ndp, s.find key' = some p → p ≠ s.m_root → s.heap p = some ndp →
      ndp.parent ≠ some node) :
    ∃ par pd, nd.parent = some par ∧ s.heap par = some pd ∧ par ≠ node ∧ nd.full_name = key ∧
      s.removeNode zip node =
        .ok (if nd.id ≥ 0 then (if zip.zip_delete nd.id = 0 then 0 else ENOENT) else 0,
          s.removed node par nd pd) ∧
      Inv1 (s.removed node par nd pd) ∧ Frame s (s.removed node par nd pd) node ∧
      (s.removed node par nd pd).find key = none := by
  obtain ⟨nd', par, pd, e1, hfull, h2, h3, _⟩ := hinv key node hk hroot
  rw [h1] at e1
  cases e1
  have hne : par ≠ node := by
    rintro rfl
    exact hleaf key par nd hk hroot h1 h2
  have hk' : s.find nd.full_name = some node := by rw [hfull]; exact hk
  have hframe := removed_frame s node par nd pd h3 hk'
  refine ⟨par, pd, h2, h3, hne, hfull, removeNode_eq zip s node par nd pd h1 h2 h3 hne, ?_,
    hframe, ?_⟩
  · apply inv1_transfer hinv hframe
    · intro key' p ndp hk2 _ hp hndp hpar
      exact absurd hpar (hleaf key' p ndp hk2 hp hndp)
    · intro key' hk2 _
      exfalso
      rw [removed_find] at hk2
      by_cases hkk : key' = nd.full_name
      · simp [hkk] at hk2
      · simp only [hkk, if_false] at hk2
        exact hkk ((hinv.key_eq hroot hk2 hk).trans hfull.symm)
  · rw [removed_find, hfull]
    simp

/-! ### `renameNode` -/

theorem rename_getParentName (nd : FileNode) (newName : List Char) :
    (nd.rename newName).getParentName = parentPath (storedName newName) := rfl

theorem moved_find (m : filemap_t) (old new key : List Char) (node : Nat) :
    ((filemap_t.erase m old).insert new node).find key =
      if key = new then some node else if key = old then none else m.find key := by
  rw [find_insert, find_erase]

theorem renamed_find (s : VmasFSData) (node : Nat) (nd : FileNode) (newName key : List Char) :
    (s.renamed node nd newName).find key =
      if key = storedName newName then some node
      else if key = nd.full_name then none else s.find key :=
  moved_find s.files nd.full_name (storedName newName) key node

theorem reparented_find (s : VmasFSData) (node par1 par2 : Nat) (nd pd1 pd2 : FileNode)
    (newName key : List Char) :
    (s.reparented node par1 par2 nd pd1 pd2 newName).find key =
      if key = storedName newName then some node
      else if key = nd.full_name then none else s.find key :=
  moved_find s.files nd.full_name (storedName newName) key node

theorem moved_files_frame (s : VmasFSData) (node : Nat) (nd : FileNode) (newName : List Char)
    (hold : s.find nd.full_name = some node) (hnew : s.find (storedName newName) = none)
    (key : List Char) (p : Nat) (hp : p ≠ node) :
    ((if key = storedName newName then some node
      else if key = nd.full_name then none else s.find key) = some p) ↔
      s.find key = some p := by
  by_cases h1 : key = storedName newName
  · subst h1
    simp only [if_true, Option.some.injEq, hnew]
    constructor
    · intro e; exact absurd e.symm hp
    · intro e; cases e
  · by_cases h2 : key = nd.full_name
    · subst h2
      simp only [h1, if_false, if_true, hold, Option.some.injEq]
      constructor
      · intro e; cases e
      · intro e; exact absurd e.symm hp
    · simp [h1, h2]

theorem renamed_frame (s : VmasFSData) (node : Nat) (nd : FileNode) (newName : List Char)
    (hold : s.find nd.full_name = some node) (hnew : s.find (storedName newName) = none) :
    Frame s (s.renamed node nd newName) node := by
  refine ⟨rfl, ?_, ?_, ?_⟩
  · intro key p hp
    rw [renamed_find]
    exact moved_files_frame s node nd newName hold hnew key p hp
  · intro q hq ndq hndq
    exact ⟨ndq, by simp [VmasFSData.renamed, hq, hndq], rfl, rfl, rfl, fun _ _ => Iff.rfl⟩
  · intro q hq hnone
    simp [VmasFSData.renamed, hq, hnone]

theorem reparented_heap_other (s : VmasFSData) (node par1 par2 : Nat) (nd pd1 pd2 : FileNode)
    (newName : List Char) (q : Nat) (hq : q ≠ node) :
    (s.reparented node par1 par2 nd pd1 pd2 newName).heap q =
      if par1 = par2 then
        (if q = par1 then some ((pd1.detachChild node).appendChild node) else s.heap q)
      else if q = par1 then some (pd1.detachChild node).setCTime
      else if q = par2 then some (pd2.appendChild node).setCTime
      else s.heap q := by
  simp only [VmasFSData.reparented, if_neg hq]

theorem reparented_frame (s : VmasFSData) (node par1 par2 : Nat) (nd pd1 pd2 : FileNode)
    (newName : List Char) (hold : s.find nd.full_name = some node)
    (hnew : s.find (storedName newName) = none) (h3 : s.heap par1 = some pd1)
    (h5 : s.heap par2 = some pd2) :
    Frame s (s.reparented node par1 par2 nd pd1 pd2 newName) node := by
  refine ⟨rfl, ?_, ?_, ?_⟩
  rotate_left 2
  · intro q hq hnone
    have hq1 : q ≠ par1 := by rintro rfl; rw [h3] at hnone; cases hnone
    have hq2 : q ≠ par2 := by rintro rfl; rw [h5] at hnone; cases hnone
    rw [reparented_heap_other s node par1 par2 nd pd1 pd2 newName q hq]
    simp [hq1, hq2, hnone]
  · intro key p hp
    rw [reparented_find]
    exact moved_files_frame s node nd newName hold hnew key p hp
  · intro q hq ndq hndq
    rw [reparented_heap_other s node par1 par2 nd pd1 pd2 newName q hq]
    by_cases hpp : par1 = par2
    · rw [if_pos hpp]
      by_cases hq1 : q = par1
      · rw [if_pos hq1]
        rw [hq1, h3] at hndq
        cases hndq
        refine ⟨_, rfl, rfl, rfl, rfl, ?_⟩
        intro c hc
        simp [FileNode.appendChild, FileNode.detachChild, hc]
      · rw [if_neg hq1]
        exact ⟨ndq, hndq, rfl, rfl, rfl, fun _ _ => Iff.rfl⟩
    · rw [if_neg hpp]
      by_cases hq1 : q = par1
      · rw [if_pos hq1]
        rw [hq1, h3] at hndq
        cases hndq
        refine ⟨_, rfl, rfl, rfl, rfl, ?_⟩
        intro c hc
        simp [FileNode.setCTime, FileNode.detachChild, hc]
      · rw [if_neg hq1]
        by_cases hq2 : q = par2
        · rw [if_pos hq2]
          rw [hq2, h5] at hndq
          cases hndq
          refine ⟨_, rfl, rfl, rfl, rfl, ?_⟩
          intro c hc
          simp [FileNode.setCTime, FileNode.appendChild, hc]
        · rw [if_neg hq2]
          exact ⟨ndq, hndq, rfl, rfl, rfl, fun _ _ => Iff.rfl⟩

/-- The only key under which the renamed node is filed is its new path. -/
theorem moved_key (s : VmasFSData) (hinv : Inv1 s) (node : Nat) (nd : FileNode)
    (newName key : List Char) (hroot : node ≠ s.m_root)
    (hold : s.find nd.full_name = some node)
    (h : (if key = storedName newName then some node
      else if key = nd.full_name then none else s.find key) = some node) :
    key = storedName newName := by
  by_cases h1 : key = storedName newName
  · exact h1
  · by_cases h2 : key = nd.full_name
    · rw [if_neg h1, if_pos h2] at h
      cases h
    · rw [if_neg h1, if_neg h2] at h
      exact absurd (hinv.key_eq hroot h hold) h2

theorem renameNode_spec (s : VmasFSData) (key : List Char) (node : Nat) (nd : FileNode)
    (newName : List Char) (reparent : Bool) (hfiled : FiledOK s) (hinv : Inv1 s)
    (hk : s.find key = some node) (hroot : node ≠ s.m_root) (h1 : s.heap node = some nd)
    (hnew : s.find (storedName newName) = none)
    (hpar : reparent = true →
      ∃ par2, par2 ≠ node ∧ s.find (parentPath (storedName newName)) = some par2) :
    ∃ t, s.renameNode node newName reparent = .ok t ∧ FiledOK t ∧ Inv1 t ∧ Frame s t node ∧
      t.find (storedName newName) = some node ∧ t.find key = none ∧
      t.files = (s.files.erase key).insert (storedName newName) node ∧
      (∀ ndn, t.heap node = some ndn → ∀ c, c ∈ ndn.childs → c ∈ nd.childs) := by
  obtain ⟨nd', par1, pd1, e1, hfull, h2, h3, hmem⟩ := hinv key node hk hroot
  rw [h1] at e1
  cases e1
  have hold : s.find nd.full_name = some node := by rw [hfull]; exact hk
  have hkne : ¬ key = storedName newName := by
    intro e
    rw [e, hnew] at hk
    cases hk
  cases reparent with
  | false =>
    have hframe := renamed_frame s node nd newName hold hnew
    have hnode : (s.renamed node nd newName).heap node = some (nd.rename newName) := by
      simp [VmasFSData.renamed]
    have hkey : ∀ k, (s.renamed node nd newName).find k = some node → k = storedName newName := by
      intro k hk2
      rw [renamed_find] at hk2
      exact moved_key s hinv node nd newName k hroot hold hk2
    refine ⟨_, renameNode_eq_false s node par1 nd newName h1 h2, ?_, ?_, hframe, ?_, ?_,
      by rw [← hfull]; rfl, ?_⟩
    rotate_right
    · intro ndn hn c hc
      rw [hnode] at hn
      cases hn
      exact hc
    · apply filedOK_transfer hfiled hframe
      intro k hk2
      exact ⟨_, hnode, (hkey k hk2).symm⟩
    · apply inv1_transfer hinv hframe
      · intro k p ndp hk2 _ hp hndp hparent
        have hm : p ∈ nd.childs := hinv.child_mem hk2 hp hndp hparent h1
        exact ⟨_, hnode, hm⟩
      · intro k hk2 _
        by_cases hp1 : par1 = node
        · subst hp1
          rw [h1] at h3
          cases h3
          exact ⟨_, par1, _, hnode, (hkey k hk2).symm, h2, hnode, hmem⟩
        · exact ⟨_, par1, pd1, hnode, (hkey k hk2).symm, h2,
            by simp [VmasFSData.renamed, hp1, h3], hmem⟩
    · rw [renamed_find]; simp
    · rw [renamed_find, hfull]; simp [hkne]
  | true =>
    obtain ⟨par2, hne2, hpp⟩ := hpar rfl
    obtain ⟨pd2, h5, _⟩ := hfiled _ par2 hpp
    have h4 : ((s.files.erase nd.full_name).insert (storedName newName) node).find
        (nd.rename newName).getParentName = some par2 := by
      rw [rename_getParentName, moved_find]
      have x1 : ¬ parentPath (storedName newName) = storedName newName := by
        intro e
        rw [e, hnew] at hpp
        cases hpp
      have x2 : ¬ parentPath (storedName newName) = nd.full_name := by
        intro e
        rw [e, hold] at hpp
        cases hpp
        exact hne2 rfl
      simp only [x1, x2, if_false]
      exact hpp
    have hframe := reparented_frame s node par1 par2 nd pd1 pd2 newName hold hnew h3 h5
    have hkey : ∀ k, (s.reparented node par1 par2 nd pd1 pd2 newName).find k = some node →
        k = storedName newName := by
      intro k hk2
      rw [reparented_find] at hk2
      exact moved_key s hinv node nd newName k hroot hold hk2
    have hnode : ∃ ndn, (s.reparented node par1 par2 nd pd1 pd2 newName).heap node = some ndn ∧
        ndn.full_name = storedName newName ∧ ndn.parent = some par2 ∧
        (∀ c, c ≠ node → c ∈ nd.childs → c ∈ ndn.childs) ∧
        (∀ c, c ∈ ndn.childs → c ∈ nd.childs) := by
      refine ⟨{ (if par1 = node then (nd.detachChild node).setCTime else nd).rename newName with
          parent := some par2 }, by simp only [VmasFSData.reparented, if_true], ?_, rfl, ?_, ?_⟩
      · by_cases hp1 : par1 = node <;> simp [hp1, FileNode.rename]
      · intro c hc hm
        by_cases hp1 : par1 = node
        · simp [hp1, FileNode.rename, FileNode.setCTime, FileNode.detachChild, hc, hm]
        · simp [hp1, FileNode.rename, hm]
      · intro c hm
        by_cases hp1 : par1 = node
        · simp only [hp1, if_true, FileNode.rename, FileNode.setCTime, FileNode.detachChild,
            List.mem_filter] at hm
          exact hm.1
        · simpa [hp1, FileNode.rename] using hm
    obtain ⟨ndn, hn1, hn2, hn3, hn4, hn5⟩ := hnode
    refine ⟨_, renameNode_eq_true s node par1 par2 nd pd1 pd2 newName h1 h2 h3 h4 h5 hne2,
      ?_, ?_, hframe, ?_, ?_, by rw [← hfull]; rfl, ?_⟩
    rotate_right
    · intro ndn' hn c hc
      rw [hn1] at hn
      cases hn
      exact hn5 c hc
    · apply filedOK_transfer hfiled hframe
      intro k hk2
      exact ⟨ndn, hn1, hn2.trans (hkey k hk2).symm⟩
    · apply inv1_transfer hinv hframe
      · intro k p ndp hk2 hpn hp hndp hparent
        have hm : p ∈ nd.childs := hinv.child_mem hk2 hp hndp hparent h1
        exact ⟨ndn, hn1, hn4 p hpn hm⟩
      · intro k hk2 _
        have hpar2 : ∃ pdn, (s.reparented node par1 par2 nd pd1 pd2 newName).heap par2 =
            some pdn ∧ node ∈ pdn.childs := by
          rw [reparented_heap_other s node par1 par2 nd pd1 pd2 newName par2 hne2]
          by_cases hp12 : par1 = par2
          · rw [if_pos hp12, if_pos hp12.symm]
            exact ⟨_, rfl, by simp [FileNode.appendChild]⟩
          · have hp21 : ¬ par2 = par1 := fun e => hp12 e.symm
            rw [if_neg hp12, if_neg hp21, if_pos rfl]
            exact ⟨_, rfl, by simp [FileNode.appendChild, FileNode.setCTime]⟩
        obtain ⟨pdn, hp1, hp2⟩ := hpar2
        exact ⟨ndn, par2, pdn, hn1, hn2.trans (hkey k hk2).symm, hn3, hp1, hp2⟩
    · rw [reparented_find]; simp
    · rw [reparented_find, hfull]; simp [hkne]

/-! ## Invariant 1: the claims -/

theorem WF.filedOK {s : VmasFSData} (h : WF s) : FiledOK s := by
  intro key p hk
  obtain ⟨nd, e, a, _⟩ := h.filed key p hk
  exact ⟨nd, e, a⟩

theorem AllConnected.inv1 {s : VmasFSData} (hwf : WF s) (h : AllConnected s) : Inv1 s := by
  intro key p hk hp
  obtain ⟨nd, par, pd, h1, h2, _, h4, _, h6⟩ := h key p hk hp
  obtain ⟨nd', e, a, _⟩ := hwf.filed key p hk
  rw [h1] at e
  cases e
  exact ⟨nd, par, pd, h1, a, h2, h4, h6⟩

theorem build_tree_inv {names : List (List Char)} {ro : Bool} {t : VmasFSData}
    (h : build_tree names ro = .ok t) : WF t ∧ AllConnected t := by
  cases he : build_entries names ro with
  | error e =>
    simp only [build_tree, he, error_bind] at h
    cases h
  | ok s =>
    rcases build_tree_spec he with hb | ⟨t', hok, hwf, _, hall⟩
    · rw [hb] at h; cases h
    · rw [hok] at h
      cases h
      exact ⟨hwf, hall⟩

/-- What a successful `build_tree` returns, read through a projection that can
be evaluated. -/
theorem build_tree_project {α : Type} {names : List (List Char)} {ro : Bool}
    {t : VmasFSData} (f : VmasFSData → α) (a : α) (h : build_tree names ro = .ok t)
    (hf : (build_tree names ro).toOption.map f = some a) : f t = a := by
  rw [h] at hf
  simpa [Except.toOption] using hf

theorem build_tree_exists (names : List (List Char)) (ro : Bool)
    (h : (build_tree names ro).toBool = true) : ∃ t, build_tree names ro = .ok t := by
  cases hb : build_tree names ro with
  | error e => rw [hb] at h; cases h
  | ok t => exact ⟨t, rfl⟩

/-- C9, as stated, fails for `renameNode` with `reparent = true`: in the tree
built from the single entry `a`, invariant 1 holds, the new path `a/x` is not
in the map and its parent path `a` is present, yet `renameNode(a, "a/x", true)`
does not return: the parent path is the old path of the node itself, the
lookup comes after the node has moved, and `assert(parent2 != NULL)` fails. -/
theorem renameNode_counterexample :
    ∃ t, build_tree ["a".toList] false = .ok t ∧ FiledOK t ∧ Inv1 t ∧
      t.find "a".toList = some 1 ∧ 1 ≠ t.m_root ∧
      t.find (storedName "a/x".toList) = none ∧
      t.find (parentPath (storedName "a/x".toList)) = some 1 ∧
      t.renameNode 1 "a/x".toList true = .error .assertion := by
  obtain ⟨t, ht⟩ := build_tree_exists ["a".toList] false (by decide)
  obtain ⟨hwf, hall⟩ := build_tree_inv ht
  refine ⟨t, ht, hwf.filedOK, hall.inv1 hwf, ?_, ?_, ?_, ?_, ?_⟩
  · exact build_tree_project (fun t => t.find "a".toList) _ ht (by decide)
  · have := build_tree_project (fun t => t.m_root) 0 ht (by decide)
    simp only at this
    omega
  · exact build_tree_project (fun t => t.find (storedName "a/x".toList)) _ ht (by decide)
  · exact build_tree_project (fun t => t.find (parentPath (storedName "a/x".toList))) _ ht
      (by decide)
  · exact failureOf_eq_some (build_tree_project
      (fun t => failureOf (t.renameNode 1 "a/x".toList true)) _ ht (by decide))

/-- C9, amended: on a tree whose map files every node under its own path and
that satisfies invariant 1, `insertNode` (node path not yet in the map, parent
path present), `removeNode` (a node of the tree other than the root, without
children) and `renameNode` (a node of the tree other than the root; the new
stored path not in the map; with `reparent = true` the new parent path present
and filed for a node other than the renamed one) return, the tree satisfies
invariant 1 again, and no other node has changed its map entry, its parent or
its membership in a child list. -/
theorem tree_operations_keep_inv1 :
    (∀ (s : VmasFSData) (node par : Nat) (nd : FileNode), FiledOK s → Inv1 s →
      s.heap node = some nd → s.find nd.full_name = none →
      s.find nd.getParentName = some par →
      ∃ t, s.insertNode node = .ok t ∧ FiledOK t ∧ Inv1 t ∧ Frame s t node ∧
        t.find nd.full_name = some node) ∧
    (∀ (zip : ZipLib) (s : VmasFSData) (key : List Char) (node : Nat) (nd : FileNode),
      FiledOK s → Inv1 s → s.find key = some node → node ≠ s.m_root →
      s.heap node = some nd → nd.childs = [] →
      ∃ r t, s.removeNode zip node = .ok (r, t) ∧ FiledOK t ∧ Inv1 t ∧ Frame s t node ∧
        t.find key = none) ∧
    (∀ (s : VmasFSData) (key : List Char) (node : Nat) (newName : List Char)
      (reparent : Bool), FiledOK s → Inv1 s → s.find key = some node → node ≠ s.m_root →
      s.find (storedName newName) = none →
      (reparent = true →
        ∃ par2, par2 ≠ node ∧ s.find (parentPath (storedName newName)) = some par2) →
      ∃ t, s.renameNode node newName reparent = .ok t ∧ FiledOK t ∧ Inv1 t ∧
        Frame s t node ∧ t.find (storedName newName) = some node ∧ t.find key = none) := by
  refine ⟨?_, ?_, ?_⟩
  · intro s node par nd hfiled hinv h1 h4 h2
    exact insertNode_spec s node par nd hfiled hinv h1 h4 h2
  · intro zip s key node nd hfiled hinv hk hroot h1 hch
    have hleaf : ∀ key' p ndp, s.find key' = some p → p ≠ s.m_root → s.heap p = some ndp →
        ndp.parent ≠ some node := by
      intro key' p ndp hk' hp hndp hpar
      have := hinv.child_mem hk' hp hndp hpar h1
      rw [hch] at this
      simp at this
    obtain ⟨par, pd, _, _, _, hfull, heq, hinv', hframe, hnone⟩ :=
      removeNode_spec zip s key node nd hinv hk hroot h1 hleaf
    refine ⟨_, _, heq, ?_, hinv', hframe, hnone⟩
    apply filedOK_transfer hfiled hframe
    intro key' hk'
    exfalso
    rw [removed_find] at hk'
    by_cases hkk : key' = nd.full_name
    · simp [hkk] at hk'
    · rw [if_neg hkk] at hk'
      exact hkk ((hinv.key_eq hroot hk' hk).trans hfull.symm)
  · intro s key node newName reparent hfiled hinv hk hroot hnew hpar
    obtain ⟨nd, h1, _⟩ := hfiled key node hk
    obtain ⟨t, h⟩ := renameNode_spec s key node nd newName reparent hfiled hinv hk hroot h1
      hnew hpar
    exact ⟨t, h.1, h.2.1, h.2.2.1, h.2.2.2.1, h.2.2.2.2.1, h.2.2.2.2.2.1⟩

/-- C9 amended, at the tree built from the single entry `a`: removing the node
of `a` returns and leaves a tree that satisfies invariant 1 and has no `a`. -/
theorem tree_operations_keep_inv1_witness :
    ∃ t, build_tree ["a".toList] false = .ok t ∧ FiledOK t ∧ Inv1 t ∧
      ∃ r t', t.removeNode ⟨fun _ => 0⟩ 1 = .ok (r, t') ∧ FiledOK t' ∧ Inv1 t' ∧
        Frame t t' 1 ∧ t'.find "a".toList = none := by
  obtain ⟨t, ht⟩ := build_tree_exists ["a".toList] false (by decide)
  obtain ⟨hwf, hall⟩ := build_tree_inv ht
  refine ⟨t, ht, hwf.filedOK, hall.inv1 hwf, ?_⟩
  have hroot : 1 ≠ t.m_root := by
    have := build_tree_project (fun t => t.m_root) 0 ht (by decide)
    simp only at this
    omega
  exact tree_operations_keep_inv1.2.1 ⟨fun _ => 0⟩ t "a".toList 1
    { createNodeForZipEntry "a".toList 0 with parent := some 0 }
    hwf.filedOK (hall.inv1 hwf)
    (build_tree_project (fun t => t.find "a".toList) _ ht (by decide)) hroot
    (build_tree_project (fun t => t.heap 1) _ ht (by decide)) (by decide)

/-! ## Renaming a file onto a file -/

theorem erase_length (m : filemap_t) (key : List Char)
    (hnd : (m.map Prod.fst).Nodup) (hk : (m.find key).isSome = true) :
    (filemap_t.erase m key).length + 1 = m.length := by
  induction m with
  | nil => simp [filemap_t.find] at hk
  | cons e rest ih =>
    obtain ⟨k0, v0⟩ := e
    simp only [List.map_cons, List.nodup_cons] at hnd
    by_cases h0 : k0 = key
    · subst h0
      have hnone : filemap_t.find rest k0 = none := by
        cases hf : filemap_t.find rest k0 with
        | none => rfl
        | some v =>
          exfalso
          obtain ⟨v', hv'⟩ := find_isSome_mem rest k0 (by rw [hf]; rfl)
          exact hnd.1 (List.mem_map.mpr ⟨(k0, v'), hv', rfl⟩)
      have he := erase_of_find_none rest k0 hnone
      unfold filemap_t.erase at he ⊢
      rw [List.filter_cons_of_neg (by simp), he]
      simp
    · simp only [filemap_t.find, h0, if_false] at hk
      have := ih hnd.2 hk
      unfold filemap_t.erase at this ⊢
      rw [List.filter_cons_of_pos (by simpa using h0)]
      simp only [List.length_cons]
      omega

theorem erase_nodup (m : filemap_t) (key : List Char) (hnd : (m.map Prod.fst).Nodup) :
    ((filemap_t.erase m key).map Prod.fst).Nodup := by
  unfold filemap_t.erase
  exact (List.filter_sublist m).map Prod.fst |>.nodup hnd

theorem removed_no_child (s : VmasFSData) (hch : ChildsOK s) (node par : Nat)
    (nd pd : FileNode) (h1 : s.heap node = some nd) (h2 : nd.parent = some par)
    (q : Nat) (ndq : FileNode)
    (hq : (s.removed node par nd pd).heap q = some ndq) : node ∉ ndq.childs := by
  simp only [VmasFSData.removed] at hq
  by_cases hqn : q = node
  · simp [hqn] at hq
  · rw [if_neg hqn] at hq
    by_cases hqp : q = par
    · rw [if_pos hqp] at hq
      cases hq
      simp [FileNode.setCTime, FileNode.detachChild]
    · rw [if_neg hqp] at hq
      intro hm
      obtain ⟨cd, e, hp⟩ := hch q ndq node hq hm
      rw [h1] at e
      cases e
      rw [h2] at hp
      cases hp
      exact hqp rfl

/-- C10: in every well-formed tree (the invariants of `WF`, every node
connected, distinct keys in the map, child lists holding only children) in
which `/a` and `/b` resolve to distinct nodes that are not directories, `b`
not ending in `/`, and in which the archive delete of `b` succeeds,
`vmasfs_rename("/a", "/b")` returns 0; afterwards `find(b)` is the node
formerly at `a`, `find(a)` is none, the former node of `b` is in no child
list, and the node count has decreased by exactly one. -/
theorem vmasfs_rename_over_file (zip : ZipLib) (s : VmasFSData) (a b : List Char)
    (na nb : Nat) (nda ndb : FileNode)
    (hwf : WF s) (hall : AllConnected s) (hnodup : (s.files.map Prod.fst).Nodup)
    (hch : ChildsOK s) (hbs : b.getLast? ≠ some '/')
    (ha : s.find a = some na) (hb : s.find b = some nb) (hne : na ≠ nb)
    (hnda : s.heap na = some nda) (hndb : s.heap nb = some ndb)
    (hda : nda.is_dir = false) (hdb : ndb.is_dir = false)
    (hdel : ndb.id ≥ 0 → zip.zip_delete ndb.id = 0) :
    ∃ t, vmasfs_rename zip s ('/' :: a) ('/' :: b) = .ok (0, t) ∧
      t.find b = some na ∧ t.find a = none ∧
      (∀ q ndq, t.heap q = some ndq → nb ∉ ndq.childs) ∧
      t.numFiles = s.numFiles - 1 := by
  have hinv := hall.inv1 hwf
  obtain ⟨rd, hrd, hrdir⟩ := hwf.rootDir
  have hnar : na ≠ s.m_root := by
    rintro rfl
    rw [hnda] at hrd
    cases hrd
    rw [hda] at hrdir
    cases hrdir
  have hnbr : nb ≠ s.m_root := by
    rintro rfl
    rw [hndb] at hrd
    cases hrd
    rw [hdb] at hrdir
    cases hrdir
  -- no node has a file as its parent
  have hleaf : ∀ (x : Nat) (ndx : FileNode), s.heap x = some ndx → ndx.is_dir = false →
      ∀ key' p ndp, s.find key' = some p → p ≠ s.m_root → s.heap p = some ndp →
        ndp.parent ≠ some x := by
    intro x ndx hx hxd key' p ndp hk' hp hndp hpar
    obtain ⟨nd1, par1, pd1, e1, e2, _, e4, e5, _⟩ := hall key' p hk' hp
    rw [hndp] at e1
    cases e1
    rw [hpar] at e2
    cases e2
    rw [hx] at e4
    cases e4
    rw [hxd] at e5
    cases e5
  -- the destination is removed
  obtain ⟨parb, pdb, hpb, hpdb, hparb_ne, hfullb, hrm, hinv1, hframe1, hnone1⟩ :=
    removeNode_spec zip s b nb ndb hinv hb hnbr hndb (hleaf nb ndb hndb hdb)
  have hres : (if ndb.id ≥ 0 then (if zip.zip_delete ndb.id = 0 then 0 else ENOENT) else 0) =
      (0 : Int) := by
    by_cases hid : ndb.id ≥ 0
    · rw [if_pos hid, if_pos (hdel hid)]
    · rw [if_neg hid]
  rw [hres] at hrm
  have hfiled1 : FiledOK (s.removed nb parb ndb pdb) := by
    apply filedOK_transfer hwf.filedOK hframe1
    intro key' hk'
    exfalso
    rw [removed_find] at hk'
    by_cases hkk : key' = ndb.full_name
    · simp [hkk] at hk'
    · rw [if_neg hkk] at hk'
      exact hkk ((hinv.key_eq hnbr hk' hb).trans hfullb.symm)
  -- the source after the removal
  obtain ⟨nda1, hnda1, _, _, hda1, _⟩ := hframe1.heap na hne nda hnda
  have hda1' : nda1.is_dir = false := hda1.trans hda
  have ha1 : (s.removed nb parb ndb pdb).find a = some na := (hframe1.files a na hne).mpr ha
  have hstored : storedName b = b := by
    unfold storedName
    rw [if_neg hbs]
  -- the new parent is the parent of the destination
  obtain ⟨ndb', parb', pdb', f1, f2, f3, f4, f5, _⟩ := hall b nb hb hnbr
  rw [hndb] at f1
  cases f1
  rw [hpb] at f2
  cases f2
  have hppath : parentPath b = ndb.getParentName := by
    obtain ⟨ndb2, g1, g2, g3⟩ := hwf.filed b nb hb
    rw [hndb] at g1
    cases g1
    unfold parentPath FileNode.getParentName
    rw [g3, g2]
  have hparb_na : parb ≠ na := by
    rintro rfl
    rw [hnda] at f4
    cases f4
    rw [hda] at f5
    cases f5
  have hpar1 : (s.removed nb parb ndb pdb).find (parentPath (storedName b)) = some parb := by
    rw [hstored, hppath]
    exact (hframe1.files _ parb hparb_ne).mpr f3
  -- the state in which `renameNode` is called
  have hmain : ∀ s3 : VmasFSData, s3.heap = (s.removed nb parb ndb pdb).heap →
      s3.files = (s.removed nb parb ndb pdb).files →
      s3.m_root = (s.removed nb parb ndb pdb).m_root →
      ∃ t, s3.renameNode na b true = .ok t ∧ t.find b = some na ∧ t.find a = none ∧
        (∀ q ndq, t.heap q = some ndq → nb ∉ ndq.childs) ∧ t.numFiles = s.numFiles - 1 := by
    intro s3 e1 e2 e3
    have hfind3 : ∀ k, s3.find k = (s.removed nb parb ndb pdb).find k := by
      intro k; simp only [VmasFSData.find, e2]
    have hfiled3 : FiledOK s3 := by
      intro key p hk
      rw [hfind3] at hk
      rw [e1]
      exact hfiled1 key p hk
    have hinv3 : Inv1 s3 := by
      intro key p hk hp
      rw [hfind3] at hk
      rw [e3] at hp
      rw [e1]
      exact hinv1 key p hk hp
    obtain ⟨t, hok, _, _, hframe, hfb, hfa, hfiles, hsub⟩ :=
      renameNode_spec s3 a na nda1 b true hfiled3 hinv3 (by rw [hfind3]; exact ha1)
        (by rw [e3]; exact hnar) (by rw [e1]; exact hnda1)
        (by rw [hfind3, hstored]; exact hnone1)
        (fun _ => ⟨parb, hparb_na, by rw [hfind3]; exact hpar1⟩)
    rw [hstored] at hfb hfiles
    refine ⟨t, hok, hfb, hfa, ?_, ?_⟩
    · intro q ndq hq
      by_cases hqa : q = na
      · subst hqa
        intro hm
        have hm1 := hsub ndq hq nb hm
        exact removed_no_child s hch nb parb ndb pdb hndb hpb q nda1 hnda1 hm1
      · cases h3 : s3.heap q with
        | none =>
          rw [hframe.alloc q hqa h3] at hq
          cases hq
        | some x =>
          obtain ⟨ndq', g1, _, _, _, g5⟩ := hframe.heap q hqa x h3
          rw [hq] at g1
          cases g1
          intro hm
          have hm1 := (g5 nb (fun e => hne e.symm)).mp hm
          rw [e1] at h3
          exact removed_no_child s hch nb parb ndb pdb hndb hpb q x h3 hm1
    · have hF1 : s3.files = filemap_t.erase s.files b := by
        rw [e2]
        simp only [VmasFSData.removed, hfullb]
      have hlen1 := erase_length s.files b hnodup (by
        have : filemap_t.find s.files b = some nb := hb
        rw [this]; rfl)
      have hnd1 := erase_nodup s.files b hnodup
      have ha3 : (filemap_t.find (filemap_t.erase s.files b) a).isSome = true := by
        have : s3.find a = some na := by rw [hfind3]; exact ha1
        simp only [VmasFSData.find, hF1] at this
        rw [this]; rfl
      have hlen2 := erase_length (filemap_t.erase s.files b) a hnd1 ha3
      have hb3 : filemap_t.find (filemap_t.erase (filemap_t.erase s.files b) a) b = none := by
        rw [find_erase, find_erase]
        simp
      have hlen3 : t.files.length = (filemap_t.erase (filemap_t.erase s.files b) a).length + 1 := by
        rw [hfiles, hF1]
        simp only [filemap_t.insert, List.length_cons, erase_of_find_none _ _ hb3]
      simp only [VmasFSData.numFiles]
      omega
  -- the call
  have hb' : filemap_t.find s.files b = some nb := hb
  have ha' : filemap_t.find s.files a = some na := ha
  have hunfold : vmasfs_rename zip s ('/' :: a) ('/' :: b) =
      ((if nda1.id ≥ 0 then
          ({ s.removed nb parb ndb pdb with
            zipLog := (s.removed nb parb ndb pdb).zipLog ++ [.zip_file_rename nda1.id b] } :
            VmasFSData)
        else s.removed nb parb ndb pdb).renameNode na b true >>= fun s4 => pure (0, s4)) := by
    simp only [vmasfs_rename, List.cons_ne_nil, if_false, List.tail_cons, VmasFSData.find, ha',
      hb', hrm, ok_bind, ne_eq, not_true_eq_false, VmasFSData.deref, hnda1, hda1',
      Bool.false_eq_true, List.append_nil]
  rw [hunfold]
  by_cases hid : nda1.id ≥ 0
  · rw [if_pos hid]
    obtain ⟨t, hok, h1, h2, h3, h4⟩ := hmain
      { s.removed nb parb ndb pdb with
        zipLog := (s.removed nb parb ndb pdb).zipLog ++ [.zip_file_rename nda1.id b] }
      rfl rfl rfl
    exact ⟨t, by rw [hok]; rfl, h1, h2, h3, h4⟩
  · rw [if_neg hid]
    obtain ⟨t, hok, h1, h2, h3, h4⟩ := hmain (s.removed nb parb ndb pdb) rfl rfl rfl
    exact ⟨t, by rw [hok]; rfl, h1, h2, h3, h4⟩

/-- C10 at the tree built from the entries `a` and `b`, with an archive whose
deletes succeed: the hypotheses hold, the call returns 0, and afterwards `b`
is the node formerly at `a`. -/
theorem vmasfs_rename_over_file_witness :
    ∃ s, build_tree ["a".toList, "b".toList] false = .ok s ∧
      ∃ t, vmasfs_rename ⟨fun _ => 0⟩ s ('/' :: "a".toList) ('/' :: "b".toList) = .ok (0, t) ∧
        t.find "b".toList = some 1 ∧ t.find "a".toList = none ∧
        (∀ q ndq, t.heap q = some ndq → 2 ∉ ndq.childs) ∧
        t.numFiles = s.numFiles - 1 := by
  obtain ⟨s, hs⟩ := build_tree_exists ["a".toList, "b".toList] false (by decide)
  obtain ⟨hwf, hall⟩ := build_tree_inv hs
  have h0 : s.heap 0 = some { createRootNode with childs := [1, 2] } :=
    build_tree_project (fun t => t.heap 0) _ hs (by decide)
  have h1 : s.heap 1 = some { createNodeForZipEntry "a".toList 0 with parent := some 0 } :=
    build_tree_project (fun t => t.heap 1) _ hs (by decide)
  have h2 : s.heap 2 = some { createNodeForZipEntry "b".toList 1 with parent := some 0 } :=
    build_tree_project (fun t => t.heap 2) _ hs (by decide)
  have hnext : s.next = 3 := build_tree_project (fun t => t.next) _ hs (by decide)
  have hkeys : s.files.map Prod.fst = ["b".toList, "a".toList, []] :=
    build_tree_project (fun t => t.files.map Prod.fst) _ hs (by decide)
  have hch : ChildsOK s := by
    intro q ndq c hq hc
    match q, hq with
    | 0, hq =>
      rw [h0] at hq
      cases hq
      simp only [List.mem_cons, List.mem_singleton, List.not_mem_nil, or_false] at hc
      rcases hc with rfl | rfl
      · exact ⟨_, h1, rfl⟩
      · exact ⟨_, h2, rfl⟩
    | 1, hq =>
      rw [h1] at hq
      cases hq
      simp [createNodeForZipEntry] at hc
    | 2, hq =>
      rw [h2] at hq
      cases hq
      simp [createNodeForZipEntry] at hc
    | q + 3, hq =>
      rw [hwf.fresh (q + 3) (by omega)] at hq
      cases hq
  refine ⟨s, hs, ?_⟩
  exact vmasfs_rename_over_file ⟨fun _ => 0⟩ s "a".toList "b".toList 1 2 _ _ hwf hall
    (by rw [hkeys]; decide) hch (by decide)
    (build_tree_project (fun t => t.find "a".toList) _ hs (by decide))
    (build_tree_project (fun t => t.find "b".toList) _ hs (by decide))
    (by decide) h1 h2 rfl rfl (fun _ => rfl)

/-! ## `rmdir`, `removeNode` and the error values of the adapter -/

/-- C11: `vmasfs_rmdir` returns `-ENOENT` when the path is empty or resolves to no
node, otherwise `-ENOTDIR` when the node is not a directory, otherwise
`-ENOTEMPTY` when the child list of the directory is not empty; in these
cases the tree and the log of archive calls are returned as they were.  In the
remaining case, and only there, the result is that of `removeNode`, negated. -/
theorem vmasfs_rmdir_cases (zip : ZipLib) (s : VmasFSData) (path : List Char) :
    (path = [] → vmasfs_rmdir zip s path = .ok (-ENOENT, s)) ∧
    (path ≠ [] → s.find path.tail = none → vmasfs_rmdir zip s path = .ok (-ENOENT, s)) ∧
    (∀ node nd, path ≠ [] → s.find path.tail = some node → s.heap node = some nd →
      (nd.is_dir = false → vmasfs_rmdir zip s path = .ok (-ENOTDIR, s)) ∧
      (nd.is_dir = true → nd.childs ≠ [] → vmasfs_rmdir zip s path = .ok (-ENOTEMPTY, s)) ∧
      (nd.is_dir = true → nd.childs = [] →
        vmasfs_rmdir zip s path = (s.removeNode zip node >>= fun r => pure (-r.1, r.2)))) := by
  refine ⟨?_, ?_, ?_⟩
  · intro h
    simp [vmasfs_rmdir, h]
  · intro h hf
    simp [vmasfs_rmdir, h, hf]
  · intro node nd h hf hnd
    refine ⟨?_, ?_, ?_⟩
    · intro hd
      simp [vmasfs_rmdir, h, hf, VmasFSData.deref, hnd, ok_bind, hd]
    · intro hd hc
      simp [vmasfs_rmdir, h, hf, VmasFSData.deref, hnd, ok_bind, hd, hc]
    · intro hd hc
      simp [vmasfs_rmdir, h, hf, VmasFSData.deref, hnd, ok_bind, hd, hc]

/-- C18: `removeNode` on a node that has a parent, other than itself, and that is
filed under its path in a map with distinct keys: the path is no longer in the
map, the node count drops by one, the node is destroyed and is gone from the
child list of its parent, which keeps its other children.  The archive is
asked to delete the entry exactly when the index is `>= 0`, and the result is
then 0 if the delete succeeds and `ENOENT` if not; with a negative index the
result is 0 and no archive call is made. -/
theorem removeNode_effect (zip : ZipLib) (s : VmasFSData) (node par : Nat) (nd pd : FileNode)
    (h1 : s.heap node = some nd) (h2 : nd.parent = some par) (h3 : s.heap par = some pd)
    (hne : par ≠ node) (hk : (s.find nd.full_name).isSome = true)
    (hnodup : (s.files.map Prod.fst).Nodup) :
    ∃ r t, s.removeNode zip node = .ok (r, t) ∧
      t.find nd.full_name = none ∧ t.numFiles = s.numFiles - 1 ∧ t.heap node = none ∧
      (∃ pd', t.heap par = some pd' ∧ node ∉ pd'.childs ∧
        ∀ c, c ≠ node → (c ∈ pd'.childs ↔ c ∈ pd.childs)) ∧
      (nd.id ≥ 0 → t.zipLog = s.zipLog ++ [.zip_delete nd.id] ∧
        (zip.zip_delete nd.id = 0 → r = 0) ∧ (zip.zip_delete nd.id ≠ 0 → r = ENOENT)) ∧
      (nd.id < 0 → t.zipLog = s.zipLog ∧ r = 0) := by
  refine ⟨_, _, removeNode_eq zip s node par nd pd h1 h2 h3 hne, ?_, ?_, ?_, ?_, ?_, ?_⟩
  · rw [removed_find]; simp
  · have := erase_length s.files nd.full_name hnodup hk
    simp only [VmasFSData.numFiles, VmasFSData.removed]
    omega
  · simp [VmasFSData.removed]
  · refine ⟨(pd.detachChild node).setCTime, by simp [VmasFSData.removed, hne], ?_, ?_⟩
    · simp [FileNode.setCTime, FileNode.detachChild]
    · intro c hc
      simp [FileNode.setCTime, FileNode.detachChild, hc]
  · intro hid
    refine ⟨by simp [VmasFSData.removed, hid], ?_, ?_⟩
    · intro hz; simp [hid, hz]
    · intro hz; simp [hid, hz]
  · intro hid
    have hid' : ¬ nd.id ≥ 0 := by omega
    exact ⟨by simp [VmasFSData.removed, hid'], by simp [hid']⟩


/-- C11 at the tree built from the entry `a/b`: the directory `a` has exactly one
child, and `rmdir("/a")` returns `-ENOTEMPTY` and leaves the tree as it was. -/
theorem vmasfs_rmdir_cases_witness :
    ∃ t, build_tree ["a/b".toList] false = .ok t ∧
      vmasfs_rmdir ⟨fun _ => 0⟩ t "/a".toList = .ok (-ENOTEMPTY, t) := by
  obtain ⟨t, ht⟩ := build_tree_exists ["a/b".toList] false (by decide)
  refine ⟨t, ht, ?_⟩
  exact ((vmasfs_rmdir_cases ⟨fun _ => 0⟩ t "/a".toList).2.2 2
    { createIntermediateDir "a".toList with parent := some 0, childs := [1] } (by decide)
    (build_tree_project (fun t => t.find "/a".toList.tail) _ ht (by decide))
    (build_tree_project (fun t => t.heap 2) _ ht (by decide))).2.1 (by decide) (by decide)

/-- C18 at the tree built from the entry `a`, whose node has index 0. -/
theorem removeNode_effect_witness :
    ∃ s, build_tree ["a".toList] false = .ok s ∧
      ∃ r t, s.removeNode ⟨fun _ => 0⟩ 1 = .ok (r, t) ∧
        t.find "a".toList = none ∧ t.numFiles = s.numFiles - 1 ∧ t.heap 1 = none ∧
        (∃ pd', t.heap 0 = some pd' ∧ 1 ∉ pd'.childs ∧
          ∀ c, c ≠ 1 → (c ∈ pd'.childs ↔ c ∈ [1])) ∧
        ((0 : Int) ≥ 0 → t.zipLog = s.zipLog ++ [.zip_delete 0] ∧
          ((0 : Int) = 0 → r = 0) ∧ ((0 : Int) ≠ 0 → r = ENOENT)) ∧
        ((0 : Int) < 0 → t.zipLog = s.zipLog ∧ r = 0) := by
  obtain ⟨s, hs⟩ := build_tree_exists ["a".toList] false (by decide)
  refine ⟨s, hs, ?_⟩
  exact removeNode_effect ⟨fun _ => 0⟩ s 1 0
    { createNodeForZipEntry "a".toList 0 with parent := some 0 }
    { createRootNode with childs := [1] }
    (build_tree_project (fun t => t.heap 1) _ hs (by decide)) rfl
    (build_tree_project (fun t => t.heap 0) _ hs (by decide)) (by decide)
    (build_tree_project (fun t => (t.find "a".toList).isSome) _ hs (by decide))
    (by
      have hkeys : s.files.map Prod.fst = ["a".toList, []] :=
        build_tree_project (fun t => t.files.map Prod.fst) _ hs (by decide)
      rw [hkeys]; decide)

/-- C17 fails for the destination removal of `vmasfs_rename`: in the tree built
from the entries `d/` and `b/c`, `rename("/d", "/b")` of the directory `d` passes
the directory `b`, whose child list holds `b/c`, to `removeNode`, and returns
0; afterwards the node of `b/c` is still in the map and its parent pointer
points to the destroyed node. -/
theorem vmasfs_rename_onto_directory :
    ∃ s, build_tree ["d/".toList, "b/c".toList] false = .ok s ∧
      s.find "d".toList = some 1 ∧ (s.heap 1).map (fun n => n.is_dir) = some true ∧
      s.find "b".toList = some 3 ∧
      (s.heap 3).map (fun n => (n.is_dir, n.childs)) = some (true, [2]) ∧
      s.find "b/c".toList = some 2 ∧
      ∃ t, vmasfs_rename ⟨fun _ => 0⟩ s "/d".toList "/b".toList = .ok (0, t) ∧
        t.find "b/c".toList = some 2 ∧ (t.heap 2).map (fun n => n.parent) = some (some 3) ∧
        t.heap 3 = none := by
  obtain ⟨s, hs⟩ := build_tree_exists ["d/".toList, "b/c".toList] false (by decide)
  refine ⟨s, hs, ?_, ?_, ?_, ?_, ?_, ?_⟩
  · exact build_tree_project (fun t => t.find "d".toList) _ hs (by decide)
  · exact build_tree_project (fun t => (t.heap 1).map (fun n => n.is_dir)) (some true) hs
      (by decide)
  · exact build_tree_project (fun t => t.find "b".toList) _ hs (by decide)
  · exact build_tree_project (fun t => (t.heap 3).map (fun n => (n.is_dir, n.childs)))
      (some (true, [2])) hs (by decide)
  · exact build_tree_project (fun t => t.find "b/c".toList) _ hs (by decide)
  · have h0 := build_tree_project
      (fun s => (vmasfs_rename ⟨fun _ => 0⟩ s "/d".toList "/b".toList).toOption.map
        (fun r => r.1)) (some 0) hs (by decide)
    have h1 := build_tree_project
      (fun s => (vmasfs_rename ⟨fun _ => 0⟩ s "/d".toList "/b".toList).toOption.map
        (fun r => r.2.find "b/c".toList)) (some (some 2)) hs (by decide)
    have h2 := build_tree_project
      (fun s => (vmasfs_rename ⟨fun _ => 0⟩ s "/d".toList "/b".toList).toOption.map
        (fun r => (r.2.heap 2).map (fun n => n.parent))) (some (some (some 3))) hs (by decide)
    have h3 := build_tree_project
      (fun s => (vmasfs_rename ⟨fun _ => 0⟩ s "/d".toList "/b".toList).toOption.map
        (fun r => r.2.heap 3)) (some none) hs (by decide)
    simp only at h0 h1 h2 h3
    cases hr : vmasfs_rename ⟨fun _ => 0⟩ s "/d".toList "/b".toList with
    | error e => rw [hr] at h0; simp [Except.toOption] at h0
    | ok r =>
      rw [hr] at h0 h1 h2 h3
      simp only [Except.toOption, Option.map_some', Option.some.injEq] at h0 h1 h2 h3
      obtain ⟨r1, t⟩ := r
      simp only at h0 h1 h2 h3
      exact ⟨t, by rw [h0], h1, h2, h3⟩

/-- C13 fails for `vmasfs_statfs`: when `statvfs` fails, returning -1, the value
handed to the host is `-(-1) = 1`, which is not negative, and `*buf` is left
as it was. -/
theorem vmasfs_statfs_statvfs_failure (s : VmasFSData) (st buf : statvfs_t) :
    vmasfs_statfs s (-1, st) buf = (1, buf) ∧ ¬ (vmasfs_statfs s (-1, st) buf).1 < 0 := by
  simp [vmasfs_statfs]

/-! ## `try_passwd` and the chunk count -/

/-- C15: `try_passwd` returns after one or two calls of `BigBuffer::open`.  If
the first call succeeds the result is true, if it fails with an error other
than `ZIP_ER_NOPASSWD` the result is false; in both cases the password is left
as it was and there is no second call.  If the first call fails with
`ZIP_ER_NOPASSWD`, the password is set to `pass`, there is exactly one more
call and the result is whether that call succeeds. -/
theorem try_passwd_spec (bbOpen : Nat → Option (List Char) → OpenResult) (pass : List Char)
    (st : PasswdState) :
    (bbOpen st.opens.length st.passwd = .opened →
      try_passwd bbOpen pass st = .ok (true, { st with opens := st.opens ++ [st.passwd] })) ∧
    (∀ zep, bbOpen st.opens.length st.passwd = .failed zep → zep ≠ ZIP_ER_NOPASSWD →
      try_passwd bbOpen pass st = .ok (false, { st with opens := st.opens ++ [st.passwd] })) ∧
    (bbOpen st.opens.length st.passwd = .failed ZIP_ER_NOPASSWD →
      try_passwd bbOpen pass st =
        .ok (decide (bbOpen (st.opens.length + 1) (some pass) = .opened),
          { passwd := some pass, opens := st.opens ++ [st.passwd, some pass] })) := by
  refine ⟨?_, ?_, ?_⟩
  · intro h
    simp [try_passwd, just_try, h]
  · intro zep h hz
    have hz' : ¬ ZIP_ER_NOPASSWD = zep := fun e => hz e.symm
    simp [try_passwd, just_try, h, hz']
  · intro h
    cases h2 : bbOpen (st.opens.length + 1) (some pass) with
    | opened => simp [try_passwd, just_try, h, h2]
    | failed zep =>
      by_cases hz : ZIP_ER_NOPASSWD = zep
      · simp [try_passwd, just_try, h, h2, hz]
      · simp [try_passwd, just_try, h, h2, hz]

/-- C15 with an archive that opens only under the password `pw`, starting
without a password: two calls, the password set, the result true. -/
theorem try_passwd_spec_witness :
    try_passwd (fun _ p => if p = some "pw".toList then .opened else .failed ZIP_ER_NOPASSWD)
        "pw".toList ⟨none, []⟩ =
      .ok (decide ((fun (_ : Nat) (p : Option (List Char)) =>
            if p = some "pw".toList then OpenResult.opened
            else OpenResult.failed ZIP_ER_NOPASSWD) (0 + 1) (some "pw".toList) = .opened),
        { passwd := some "pw".toList, opens := [] ++ [none, some "pw".toList] }) :=
  (try_passwd_spec (fun _ p => if p = some "pw".toList then .opened else .failed ZIP_ER_NOPASSWD)
    "pw".toList ⟨none, []⟩).2.2 (by decide)

/-- C20, as stated, fails at `n = 2^44`, a value of the 64-bit length field:
`chunksCount` returns 0 (the quotient `2^32` does not fit the `unsigned int`
result), the ceiling of `n / 4096` is `2^32`. -/
theorem chunksCount_counterexample :
    2 ^ 44 < 2 ^ 64 ∧ chunksCount (2 ^ 44) = 0 ∧ ⌈((2 ^ 44 : Nat) : ℚ) / 4096⌉ = 2 ^ 32 := by
  refine ⟨by norm_num, by decide, ?_⟩
  norm_num

/-- C20, amended: for a 64-bit length `n`, `chunksCount n` is the ceiling of
`n / 4096` exactly when `n <= 2^44 - 4096`, that is when the ceiling fits the
32-bit result. -/
theorem chunksCount_eq_ceil_iff (n : Nat) (hn : n < 2 ^ 64) :
    (chunksCount n : Int) = ⌈(n : ℚ) / 4096⌉ ↔ n ≤ 2 ^ 44 - 4096 := by
  have hceil : ⌈(n : ℚ) / 4096⌉ = (((n + 4095) / 4096 : Nat) : Int) := by
    have h1 : (n + 4095) / 4096 * 4096 ≤ n + 4095 := Nat.div_mul_le_self _ _
    have h3 : n + 4095 < ((n + 4095) / 4096 + 1) * 4096 := by
      have := Nat.div_add_mod (n + 4095) 4096
      have := Nat.mod_lt (n + 4095) (show 4096 > 0 by norm_num)
      omega
    generalize (n + 4095) / 4096 = c at h1 h3
    have h2 : (c : ℚ) * 4096 ≤ (n : ℚ) + 4095 := by exact_mod_cast h1
    have h4 : (n : ℚ) + 4095 < ((c : ℚ) + 1) * 4096 := by exact_mod_cast h3
    have h5 : (n : ℚ) + 4096 ≤ ((c : ℚ) + 1) * 4096 := by
      have : n + 4096 ≤ (c + 1) * 4096 := by omega
      exact_mod_cast this
    rw [Int.ceil_eq_iff, Int.cast_natCast]
    constructor
    · rw [lt_div_iff₀ (by norm_num)]
      linarith
    · rw [div_le_iff₀ (by norm_num)]
      linarith
  rw [hceil]
  unfold chunksCount chunkSize
  norm_num
  constructor
  · intro h
    by_contra hgt
    push_neg at hgt
    omega
  · intro h
    omega

/-- C20 amended, at `n = 8192`. -/
theorem chunksCount_eq_ceil_iff_witness :
    (chunksCount 8192 : Int) = ⌈((8192 : Nat) : ℚ) / 4096⌉ ↔ 8192 ≤ 2 ^ 44 - 4096 :=
  chunksCount_eq_ceil_iff 8192 (by norm_num)

/-! ## `save` -/

theorem store_same (s : VmasFSData) (p : Nat) (nd : FileNode) (h : s.heap p = some nd) :
    s.store p nd = s := by
  cases s with
  | mk heap next files m_root zipLog =>
    simp only [VmasFSData.store, VmasFSData.mk.injEq, and_true]
    funext q
    by_cases hq : q = p
    · subst hq; simp [← h]
    · simp [hq]

theorem store_store (s : VmasFSData) (p : Nat) (a b : FileNode) :
    (s.store p a).store p b = s.store p b := by
  simp only [VmasFSData.store, VmasFSData.mk.injEq, and_true]
  funext q
  by_cases hq : q = p <;> simp [hq]

theorem saveNode_eq (lib : SaveLib) (s : VmasFSData) (node : Nat) (nd : FileNode)
    (hroot : node ≠ s.m_root) (h : s.heap node = some nd) :
    s.saveNode lib node = .ok (s.store node (savedNode lib nd), saveCalls lib node nd) := by
  unfold VmasFSData.saveNode
  rw [if_neg hroot]
  simp only [VmasFSData.deref, h, ok_bind]
  by_cases hc : (nd.isChanged && !nd.is_dir) = true
  · simp only [hc, if_true]
    by_cases hr : (nd.save (lib.node_save nd)).1 = 0
    · have hr' : (lib.node_save nd).1 = 0 := hr
      simp only [hr, decide_True, if_true, VmasFSData.store, ok_bind]
      by_cases ht : (nd.save (lib.node_save nd)).2.isTemporaryDir = true
      · by_cases hi : lib.zip_dir_add (nd.save (lib.node_save nd)).2.full_name < 0
        · have hi' : ¬ 0 ≤ lib.zip_dir_add (nd.save (lib.node_save nd)).2.full_name := by omega
          simp [ht, hi, hi', savedNode, saveCalls, savesMetadata, hc, hr']
        · have hi' : 0 ≤ lib.zip_dir_add (nd.save (lib.node_save nd)).2.full_name := by omega
          simp only [ht, hi, hi', if_true, if_false, savedNode, saveCalls, savesMetadata, hc, hr',
            decide_True, Bool.and_self, ok_bind, List.singleton_append]
          congr 2
          simp only [VmasFSData.mk.injEq, and_true]
          funext q
          by_cases hq : q = node <;> simp [hq]
      · simp [ht, savedNode, saveCalls, savesMetadata, hc, hr']
    · have hr' : ¬ (lib.node_save nd).1 = 0 := hr
      simp [hr, savedNode, saveCalls, savesMetadata, hc, hr', VmasFSData.store]
  · have hc' : (nd.isChanged && !nd.is_dir) = false := by simpa using hc
    simp only [hc', Bool.false_eq_true, if_false]
    by_cases hm : nd.metadataChanged = true
    · simp only [hm, if_true, h, ok_bind]
      by_cases ht : nd.isTemporaryDir = true
      · by_cases hi : lib.zip_dir_add nd.full_name < 0
        · have hi' : ¬ 0 ≤ lib.zip_dir_add nd.full_name := by omega
          simp [ht, hi, hi', savedNode, saveCalls, savesMetadata, hc', hm, store_same s node nd h]
        · have hi' : 0 ≤ lib.zip_dir_add nd.full_name := by omega
          simp [ht, hi, hi', savedNode, saveCalls, savesMetadata, hc', hm, VmasFSData.store,
            VmasFSData.deref]
          rfl
      · simp [ht, savedNode, saveCalls, savesMetadata, hc', hm, store_same s node nd h]
    · simp [hm, savedNode, saveCalls, savesMetadata, hc', store_same s node nd h]


theorem saveLoop_spec (lib : SaveLib) (s0 : VmasFSData) :
    ∀ (L : List (List Char × Nat)) (s : VmasFSData) (calls : List SaveCall),
      (L.map Prod.snd).Nodup →
      (∀ e ∈ L, e.2 ≠ s0.m_root → ∃ nd, s0.heap e.2 = some nd) →
      (∀ e ∈ L, s.heap e.2 = s0.heap e.2) →
      s.m_root = s0.m_root →
      ∃ t, VmasFSData.saveLoop lib L s calls =
          .ok (t, calls ++ (L.map (fun e => callsOf lib s0 e.2)).flatten) ∧
        t.m_root = s.m_root ∧ t.files = s.files ∧
        ∀ q, t.heap q = if q ∈ L.map Prod.snd then afterOf lib s0 q else s.heap q := by
  intro L
  induction L with
  | nil =>
    intro s calls _ _ _ _
    exact ⟨s, by simp [VmasFSData.saveLoop], rfl, rfl, by simp⟩
  | cons e rest ih =>
    intro s calls hnd hlive hsame hroot
    simp only [List.map_cons, List.nodup_cons] at hnd
    by_cases he : e.2 = s0.m_root
    · -- the root is skipped
      have hstep : s.saveNode lib e.2 = .ok (s, []) := by
        unfold VmasFSData.saveNode
        rw [if_pos (he.trans hroot.symm)]
      have hc0 : callsOf lib s0 e.2 = [] := by simp [callsOf, he]
      obtain ⟨t, h1, h2, h3, h4⟩ := ih s calls hnd.2
        (fun e' he' => hlive e' (List.mem_cons_of_mem _ he'))
        (fun e' he' => hsame e' (List.mem_cons_of_mem _ he')) hroot
      refine ⟨t, ?_, h2, h3, ?_⟩
      · rw [VmasFSData.saveLoop, hstep, ok_bind]
        simp only [List.append_nil, h1, List.map_cons, List.flatten_cons, hc0, List.nil_append]
      · intro q
        rw [h4 q]
        by_cases hq : q = e.2
        · have hnot : q ∉ List.map Prod.snd rest := by rw [hq]; exact hnd.1
          have hin : q ∈ List.map Prod.snd (e :: rest) := by rw [hq]; simp
          rw [if_neg hnot, if_pos hin, hq, hsame e (List.mem_cons_self _ _)]
          simp [afterOf, he]
        · by_cases hm : q ∈ List.map Prod.snd rest
          · rw [if_pos hm, if_pos (by simp [hm])]
          · rw [if_neg hm, if_neg (by simp [hm, hq])]
    · obtain ⟨nd, hnd0⟩ := hlive e (List.mem_cons_self _ _) he
      have hnds : s.heap e.2 = some nd := (hsame e (List.mem_cons_self _ _)).trans hnd0
      have hstep := saveNode_eq lib s e.2 nd (by rw [hroot]; exact he) hnds
      have hc0 : callsOf lib s0 e.2 = saveCalls lib e.2 nd := by simp [callsOf, he, hnd0]
      obtain ⟨t, h1, h2, h3, h4⟩ := ih (s.store e.2 (savedNode lib nd))
        (calls ++ saveCalls lib e.2 nd) hnd.2
        (fun e' he' => hlive e' (List.mem_cons_of_mem _ he'))
        (fun e' he' => by
          have hne : e'.2 ≠ e.2 := by
            intro heq
            exact hnd.1 (heq ▸ List.mem_map_of_mem Prod.snd he')
          simp only [VmasFSData.store, hne, if_false]
          exact hsame e' (List.mem_cons_of_mem _ he'))
        hroot
      refine ⟨t, ?_, h2, h3, ?_⟩
      · rw [VmasFSData.saveLoop, hstep, ok_bind]
        simp only [h1, List.map_cons, List.flatten_cons, hc0, List.append_assoc]
      · intro q
        rw [h4 q]
        by_cases hq : q = e.2
        · have hnot : q ∉ List.map Prod.snd rest := by rw [hq]; exact hnd.1
          have hin : q ∈ List.map Prod.snd (e :: rest) := by rw [hq]; simp
          rw [if_neg hnot, if_pos hin, hq]
          simp [afterOf, he, hnd0, VmasFSData.store]
        · by_cases hm : q ∈ List.map Prod.snd rest
          · rw [if_pos hm, if_pos (by simp [hm])]
          · rw [if_neg hm, if_neg (by simp [hm, hq])]
            simp [VmasFSData.store, hq]


theorem find_of_mem (m : filemap_t) (key : List Char) (v : Nat)
    (hnd : (m.map Prod.fst).Nodup) (h : (key, v) ∈ m) : m.find key = some v := by
  induction m with
  | nil => cases h
  | cons e rest ih =>
    obtain ⟨k0, v0⟩ := e
    simp only [List.map_cons, List.nodup_cons] at hnd
    rcases List.mem_cons.mp h with h | h
    · cases h
      simp [filemap_t.find]
    · have hne : k0 ≠ key := by
        rintro rfl
        exact hnd.1 (List.mem_map.mpr ⟨(k0, v), h, rfl⟩)
      simp only [filemap_t.find, hne, if_false]
      exact ih hnd.2 h

theorem mem_of_find (m : filemap_t) (key : List Char) (v : Nat) (h : m.find key = some v) :
    (key, v) ∈ m := by
  induction m with
  | nil => simp [filemap_t.find] at h
  | cons e rest ih =>
    obtain ⟨k0, v0⟩ := e
    by_cases h0 : k0 = key
    · simp only [filemap_t.find, h0, if_true, Option.some.injEq] at h
      subst h0 h
      exact List.mem_cons_self _ _
    · simp only [filemap_t.find, h0, if_false] at h
      exact List.mem_cons_of_mem _ (ih h)

theorem values_nodup (s : VmasFSData) (hfiled : FiledOK s)
    (hnodup : (s.files.map Prod.fst).Nodup) : (s.files.map Prod.snd).Nodup := by
  apply List.Nodup.map_on _ (List.Nodup.of_map _ hnodup)
  intro x hx y hy hxy
  obtain ⟨k1, p1⟩ := x
  obtain ⟨k2, p2⟩ := y
  simp only at hxy
  subst hxy
  obtain ⟨nd1, e1, a1⟩ := hfiled k1 p1 (find_of_mem _ _ _ hnodup hx)
  obtain ⟨nd2, e2, a2⟩ := hfiled k2 p1 (find_of_mem _ _ _ hnodup hy)
  rw [e1] at e2
  cases e2
  rw [← a1, ← a2]

theorem save_spec (lib : SaveLib) (s : VmasFSData) (hfiled : FiledOK s)
    (hnodup : (s.files.map Prod.fst).Nodup) :
    ∃ t calls, s.save lib = .ok (t, calls) ∧ t.files = s.files ∧ t.m_root = s.m_root ∧
      (∀ c, c ∈ calls ↔ ∃ key p nd, s.find key = some p ∧ p ≠ s.m_root ∧
        s.heap p = some nd ∧ c ∈ saveCalls lib p nd) ∧
      (∀ key p nd, s.find key = some p → p ≠ s.m_root → s.heap p = some nd →
        t.heap p = some (savedNode lib nd)) := by
  have hperm : s.files.inOrder.Perm s.files := List.perm_insertionSort _ _
  have hmem : ∀ e, e ∈ s.files.inOrder ↔ e ∈ s.files := fun e => hperm.mem_iff
  have hnd : (s.files.inOrder.map Prod.snd).Nodup :=
    (hperm.map Prod.snd).nodup_iff.mpr (values_nodup s hfiled hnodup)
  obtain ⟨t, h1, h2, h3, h4⟩ := saveLoop_spec lib s s.files.inOrder s [] hnd
    (fun e he _ => by
      obtain ⟨nd, h, _⟩ := hfiled e.1 e.2 (find_of_mem _ _ _ hnodup ((hmem e).mp he))
      exact ⟨nd, h⟩)
    (fun _ _ => rfl) rfl
  refine ⟨t, _, h1, h3, h2, ?_, ?_⟩
  · intro c
    simp only [List.nil_append, List.mem_flatten, List.mem_map]
    constructor
    · rintro ⟨l, ⟨e, he, rfl⟩, hc⟩
      have hf := find_of_mem _ _ _ hnodup ((hmem e).mp he)
      obtain ⟨nd, hh, _⟩ := hfiled e.1 e.2 hf
      by_cases hr : e.2 = s.m_root
      · simp [callsOf, hr] at hc
      · refine ⟨e.1, e.2, nd, hf, hr, hh, ?_⟩
        simpa [callsOf, hr, hh] using hc
    · rintro ⟨key, p, nd, hf, hr, hh, hc⟩
      refine ⟨_, ⟨(key, p), (hmem _).mpr (mem_of_find _ _ _ hf), rfl⟩, ?_⟩
      simpa [callsOf, hr, hh] using hc
  · intro key p nd hf hr hh
    have hin : p ∈ s.files.inOrder.map Prod.snd :=
      List.mem_map.mpr ⟨(key, p), (hmem _).mpr (mem_of_find _ _ _ hf), rfl⟩
    rw [h4 p, if_pos hin]
    simp [afterOf, hr, hh]

theorem saveCalls_metadata (lib : SaveLib) (p q : Nat) (nd : FileNode) (id : Int)
    (h : SaveCall.node_saveMetadata q id ∈ saveCalls lib p nd) : q = p := by
  unfold saveCalls at h
  simp only [List.mem_append] at h
  rcases h with h | h
  · split_ifs at h <;> simp_all
  · split_ifs at h <;> simp_all

theorem saveCalls_node_save (lib : SaveLib) (p q : Nat) (nd : FileNode)
    (h : SaveCall.node_save q ∈ saveCalls lib p nd) : q = p := by
  unfold saveCalls at h
  simp only [List.mem_append] at h
  rcases h with h | h
  · split_ifs at h <;> simp_all
  · split_ifs at h <;> simp_all

theorem save_full_name (nd : FileNode) (r : Int × Int) :
    (nd.save r).2.full_name = nd.full_name := by
  unfold FileNode.save
  simp only
  split <;> rfl

theorem saveCalls_dir_add (lib : SaveLib) (p : Nat) (nd : FileNode) (name : List Char)
    (h : SaveCall.zip_dir_add name ∈ saveCalls lib p nd) : name = nd.full_name := by
  have hfn := save_full_name nd (lib.node_save nd)
  unfold saveCalls at h
  simp only [List.mem_append] at h
  rcases h with h | h
  · split_ifs at h <;> simp_all
  · split_ifs at h <;> simp_all

theorem save_not_temporary (nd : FileNode) (r : Int × Int) (h : nd.isChanged = true) :
    (nd.save r).2.isTemporaryDir = false := by
  unfold FileNode.isChanged at h
  unfold FileNode.save FileNode.isTemporaryDir
  cases hs : nd.state <;> simp_all

theorem temporary_not_changed (nd : FileNode) (h : nd.isTemporaryDir = true) :
    nd.isChanged = false := by
  unfold FileNode.isTemporaryDir at h
  unfold FileNode.isChanged
  cases hs : nd.state <;> simp_all

theorem saveCalls_metadata_iff (lib : SaveLib) (p : Nat) (nd : FileNode)
    (hnt : nd.isTemporaryDir = false) :
    (∃ id, SaveCall.node_saveMetadata p id ∈ saveCalls lib p nd) ↔
      savesMetadata lib nd = true := by
  by_cases hc : (nd.isChanged && !nd.is_dir) = true
  · have hch : nd.isChanged = true := by
      simp only [Bool.and_eq_true] at hc
      exact hc.1
    have ht := save_not_temporary nd (lib.node_save nd) hch
    by_cases hs : savesMetadata lib nd = true
    · simp [saveCalls, hc, hs, ht]
    · simp [saveCalls, hc, hs, ht]
  · by_cases hs : savesMetadata lib nd = true
    · simp [saveCalls, hc, hs, hnt]
    · simp [saveCalls, hc, hs, hnt]

theorem saveCalls_node_save_iff (lib : SaveLib) (p : Nat) (nd : FileNode) :
    SaveCall.node_save p ∈ saveCalls lib p nd ↔ (nd.isChanged && !nd.is_dir) = true := by
  by_cases hc : (nd.isChanged && !nd.is_dir) = true
  · simp [saveCalls, hc]
  · constructor
    · intro h
      unfold saveCalls at h
      simp only [List.mem_append] at h
      rcases h with h | h
      · split_ifs at h
        simp_all
      · split_ifs at h <;> simp_all
    · intro h
      exact absurd h hc

theorem filedOK_store (s : VmasFSData) (p : Nat) (nd nd' : FileNode) (hfiled : FiledOK s)
    (h : s.heap p = some nd) (hname : nd'.full_name = nd.full_name) :
    FiledOK (s.store p nd') := by
  intro key q hk
  obtain ⟨ndq, e, a⟩ := hfiled key q hk
  by_cases hq : q = p
  · subst hq
    rw [h] at e
    cases e
    exact ⟨nd', by simp [VmasFSData.store], hname.trans a⟩
  · exact ⟨ndq, by simp [VmasFSData.store, hq, e], a⟩

/-- C19: on a tree whose map has distinct keys and files every node under its
own path, `save` returns, and for every node of the map other than the root
that is not a temporary directory, `saveMetadata()` is called on the node
exactly when either the node is a changed file (state `CHANGED` or `NEW`, not a
directory) whose `save()` returned 0, or it is not a changed file and its
metadata-dirty flag is set; `save()` is called on it exactly when it is a
changed file.  Whatever the calls on other nodes return, every node is passed. -/
theorem save_metadata_rule (lib : SaveLib) (s : VmasFSData) (hfiled : FiledOK s)
    (hnodup : (s.files.map Prod.fst).Nodup) :
    ∃ t calls, s.save lib = .ok (t, calls) ∧
      ∀ key node nd, s.find key = some node → node ≠ s.m_root → s.heap node = some nd →
        nd.isTemporaryDir = false →
        ((∃ id, SaveCall.node_saveMetadata node id ∈ calls) ↔
          ((nd.isChanged = true ∧ nd.is_dir = false ∧ (nd.save (lib.node_save nd)).1 = 0) ∨
            (¬ (nd.isChanged = true ∧ nd.is_dir = false) ∧ nd.metadataChanged = true))) ∧
        (SaveCall.node_save node ∈ calls ↔ (nd.isChanged = true ∧ nd.is_dir = false)) := by
  obtain ⟨t, calls, hok, _, _, hcalls, _⟩ := save_spec lib s hfiled hnodup
  refine ⟨t, calls, hok, ?_⟩
  intro key node nd hk hroot hnd hnt
  have hown : ∀ c, c ∈ saveCalls lib node nd → c ∈ calls := fun c hc =>
    (hcalls c).mpr ⟨key, node, nd, hk, hroot, hnd, hc⟩
  constructor
  · have hcond : savesMetadata lib nd = true ↔
        ((nd.isChanged = true ∧ nd.is_dir = false ∧ (nd.save (lib.node_save nd)).1 = 0) ∨
          (¬ (nd.isChanged = true ∧ nd.is_dir = false) ∧ nd.metadataChanged = true)) := by
      unfold savesMetadata FileNode.save
      by_cases h1 : nd.isChanged = true <;> by_cases h2 : nd.is_dir = true <;> simp [h1, h2]
    rw [← hcond, ← saveCalls_metadata_iff lib node nd hnt]
    constructor
    · rintro ⟨id, hid⟩
      obtain ⟨key', p, nd', _, _, hh, hc⟩ := (hcalls _).mp hid
      have hp := saveCalls_metadata lib p node nd' id hc
      subst hp
      rw [hnd] at hh
      cases hh
      exact ⟨id, hc⟩
    · rintro ⟨id, hid⟩
      exact ⟨id, hown _ hid⟩
  · have hcond : (nd.isChanged && !nd.is_dir) = true ↔
        (nd.isChanged = true ∧ nd.is_dir = false) := by simp
    rw [← hcond, ← saveCalls_node_save_iff lib node nd]
    constructor
    · intro hin
      obtain ⟨key', p, nd', _, _, hh, hc⟩ := (hcalls _).mp hin
      have hp := saveCalls_node_save lib p node nd' hc
      subst hp
      rw [hnd] at hh
      cases hh
      exact hc
    · exact hown _

/-- The calls `save` makes for a temporary directory. -/
theorem saveCalls_temporary (lib : SaveLib) (p : Nat) (nd : FileNode)
    (ht : nd.isTemporaryDir = true) :
    saveCalls lib p nd =
      if nd.metadataChanged = true then
        (if lib.zip_dir_add nd.full_name < 0 then [SaveCall.zip_dir_add nd.full_name]
         else [SaveCall.zip_dir_add nd.full_name,
           SaveCall.node_saveMetadata p (lib.zip_dir_add nd.full_name)])
      else [] := by
  have hch := temporary_not_changed nd ht
  by_cases hm : nd.metadataChanged = true
  · simp [saveCalls, savesMetadata, hch, hm, ht]
  · simp [saveCalls, savesMetadata, hch, hm]

/-- C12, amended: on a tree whose map has distinct keys and files every node
under its own path, `save` returns, and for every temporary directory node of
the map other than the root, `zip_dir_add` is called with the path of the node
exactly when its metadata-dirty flag is set; when it is set and the add
succeeds the index of the node becomes the returned index, when the add fails
the node is left as it was, and when the flag is not set the node is left as
it was, with the index `NEW_NODE_INDEX`.  `saveMetadata()` is called on the
node exactly when the flag is set and the add succeeds, and then with the
returned index; `save()` is not called on it. -/
theorem save_temporary_dir (lib : SaveLib) (s : VmasFSData) (hfiled : FiledOK s)
    (hnodup : (s.files.map Prod.fst).Nodup) :
    ∃ t calls, s.save lib = .ok (t, calls) ∧
      ∀ key node nd, s.find key = some node → node ≠ s.m_root → s.heap node = some nd →
        nd.isTemporaryDir = true →
        (SaveCall.zip_dir_add nd.full_name ∈ calls ↔ nd.metadataChanged = true) ∧
        (nd.metadataChanged = true → 0 ≤ lib.zip_dir_add nd.full_name →
          t.heap node = some { nd with id := lib.zip_dir_add nd.full_name }) ∧
        (nd.metadataChanged = true → lib.zip_dir_add nd.full_name < 0 →
          t.heap node = some nd) ∧
        (nd.metadataChanged = false → t.heap node = some nd) ∧
        (∀ id, SaveCall.node_saveMetadata node id ∈ calls ↔
          (nd.metadataChanged = true ∧ 0 ≤ lib.zip_dir_add nd.full_name ∧
            id = lib.zip_dir_add nd.full_name)) ∧
        SaveCall.node_save node ∉ calls := by
  obtain ⟨t, calls, hok, _, _, hcalls, hheap⟩ := save_spec lib s hfiled hnodup
  refine ⟨t, calls, hok, ?_⟩
  intro key node nd hk hroot hnd ht
  have hch := temporary_not_changed nd ht
  have hafter := hheap key node nd hk hroot hnd
  have hown := saveCalls_temporary lib node nd ht
  refine ⟨?_, ?_, ?_, ?_, ?_, ?_⟩
  · constructor
    · intro hin
      obtain ⟨key', p, nd', hk', _, hh, hc⟩ := (hcalls _).mp hin
      have hname := saveCalls_dir_add lib p nd' _ hc
      obtain ⟨x, e1, a1⟩ := hfiled key' p hk'
      obtain ⟨y, e2, a2⟩ := hfiled key node hk
      rw [hh] at e1
      cases e1
      rw [hnd] at e2
      cases e2
      have hkey : key = key' := by rw [← a1, ← a2, hname]
      subst hkey
      rw [hk] at hk'
      cases hk'
      rw [hnd] at hh
      cases hh
      by_contra hm
      simp [saveCalls, savesMetadata, hch, hm] at hc
    · intro hm
      apply (hcalls _).mpr
      refine ⟨key, node, nd, hk, hroot, hnd, ?_⟩
      by_cases hi : lib.zip_dir_add nd.full_name < 0
      · simp [saveCalls, savesMetadata, hch, hm, ht, hi]
      · simp [saveCalls, savesMetadata, hch, hm, ht, hi]
  · intro hm hi
    rw [hafter]
    simp [savedNode, savesMetadata, hch, hm, ht, hi]
  · intro hm hi
    have hi' : ¬ 0 ≤ lib.zip_dir_add nd.full_name := by omega
    rw [hafter]
    simp [savedNode, savesMetadata, hch, hm, ht, hi']
  · intro hm
    rw [hafter]
    simp [savedNode, savesMetadata, hch, hm]
  · intro id
    have hiff : SaveCall.node_saveMetadata node id ∈ calls ↔
        SaveCall.node_saveMetadata node id ∈ saveCalls lib node nd := by
      constructor
      · intro hin
        obtain ⟨key', p, nd', _, _, hh, hc⟩ := (hcalls _).mp hin
        have hp := saveCalls_metadata lib p node nd' id hc
        subst hp
        rw [hnd] at hh
        cases hh
        exact hc
      · intro hin
        exact (hcalls _).mpr ⟨key, node, nd, hk, hroot, hnd, hin⟩
    rw [hiff, hown]
    by_cases hm : nd.metadataChanged = true
    · by_cases hi : lib.zip_dir_add nd.full_name < 0
      · have hi' : ¬ 0 ≤ lib.zip_dir_add nd.full_name := by omega
        simp [hm, hi, hi']
      · have hi' : 0 ≤ lib.zip_dir_add nd.full_name := by omega
        simp [hm, hi, hi']
    · simp [hm]
  · intro hin
    obtain ⟨key', p, nd', _, _, hh, hc⟩ := (hcalls _).mp hin
    have hp := saveCalls_node_save lib p node nd' hc
    subst hp
    rw [hnd] at hh
    cases hh
    rw [hown] at hc
    split_ifs at hc <;> simp at hc

/-- C19 at the tree of the entries `a` and `b`, with `a` changed since the mount
and the metadata of `b` changed, and an archive in which every node save
fails: the metadata of `a` is not written, `b`, which comes after `a` in the
map, is passed and its metadata is written. -/
theorem save_metadata_rule_witness :
    ∃ s0, build_tree ["a".toList, "b".toList] false = .ok s0 ∧
      ∃ t calls,
        ((s0.store 1 { createNodeForZipEntry "a".toList 0 with
              parent := some 0, state := .CHANGED }).store 2
            { createNodeForZipEntry "b".toList 1 with
              parent := some 0, metadataChanged := true }).save
          ⟨fun _ => (-ENOMEM, 0), fun _ => 0⟩ = .ok (t, calls) ∧
        (¬ ∃ id, SaveCall.node_saveMetadata 1 id ∈ calls) ∧
        (∃ id, SaveCall.node_saveMetadata 2 id ∈ calls) ∧
        SaveCall.node_save 1 ∈ calls := by
  obtain ⟨s0, hs⟩ := build_tree_exists ["a".toList, "b".toList] false (by decide)
  obtain ⟨hwf, _⟩ := build_tree_inv hs
  have h1 : s0.heap 1 = some { createNodeForZipEntry "a".toList 0 with parent := some 0 } :=
    build_tree_project (fun t => t.heap 1) _ hs (by decide)
  have h2 : s0.heap 2 = some { createNodeForZipEntry "b".toList 1 with parent := some 0 } :=
    build_tree_project (fun t => t.heap 2) _ hs (by decide)
  have hroot : s0.m_root = 0 := build_tree_project (fun t => t.m_root) _ hs (by decide)
  have hkeys : s0.files.map Prod.fst = ["b".toList, "a".toList, []] :=
    build_tree_project (fun t => t.files.map Prod.fst) _ hs (by decide)
  have hf1 : s0.find "a".toList = some 1 :=
    build_tree_project (fun t => t.find "a".toList) _ hs (by decide)
  have hf2 : s0.find "b".toList = some 2 :=
    build_tree_project (fun t => t.find "b".toList) _ hs (by decide)
  have hfiled1 := filedOK_store s0 1 _
    { createNodeForZipEntry "a".toList 0 with parent := some 0, state := .CHANGED }
    hwf.filedOK h1 rfl
  have hfiled2 := filedOK_store _ 2
    { createNodeForZipEntry "b".toList 1 with parent := some 0 }
    { createNodeForZipEntry "b".toList 1 with parent := some 0, metadataChanged := true }
    hfiled1 (by simp only [VmasFSData.store]; rw [if_neg (by decide)]; exact h2) rfl
  refine ⟨s0, hs, ?_⟩
  obtain ⟨t, calls, hok, hall⟩ := save_metadata_rule ⟨fun _ => (-ENOMEM, 0), fun _ => 0⟩ _
    hfiled2 (by simp only [VmasFSData.store]; rw [hkeys]; decide)
  have ha := hall "a".toList 1
    { createNodeForZipEntry "a".toList 0 with parent := some 0, state := .CHANGED } hf1
    (by simp [VmasFSData.store, hroot]) (by simp [VmasFSData.store]) (by decide)
  have hb := hall "b".toList 2
    { createNodeForZipEntry "b".toList 1 with parent := some 0, metadataChanged := true } hf2
    (by simp [VmasFSData.store, hroot]) (by simp [VmasFSData.store]) (by decide)
  refine ⟨t, calls, hok, ?_, ?_, ?_⟩
  · rw [ha.1]
    decide
  · rw [hb.1]
    decide
  · rw [ha.2]
    decide

/-- C12, as stated, fails for a temporary directory whose metadata-dirty flag
is not set.  In the tree built from the entry `a/b`, with the synthesized
directory `a` given explicitly as a temporary directory (state `NEW_DIR`, index
`NEW_NODE_INDEX`) with the flag unset, `save`, with an archive in which every
call succeeds, makes no call at all, and the index of `a` is still
`NEW_NODE_INDEX`. -/
theorem save_temporary_dir_counterexample :
    ∃ s, build_tree ["a/b".toList] false = .ok s ∧
      s.find "a".toList = some 2 ∧ 2 ≠ s.m_root ∧
      ({ full_name := "a".toList, name := 0, is_dir := true, id := NEW_NODE_INDEX,
          childs := [1], parent := some 0, state := nodeState.NEW_DIR,
          metadataChanged := false } : FileNode).isTemporaryDir = true ∧
      ∃ t, (s.store 2
          { full_name := "a".toList, name := 0, is_dir := true, id := NEW_NODE_INDEX,
            childs := [1], parent := some 0, state := .NEW_DIR,
            metadataChanged := false }).save ⟨fun _ => (0, 0), fun _ => 5⟩ = .ok (t, []) ∧
        (t.heap 2).map (fun n => n.id) = some NEW_NODE_INDEX := by
  obtain ⟨s, hs⟩ := build_tree_exists ["a/b".toList] false (by decide)
  have hroot : s.m_root = 0 := build_tree_project (fun t => t.m_root) _ hs (by decide)
  refine ⟨s, hs, ?_, ?_, by decide, ?_⟩
  · exact build_tree_project (fun t => t.find "a".toList) _ hs (by decide)
  · rw [hroot]; decide
  · have h0 := build_tree_project
      (fun s => ((s.store 2
          { full_name := "a".toList, name := 0, is_dir := true, id := NEW_NODE_INDEX,
            childs := [1], parent := some 0, state := .NEW_DIR,
            metadataChanged := false }).save
          ⟨fun _ => (0, 0), fun _ => 5⟩).toOption.map (fun r => r.2))
      (some []) hs (by decide)
    have h1 := build_tree_project
      (fun s => ((s.store 2
          { full_name := "a".toList, name := 0, is_dir := true, id := NEW_NODE_INDEX,
            childs := [1], parent := some 0, state := .NEW_DIR,
            metadataChanged := false }).save
          ⟨fun _ => (0, 0), fun _ => 5⟩).toOption.map
        (fun r => (r.1.heap 2).map (fun n => n.id))) (some (some NEW_NODE_INDEX)) hs (by decide)
    simp only at h0 h1
    cases hr : (s.store 2
          { full_name := "a".toList, name := 0, is_dir := true, id := NEW_NODE_INDEX,
            childs := [1], parent := some 0, state := .NEW_DIR,
            metadataChanged := false }).save ⟨fun _ => (0, 0), fun _ => 5⟩ with
    | error e => rw [hr] at h0; simp [Except.toOption] at h0
    | ok r =>
      rw [hr] at h0 h1
      simp only [Except.toOption, Option.map_some', Option.some.injEq] at h0 h1
      obtain ⟨t, calls⟩ := r
      simp only at h0 h1
      subst h0
      exact ⟨t, rfl, h1⟩

/-- C12 amended, at the tree built from the entry `a/b` after the metadata-dirty
flag of the directory `a` has been set: the directory entry is added, the
node gets the returned index 5 and its metadata is written under that index. -/
theorem save_temporary_dir_witness :
    ∃ s0, build_tree ["a/b".toList] false = .ok s0 ∧
      ∃ t calls,
        (s0.store 2 { createIntermediateDir "a".toList with
            parent := some 0, childs := [1], metadataChanged := true }).save
          ⟨fun _ => (0, 0), fun _ => 5⟩ = .ok (t, calls) ∧
        SaveCall.zip_dir_add "a".toList ∈ calls ∧
        (t.heap 2).map (fun n => n.id) = some 5 ∧
        SaveCall.node_saveMetadata 2 5 ∈ calls ∧
        SaveCall.node_saveMetadata 2 NEW_NODE_INDEX ∉ calls := by
  obtain ⟨s0, hs⟩ := build_tree_exists ["a/b".toList] false (by decide)
  obtain ⟨hwf, _⟩ := build_tree_inv hs
  have h2 : s0.heap 2 =
      some { createIntermediateDir "a".toList with parent := some 0, childs := [1] } :=
    build_tree_project (fun t => t.heap 2) _ hs (by decide)
  have hroot : s0.m_root = 0 := build_tree_project (fun t => t.m_root) _ hs (by decide)
  have hkeys : s0.files.map Prod.fst = ["a".toList, "a/b".toList, []] :=
    build_tree_project (fun t => t.files.map Prod.fst) _ hs (by decide)
  have hf2 : s0.find "a".toList = some 2 :=
    build_tree_project (fun t => t.find "a".toList) _ hs (by decide)
  have hfiled := filedOK_store s0 2 _
    { createIntermediateDir "a".toList with
      parent := some 0, childs := [1], metadataChanged := true } hwf.filedOK h2 rfl
  refine ⟨s0, hs, ?_⟩
  obtain ⟨t, calls, hok, hall⟩ := save_temporary_dir ⟨fun _ => (0, 0), fun _ => 5⟩ _
    hfiled (by simp only [VmasFSData.store]; rw [hkeys]; decide)
  have ha := hall "a".toList 2
    { createIntermediateDir "a".toList with
      parent := some 0, childs := [1], metadataChanged := true } hf2
    (by simp [VmasFSData.store, hroot]) (by simp [VmasFSData.store]) (by decide)
  refine ⟨t, calls, hok, ha.1.mpr rfl, ?_, ?_, ?_⟩
  · rw [ha.2.1 rfl (by decide)]
    rfl
  · exact (ha.2.2.2.2.1 5).mpr ⟨rfl, by decide, rfl⟩
  · intro hin
    have := ((ha.2.2.2.2.1 NEW_NODE_INDEX).mp hin).2.2
    revert this
    decide

/-! ## Renaming a directory -/

theorem bfsOrder_sound (ch : Nat → List Nat) :
    ∀ (k : Nat) (Q : List Nat) (x : Nat), x ∈ bfsOrder ch k Q →
      ∃ q ∈ Q, Relation.TransGen (fun q x => x ∈ ch q) q x := by
  intro k
  induction k with
  | zero => intro Q x h; simp [bfsOrder] at h
  | succ k ih =>
    intro Q x h
    cases Q with
    | nil => simp [bfsOrder] at h
    | cons n q =>
      simp only [bfsOrder, List.mem_append] at h
      rcases h with h | h
      · exact ⟨n, List.mem_cons_self _ _, Relation.TransGen.single h⟩
      · obtain ⟨y, hy, hyx⟩ := ih _ x h
        rcases List.mem_append.mp hy with hy | hy
        · exact ⟨y, List.mem_cons_of_mem _ hy, hyx⟩
        · exact ⟨n, List.mem_cons_self _ _, Relation.TransGen.head hy hyx⟩

theorem bfsOrder_complete (ch : Nat → List Nat) :
    ∀ (k : Nat) (Q : List Nat), bfsDone ch k Q = true →
      ∀ q ∈ Q, ∀ x, Relation.TransGen (fun q x => x ∈ ch q) q x → x ∈ bfsOrder ch k Q := by
  intro k
  induction k with
  | zero => intro Q h; simp [bfsDone] at h
  | succ k ih =>
    intro Q h q hq x hx
    cases Q with
    | nil => cases hq
    | cons n rest =>
      simp only [bfsDone] at h
      simp only [bfsOrder, List.mem_append]
      rcases List.mem_cons.mp hq with rfl | hq
      · rcases Relation.TransGen.head'_iff.mp hx with ⟨c, hc, hcx⟩
        rcases Relation.ReflTransGen.cases_head hcx with rfl | ⟨d, hd, hdx⟩
        · exact Or.inl hc
        · exact Or.inr (ih _ h c (List.mem_append_right _ hc) x
            (Relation.TransGen.head' hd hdx))
      · exact Or.inr (ih _ h q (List.mem_append_left _ hq) x hx)

theorem bfsOrder_fuel (ch : Nat → List Nat) :
    ∀ (k : Nat) (Q : List Nat), bfsDone ch k Q = false →
      k ≤ Q.length + (bfsOrder ch k Q).length := by
  intro k
  induction k with
  | zero => intro Q _; omega
  | succ k ih =>
    intro Q h
    cases Q with
    | nil => simp [bfsDone] at h
    | cons n q =>
      simp only [bfsDone] at h
      have := ih _ h
      simp only [bfsOrder, List.length_append, List.length_cons] at this ⊢
      omega

theorem transGen_rank (ch : Nat → List Nat) (r : Nat → Nat)
    (hrank : ∀ q c, c ∈ ch q → r q < r c) {a b : Nat}
    (h : Relation.TransGen (fun q x => x ∈ ch q) a b) : r a < r b := by
  induction h with
  | single h => exact hrank _ _ h
  | tail _ h ih => exact lt_trans ih (hrank _ _ h)

theorem transGen_parent (ch : Nat → List Nat)
    (huniq : ∀ q q' c, c ∈ ch q → c ∈ ch q' → q = q') {x y n : Nat}
    (h : Relation.TransGen (fun q x => x ∈ ch q) x y) (hy : y ∈ ch n) :
    x = n ∨ Relation.TransGen (fun q x => x ∈ ch q) x n := by
  cases h with
  | single h => exact Or.inl (huniq _ _ _ h hy)
  | tail hxm hmy =>
    have := huniq _ _ _ hmy hy
    subst this
    exact Or.inr hxm

theorem antichain_step (ch : Nat → List Nat) (r : Nat → Nat)
    (hrank : ∀ q c, c ∈ ch q → r q < r c)
    (huniq : ∀ q q' c, c ∈ ch q → c ∈ ch q' → q = q')
    (hnd : ∀ q, (ch q).Nodup) (n : Nat) (q : List Nat) (h : Antichain ch (n :: q)) :
    Antichain ch (q ++ ch n) := by
  obtain ⟨hQ, hA⟩ := h
  simp only [List.nodup_cons] at hQ
  have hirr : ∀ a, ¬ Relation.TransGen (fun q x => x ∈ ch q) a a := fun a ha =>
    lt_irrefl _ (transGen_rank ch r hrank ha)
  constructor
  · rw [List.nodup_append]
    refine ⟨hQ.2, hnd n, ?_⟩
    intro c hcq hcn
    exact hA n (List.mem_cons_self _ _) c (List.mem_cons_of_mem _ hcq)
      (Relation.TransGen.single hcn)
  · intro x hx y hy hxy
    rcases List.mem_append.mp hx with hx1 | hx1 <;>
      rcases List.mem_append.mp hy with hy1 | hy1
    · exact hA x (List.mem_cons_of_mem _ hx1) y (List.mem_cons_of_mem _ hy1) hxy
    · rcases transGen_parent ch huniq hxy hy1 with hxn | hxn
      · exact hQ.1 (hxn ▸ hx1)
      · exact hA x (List.mem_cons_of_mem _ hx1) n (List.mem_cons_self _ _) hxn
    · exact hA n (List.mem_cons_self _ _) y (List.mem_cons_of_mem _ hy1)
        (Relation.TransGen.head hx1 hxy)
    · rcases transGen_parent ch huniq hxy hy1 with hxn | hxn
      · rw [hxn] at hx1
        exact lt_irrefl _ (hrank _ _ hx1)
      · exact hirr n (Relation.TransGen.head hx1 hxn)

theorem bfsOrder_nodup (ch : Nat → List Nat) (r : Nat → Nat)
    (hrank : ∀ q c, c ∈ ch q → r q < r c)
    (huniq : ∀ q q' c, c ∈ ch q → c ∈ ch q' → q = q')
    (hnd : ∀ q, (ch q).Nodup) :
    ∀ (k : Nat) (Q : List Nat), Antichain ch Q →
      (bfsOrder ch k Q).Nodup ∧ ∀ x ∈ bfsOrder ch k Q, x ∉ Q := by
  intro k
  induction k with
  | zero => intro Q _; simp [bfsOrder]
  | succ k ih =>
    intro Q hQ
    cases Q with
    | nil => simp [bfsOrder]
    | cons n q =>
      have hstep := antichain_step ch r hrank huniq hnd n q hQ
      obtain ⟨ih1, ih2⟩ := ih _ hstep
      obtain ⟨hQn, hA⟩ := hQ
      simp only [List.nodup_cons] at hQn
      have hirr : ∀ a, ¬ Relation.TransGen (fun q x => x ∈ ch q) a a := fun a ha =>
        lt_irrefl _ (transGen_rank ch r hrank ha)
      simp only [bfsOrder]
      constructor
      · rw [List.nodup_append]
        refine ⟨hnd n, ih1, ?_⟩
        intro c hc hc'
        exact ih2 c hc' (List.mem_append_right _ hc)
      · intro x hx hxQ
        rcases List.mem_append.mp hx with hx1 | hx1
        · rcases List.mem_cons.mp hxQ with hxn | hxq
          · rw [hxn] at hx1
            exact lt_irrefl _ (hrank _ _ hx1)
          · exact hA n (List.mem_cons_self _ _) x (List.mem_cons_of_mem _ hxq)
              (Relation.TransGen.single hx1)
        · rcases List.mem_cons.mp hxQ with hxn | hxq
          · obtain ⟨y, hy, hyx⟩ := bfsOrder_sound ch k _ x hx1
            rw [hxn] at hyx
            rcases List.mem_append.mp hy with hy1 | hy1
            · exact hA y (List.mem_cons_of_mem _ hy1) n (List.mem_cons_self _ _) hyx
            · exact hirr n (Relation.TransGen.head hy1 hyx)
          · exact ih2 x hx1 (List.mem_append_left _ hxq)

theorem renameEach_append (l1 l2 : List (Nat × List Char)) (s : VmasFSData) :
    renameEach (l1 ++ l2) s = (renameEach l1 s >>= fun s1 => renameEach l2 s1) := by
  induction l1 generalizing s with
  | nil => rfl
  | cons e rest ih =>
    obtain ⟨c, name⟩ := e
    simp only [List.cons_append, renameEach]
    cases h1 : s.deref c with
    | error e => rfl
    | ok cd =>
      simp only [ok_bind]
      cases h2 : VmasFSData.renameNode
          (if cd.id ≥ 0 then
            { s with zipLog := s.zipLog ++ [.zip_file_rename cd.id name] } else s)
          c name false with
      | error e => rfl
      | ok s2 =>
        simp only [ok_bind]
        exact ih s2

/-- One turn of the `for` loop of `vmasfs_rename`, for a child that is a node
with a parent. -/
theorem rename_step (s : VmasFSData) (c par : Nat) (cd : FileNode) (name : List Char)
    (h1 : s.heap c = some cd) (h2 : cd.parent = some par) :
    ∃ s2, (VmasFSData.renameNode
        (if cd.id ≥ 0 then
          { s with zipLog := s.zipLog ++ [.zip_file_rename cd.id name] } else s)
        c name false) = .ok s2 ∧
      s2.heap c = some (cd.rename name) ∧ (∀ x, x ≠ c → s2.heap x = s.heap x) ∧
      s2.m_root = s.m_root := by
  by_cases hid : cd.id ≥ 0
  · rw [if_pos hid]
    refine ⟨_, renameNode_eq_false _ c par cd name (by simpa using h1) h2, ?_, ?_, rfl⟩
    · simp [VmasFSData.renamed]
    · intro x hx
      simp [VmasFSData.renamed, hx]
  · rw [if_neg hid]
    refine ⟨_, renameNode_eq_false _ c par cd name h1 h2, ?_, ?_, rfl⟩
    · simp [VmasFSData.renamed]
    · intro x hx
      simp [VmasFSData.renamed, hx]

theorem renameChilds_sim (len oldLen : Nat) (new_name : List Char) (s0 : VmasFSData) :
    ∀ (cs q : List Nat) (s : VmasFSData), cs.Nodup →
      (∀ c ∈ cs, ∃ cd par, s0.heap c = some cd ∧ cd.parent = some par) →
      (∀ c ∈ cs, s.heap c = s0.heap c) →
      ∃ s1, renameChilds len oldLen new_name cs q s = .ok (q ++ cs, s1) ∧
        renameEach (descendantCalls len oldLen new_name s0 cs) s = .ok s1 ∧
        (∀ x, x ∉ cs → s1.heap x = s.heap x) ∧
        (∀ x ∈ cs, ∃ cd, s0.heap x = some cd ∧
          s1.heap x = some (cd.rename (descendantName len oldLen new_name cd))) ∧
        s1.m_root = s.m_root := by
  intro cs
  induction cs with
  | nil =>
    intro q s _ _ _
    exact ⟨s, by simp [renameChilds], by simp [descendantCalls, renameEach], fun _ _ => rfl,
      by simp, rfl⟩
  | cons c rest ih =>
    intro q s hnd hlive hsame
    simp only [List.nodup_cons] at hnd
    obtain ⟨cd, par, hcd, hpar⟩ := hlive c (List.mem_cons_self _ _)
    have hcs : s.heap c = some cd := (hsame c (List.mem_cons_self _ _)).trans hcd
    obtain ⟨s2, hstep, hc2, hother, hroot2⟩ :=
      rename_step s c par cd (descendantName len oldLen new_name cd) hcs hpar
    obtain ⟨s1, h1, h2, h3, h4, h5⟩ := ih (q ++ [c]) s2 hnd.2
      (fun x hx => hlive x (List.mem_cons_of_mem _ hx))
      (fun x hx => by
        have hne : x ≠ c := by rintro rfl; exact hnd.1 hx
        rw [hother x hne]
        exact hsame x (List.mem_cons_of_mem _ hx))
    refine ⟨s1, ?_, ?_, ?_, ?_, h5.trans hroot2⟩
    · simp only [renameChilds, VmasFSData.deref, hcs, ok_bind, hstep, h1, List.append_assoc,
        List.singleton_append]
    · simp only [descendantCalls, List.map_cons, renameEach, VmasFSData.deref, hcs, hcd,
        ok_bind, hstep]
      exact h2
    · intro x hx
      simp only [List.mem_cons, not_or] at hx
      rw [h3 x hx.2, hother x hx.1]
    · intro x hx
      rcases List.mem_cons.mp hx with rfl | hx
      · exact ⟨cd, hcd, by rw [h3 x hnd.1, hc2]⟩
      · exact h4 x hx

theorem childsOf_eq {s : VmasFSData} {q : Nat} {nd : FileNode} (h : s.heap q = some nd) :
    s.childsOf q = nd.childs := by
  simp [VmasFSData.childsOf, h]

theorem SameShape.heap {s0 s : VmasFSData} (h : SameShape s0 s) {q : Nat} {nd0 : FileNode}
    (h0 : s0.heap q = some nd0) :
    ∃ nd, s.heap q = some nd ∧ nd.childs = nd0.childs ∧ nd.parent = nd0.parent ∧
      nd.is_dir = nd0.is_dir ∧ nd.id = nd0.id := by
  have := h q
  rw [h0] at this
  cases hs : s.heap q with
  | none => rw [hs] at this; simp at this
  | some nd =>
    rw [hs] at this
    simp only [Option.map_some', Option.some.injEq, Prod.mk.injEq] at this
    exact ⟨nd, rfl, this.1, this.2.1, this.2.2.1, this.2.2.2⟩

theorem renameQueue_sim (len oldLen : Nat) (new_name : List Char) (s0 : VmasFSData)
    (r : Nat → Nat) (hrank : ∀ q c, c ∈ s0.childsOf q → r q < r c)
    (huniq : ∀ q q' c, c ∈ s0.childsOf q → c ∈ s0.childsOf q' → q = q')
    (hnd : ∀ q, (s0.childsOf q).Nodup)
    (hlive : ∀ q c, c ∈ s0.childsOf q → ∃ cd par, s0.heap c = some cd ∧ cd.parent = some par) :
    ∀ (k : Nat) (Q : List Nat) (s : VmasFSData), Antichain s0.childsOf Q →
      bfsDone s0.childsOf k Q = true → SameShape s0 s →
      (∀ n ∈ Q, ∃ nd, s0.heap n = some nd) →
      (∀ x ∈ bfsOrder s0.childsOf k Q, s.heap x = s0.heap x) →
      ∃ t, renameQueue len oldLen new_name k Q s = .ok t ∧
        renameEach (descendantCalls len oldLen new_name s0 (bfsOrder s0.childsOf k Q)) s =
          .ok t ∧
        SameShape s0 t ∧ (∀ x, x ∉ bfsOrder s0.childsOf k Q → t.heap x = s.heap x) ∧
        t.m_root = s.m_root := by
  intro k
  induction k with
  | zero => intro Q s _ hdone; simp [bfsDone] at hdone
  | succ k ih =>
    intro Q s hanti hdone hshape hQ hsame
    cases Q with
    | nil =>
      exact ⟨s, by simp [renameQueue], by simp [bfsOrder, descendantCalls, renameEach], hshape,
        fun _ _ => rfl, rfl⟩
    | cons n q =>
      obtain ⟨nd0, hn0⟩ := hQ n (List.mem_cons_self _ _)
      obtain ⟨nd, hn, hchilds, _⟩ := hshape.heap hn0
      have hch : s0.childsOf n = nd0.childs := childsOf_eq hn0
      simp only [bfsOrder, bfsDone, hch] at hsame hdone ⊢
      obtain ⟨s1, h1, h2, h3, h4, h5⟩ := renameChilds_sim len oldLen new_name s0 nd0.childs q s
        (hch ▸ hnd n) (fun c hc => hlive n c (hch ▸ hc))
        (fun c hc => hsame c (List.mem_append_left _ hc))
      have hanti1 : Antichain s0.childsOf (q ++ nd0.childs) :=
        hch ▸ antichain_step s0.childsOf r hrank huniq hnd n q hanti
      have hfresh := (bfsOrder_nodup s0.childsOf r hrank huniq hnd k _ hanti1).2
      have hshape1 : SameShape s0 s1 := by
        intro x
        by_cases hx : x ∈ nd0.childs
        · obtain ⟨cd, e0, e1⟩ := h4 x hx
          rw [e0, e1]
          rfl
        · rw [h3 x hx]
          exact hshape x
      obtain ⟨t, g1, g2, g3, g4, g5⟩ := ih (q ++ nd0.childs) s1 hanti1 hdone hshape1
        (fun m hm => by
          rcases List.mem_append.mp hm with hm | hm
          · exact hQ m (List.mem_cons_of_mem _ hm)
          · obtain ⟨cd, _, e, _⟩ := hlive n m (hch ▸ hm)
            exact ⟨cd, e⟩)
        (fun x hx => by
          have hx' : x ∉ nd0.childs := fun hc => hfresh x hx (List.mem_append_right _ hc)
          rw [h3 x hx']
          exact hsame x (List.mem_append_right _ hx))
      refine ⟨t, ?_, ?_, g3, ?_, g5.trans h5⟩
      · simp only [renameQueue, VmasFSData.deref, hn, ok_bind, hchilds, h1]
        exact g1
      · simp only [descendantCalls, List.map_append] at h2 g2 ⊢
        rw [renameEach_append]
        simp only [h2, ok_bind]
        exact g2
      · intro x hx
        simp only [List.mem_append, not_or] at hx
        rw [g4 x hx.2, h3 x hx.1]

theorem mem_childsOf {s : VmasFSData} {q c : Nat} (h : c ∈ s.childsOf q) :
    ∃ qd, s.heap q = some qd ∧ c ∈ qd.childs := by
  unfold VmasFSData.childsOf at h
  cases hq : s.heap q with
  | none => rw [hq] at h; simp at h
  | some qd => rw [hq] at h; exact ⟨qd, rfl, h⟩

/-- In a well-formed tree the parent path of a child is the path of the node
that lists it. -/
theorem child_path {s : VmasFSData} (hwf : WF s) (hall : AllConnected s) (hch : ChildsOK s)
    (hfiled : ChildsFiled s) {q c : Nat} (h : c ∈ s.childsOf q) :
    ∃ qd cd, s.heap q = some qd ∧ s.heap c = some cd ∧ cd.parent = some q ∧
      cd.getParentName = qd.full_name ∧ cd.name = nameOffset cd.full_name ∧
      cd.full_name ≠ [] := by
  obtain ⟨qd, hq, hc⟩ := mem_childsOf h
  obtain ⟨cd, hcd, hpar⟩ := hch q qd c hq hc
  obtain ⟨hroot, key, hkey⟩ := hfiled q qd c hq hc
  obtain ⟨nd, par, pd, e1, e2, e3, e4, _, _⟩ := hall key c hkey hroot
  rw [hcd] at e1
  cases e1
  rw [hpar] at e2
  cases e2
  obtain ⟨nd', f1, f2, _⟩ := hwf.filed _ q e3
  rw [hq] at f1
  cases f1
  obtain ⟨nd'', g1, g2, g3⟩ := hwf.filed key c hkey
  rw [hcd] at g1
  cases g1
  refine ⟨qd, cd, hq, hcd, hpar, f2.symm, by rw [g3, g2], ?_⟩
  intro hnil
  rw [g2] at hnil
  subst hnil
  rw [hwf.root] at hkey
  cases hkey
  exact hroot rfl

theorem full_name_of_parent (cd : FileNode) (hname : cd.name = nameOffset cd.full_name)
    (hne : cd.getParentName ≠ []) :
    ∃ short, cd.full_name = cd.getParentName ++ '/' :: short := by
  unfold FileNode.getParentName at hne ⊢
  by_cases hpos : cd.name > 0
  · simp only [hpos, if_true]
    rw [hname] at hpos ⊢
    exact ⟨_, (nameOffset_split cd.full_name hpos).1⟩
  · simp [hpos] at hne

theorem child_rank {s : VmasFSData} (hwf : WF s) (hall : AllConnected s) (hch : ChildsOK s)
    (hfiled : ChildsFiled s) (q c : Nat) (h : c ∈ s.childsOf q) :
    pathLength s q < pathLength s c := by
  obtain ⟨qd, cd, hq, hc, _, hpn, hname, hne⟩ := child_path hwf hall hch hfiled h
  simp only [pathLength, hq, hc]
  rw [← hpn]
  by_cases hp : cd.getParentName = []
  · rw [hp]
    exact List.length_pos.mpr hne
  · exact getParentName_length_lt cd hname hp

theorem child_unique {s : VmasFSData} (hch : ChildsOK s) (q q' c : Nat)
    (h : c ∈ s.childsOf q) (h' : c ∈ s.childsOf q') : q = q' := by
  obtain ⟨qd, hq, hc⟩ := mem_childsOf h
  obtain ⟨qd', hq', hc'⟩ := mem_childsOf h'
  obtain ⟨cd, e1, e2⟩ := hch q qd c hq hc
  obtain ⟨cd', e1', e2'⟩ := hch q' qd' c hq' hc'
  rw [e1] at e1'
  cases e1'
  rw [e2] at e2'
  cases e2'
  rfl

theorem childsOf_nodup {s : VmasFSData} (hnd : ChildsNodup s) (q : Nat) :
    (s.childsOf q).Nodup := by
  unfold VmasFSData.childsOf
  cases hq : s.heap q with
  | none => exact List.nodup_nil
  | some qd => exact hnd q qd hq

/-- In a well-formed tree the path of a descendant of the node with the
non-empty path `old` is `old`, a `/`, and a rest. -/
theorem descendant_path {s : VmasFSData} (hwf : WF s) (hall : AllConnected s)
    (hch : ChildsOK s) (hfiled : ChildsFiled s) {node c : Nat} {nd : FileNode}
    (hnode : s.heap node = some nd) (hold : nd.full_name ≠ []) (h : Descendant s node c) :
    ∃ cd rest, s.heap c = some cd ∧ cd.full_name = nd.full_name ++ '/' :: rest := by
  induction h with
  | single h =>
    obtain ⟨qd, cd, hq, hc, _, hpn, hname, _⟩ := child_path hwf hall hch hfiled h
    rw [hnode] at hq
    cases hq
    obtain ⟨short, hs⟩ := full_name_of_parent cd hname (by rw [hpn]; exact hold)
    exact ⟨cd, short, hc, by rw [hs, hpn]⟩
  | tail _ h ih =>
    obtain ⟨bd, rest, hb, hbn⟩ := ih
    obtain ⟨qd, cd, hq, hc, _, hpn, hname, _⟩ := child_path hwf hall hch hfiled h
    rw [hb] at hq
    cases hq
    obtain ⟨short, hs⟩ := full_name_of_parent cd hname (by rw [hpn, hbn]; simp)
    exact ⟨cd, rest ++ '/' :: short, hc, by rw [hs, hpn, hbn]; simp⟩

/-- The name `vmasfs_rename` builds for a descendant stored as `old/rest`
when the directory `old` is renamed to `new`. -/
theorem descendantName_eq (old new rest : List Char) (cd : FileNode)
    (h : cd.full_name = old ++ '/' :: rest) :
    descendantName (new.length + 1) (old.length + 1) (new ++ ['/']) cd =
      new ++ '/' :: rest ++ (if cd.is_dir then ['/'] else []) := by
  unfold descendantName
  rw [h]
  have h1 : (new ++ ['/']).take (new.length + 1) = new ++ ['/'] := by
    apply List.take_of_length_le
    simp
  have h2 : (old ++ '/' :: rest).drop (old.length + 1) = rest := by
    have : old ++ '/' :: rest = (old ++ ['/']) ++ rest := by simp
    rw [this]
    apply List.drop_left'
    simp
  rw [h1, h2]
  simp

theorem sameShape_refl (s : VmasFSData) : SameShape s s := fun _ => rfl

theorem descendant_filed {s : VmasFSData} (hfiled : ChildsFiled s) {a c : Nat}
    (h : Descendant s a c) : c ∈ s.files.map Prod.snd := by
  have hlast : ∃ m, c ∈ s.childsOf m := by
    cases h with
    | single h => exact ⟨_, h⟩
    | tail _ h => exact ⟨_, h⟩
  obtain ⟨m, hm⟩ := hlast
  obtain ⟨md, hmd, hc⟩ := mem_childsOf hm
  obtain ⟨_, key, hkey⟩ := hfiled m md c hmd hc
  exact List.mem_map.mpr ⟨(key, c), mem_of_find _ _ _ hkey, rfl⟩

/-- The walk over a well-formed tree empties its queue within as many steps
as the map has entries, and one more. -/
theorem bfsDone_tree {s : VmasFSData} (hwf : WF s) (hall : AllConnected s) (hch : ChildsOK s)
    (hfiled : ChildsFiled s) (hnodup : ChildsNodup s) {key : List Char} {node : Nat}
    (hnode : s.find key = some node) :
    bfsDone s.childsOf (s.files.length + 1) [node] = true := by
  have hanti : Antichain s.childsOf [node] := by
    refine ⟨List.nodup_singleton _, ?_⟩
    intro x hx y hy hxy
    simp only [List.mem_singleton] at hx hy
    subst hx hy
    exact lt_irrefl _ (transGen_rank s.childsOf (pathLength s)
      (child_rank hwf hall hch hfiled) hxy)
  obtain ⟨hD, hfresh⟩ := bfsOrder_nodup s.childsOf (pathLength s)
    (child_rank hwf hall hch hfiled) (child_unique hch) (childsOf_nodup hnodup)
    (s.files.length + 1) [node] hanti
  cases hdone : bfsDone s.childsOf (s.files.length + 1) [node] with
  | true => rfl
  | false =>
    exfalso
    have hlen := bfsOrder_fuel s.childsOf _ _ hdone
    have hnd : (node :: bfsOrder s.childsOf (s.files.length + 1) [node]).Nodup := by
      rw [List.nodup_cons]
      exact ⟨fun h => hfresh node h (List.mem_singleton_self _), hD⟩
    have hsub : node :: bfsOrder s.childsOf (s.files.length + 1) [node] ⊆
        s.files.map Prod.snd := by
      intro x hx
      rcases List.mem_cons.mp hx with rfl | hx
      · exact List.mem_map.mpr ⟨(key, x), mem_of_find _ _ _ hnode, rfl⟩
      · obtain ⟨q, hq, hqx⟩ := bfsOrder_sound s.childsOf _ _ x hx
        exact descendant_filed hfiled hqx
    have hle := (List.subperm_of_subset hnd hsub).length_le
    simp only [List.length_cons, List.length_map, List.length_nil] at hle hlen
    omega

/-- C16: `vmasfs_rename` of the directory `/old` to `/new`, in the tree `s1`
that the removal of the destination, if there was one, has left, `s1` being
well formed (the invariants of `WF`, every node connected, child lists that
hold each child once, children that are nodes of the map pointing back to
their parent).  There is a list of calls, one for each descendant of the
directory and no other, each descendant once; the name in the call of the
descendant stored as `old/rest` is `new/rest`, with a `/` appended exactly for
a directory; the walk does what `renameEach` does with this list (the archive
is told the name if the index is `>= 0`, then `renameNode(c, name, false)`),
it returns, and only then the directory itself is renamed, by
`renameNode(node, "new/", true)`. -/
theorem vmasfs_rename_directory (zip : ZipLib) (s s1 : VmasFSData) (old new : List Char)
    (node : Nat) (nd : FileNode) (hfind : s.find old = some node)
    (hdest : (s.find new = none ∧ s1 = s) ∨
      ∃ new_node, s.find new = some new_node ∧ s.removeNode zip new_node = .ok (0, s1))
    (hwf : WF s1) (hall : AllConnected s1) (hch : ChildsOK s1) (hfiled : ChildsFiled s1)
    (hnodup : ChildsNodup s1) (hnode : s1.find old = some node) (hroot : node ≠ s1.m_root)
    (h1 : s1.heap node = some nd) (hdir : nd.is_dir = true) :
    ∃ (calls : List (Nat × List Char)) (s2 : VmasFSData),
      (calls.map Prod.fst).Nodup ∧
      (∀ c, c ∈ calls.map Prod.fst ↔ Descendant s1 node c) ∧
      (∀ c name, (c, name) ∈ calls → ∃ cd rest, s1.heap c = some cd ∧
        cd.full_name = old ++ '/' :: rest ∧
        name = new ++ '/' :: rest ++ (if cd.is_dir then ['/'] else [])) ∧
      renameEach calls s1 = .ok s2 ∧
      vmasfs_rename zip s ('/' :: old) ('/' :: new) =
        ((if nd.id ≥ 0 then
            { s2 with zipLog := s2.zipLog ++ [.zip_file_rename nd.id (new ++ ['/'])] }
          else s2).renameNode node (new ++ ['/']) true >>= fun s4 => pure (0, s4)) := by
  have hrank := child_rank hwf hall hch hfiled
  have huniq := child_unique hch
  have hnd := childsOf_nodup hnodup
  have hlive : ∀ q c, c ∈ s1.childsOf q →
      ∃ cd par, s1.heap c = some cd ∧ cd.parent = some par := by
    intro q c hc
    obtain ⟨_, cd, _, e, p, _⟩ := child_path hwf hall hch hfiled hc
    exact ⟨cd, q, e, p⟩
  have hanti : Antichain s1.childsOf [node] := by
    refine ⟨List.nodup_singleton _, ?_⟩
    intro x hx y hy hxy
    simp only [List.mem_singleton] at hx hy
    subst hx hy
    exact lt_irrefl _ (transGen_rank s1.childsOf (pathLength s1) hrank hxy)
  have hdone := bfsDone_tree hwf hall hch hfiled hnodup hnode
  obtain ⟨hD, _⟩ := bfsOrder_nodup s1.childsOf (pathLength s1) hrank huniq hnd
    (s1.files.length + 1) [node] hanti
  obtain ⟨t, hq, heach, hshape, _, _⟩ := renameQueue_sim (new.length + 1) (old.length + 1)
    (new ++ ['/']) s1 (pathLength s1) hrank huniq hnd hlive (s1.files.length + 1) [node] s1
    hanti hdone (sameShape_refl s1)
    (fun n hn => by rw [List.mem_singleton.mp hn]; exact ⟨nd, h1⟩) (fun _ _ => rfl)
  obtain ⟨nd2, hnd2, _, _, _, hid2⟩ := hshape.heap h1
  have hold : nd.full_name = old := by
    obtain ⟨nd', e, a, _⟩ := hwf.filed old node hnode
    rw [h1] at e
    cases e
    exact a
  have holdne : nd.full_name ≠ [] := by
    rw [hold]
    rintro rfl
    rw [hwf.root] at hnode
    cases hnode
    exact hroot rfl
  have hmap : (descendantCalls (new.length + 1) (old.length + 1) (new ++ ['/']) s1
      (bfsOrder s1.childsOf (s1.files.length + 1) [node])).map Prod.fst =
      bfsOrder s1.childsOf (s1.files.length + 1) [node] := by
    simp [descendantCalls, Function.comp_def]
  have hmem : ∀ c, c ∈ bfsOrder s1.childsOf (s1.files.length + 1) [node] ↔
      Descendant s1 node c := by
    intro c
    constructor
    · intro hc
      obtain ⟨q, hq, hqc⟩ := bfsOrder_sound s1.childsOf _ _ c hc
      rw [List.mem_singleton.mp hq] at hqc
      exact hqc
    · intro hc
      exact bfsOrder_complete s1.childsOf _ _ hdone node (List.mem_singleton_self _) c hc
  refine ⟨_, t, by rw [hmap]; exact hD, by rw [hmap]; exact hmem, ?_, heach, ?_⟩
  · intro c name hc
    simp only [descendantCalls, List.mem_map, Prod.mk.injEq] at hc
    obtain ⟨c', hc', rfl, hname⟩ := hc
    obtain ⟨cd, rest, hcd, hfull⟩ :=
      descendant_path hwf hall hch hfiled h1 holdne ((hmem c').mp hc')
    rw [hold] at hfull
    refine ⟨cd, rest, hcd, hfull, ?_⟩
    rw [← hname, hcd]
    exact descendantName_eq old new rest cd hfull
  · have hfind' : filemap_t.find s.files old = some node := hfind
    have hmain : ∀ r : Except Failure (Int × VmasFSData), r = .ok (0, s1) →
        (r >>= fun x =>
          if x.1 ≠ 0 then (Except.ok (-x.1, x.2) : Except Failure (Int × VmasFSData))
          else do
            let nd ← x.2.deref node
            let len := if nd.is_dir then ('/' :: new).length else ('/' :: new).length - 1
            let oldLen := if nd.is_dir then old.length + 1 else old.length + 1 - 1
            let new_name := new ++ (if nd.is_dir then ['/'] else [])
            let s2 ← (if nd.is_dir then
                renameQueue len oldLen new_name (x.2.files.length + 1) [node] x.2
              else .ok x.2)
            let nd2 ← s2.deref node
            let s3 := if nd2.id ≥ 0 then
                { s2 with zipLog := s2.zipLog ++ [.zip_file_rename nd2.id new_name] }
              else s2
            let s4 ← s3.renameNode node new_name true
            pure (0, s4)) =
        ((if nd.id ≥ 0 then
            { t with zipLog := t.zipLog ++ [.zip_file_rename nd.id (new ++ ['/'])] }
          else t).renameNode node (new ++ ['/']) true >>= fun s4 => pure (0, s4)) := by
      intro r hr
      subst hr
      simp only [ok_bind, ne_eq, not_true_eq_false, if_false, VmasFSData.deref, h1, hdir,
        if_true, List.length_cons, hq, hnd2, hid2]
    rcases hdest with ⟨hnone, rfl⟩ | ⟨d, hd, hrm⟩
    · have hnone' : filemap_t.find s1.files new = none := hnone
      have := hmain (.ok (0, s1)) rfl
      rw [← this]
      simp only [vmasfs_rename, List.cons_ne_nil, if_false, List.tail_cons, VmasFSData.find,
        hfind', hnone']
    · have hd' : filemap_t.find s.files new = some d := hd
      have := hmain (s.removeNode zip d) hrm
      rw [← this]
      simp only [vmasfs_rename, List.cons_ne_nil, if_false, List.tail_cons, VmasFSData.find,
        hfind', hd']

/-- C16 at the tree built from the entries `a/b` and `a/c/d`, for the rename
of `/a` to `/x`: the tree is well formed and the directory `a`, at address 3,
has the descendants `a/b`, `a/c` and `a/c/d`. -/
theorem vmasfs_rename_directory_witness :
    ∃ s, build_tree ["a/b".toList, "a/c/d".toList] false = .ok s ∧
      ∃ (calls : List (Nat × List Char)) (s2 : VmasFSData),
        (calls.map Prod.fst).Nodup ∧
        (∀ c, c ∈ calls.map Prod.fst ↔ Descendant s 3 c) ∧
        (∀ c name, (c, name) ∈ calls → ∃ cd rest, s.heap c = some cd ∧
          cd.full_name = "a".toList ++ '/' :: rest ∧
          name = "x".toList ++ '/' :: rest ++ (if cd.is_dir then ['/'] else [])) ∧
        renameEach calls s = .ok s2 ∧
        vmasfs_rename ⟨fun _ => 0⟩ s ('/' :: "a".toList) ('/' :: "x".toList) =
          ((if NEW_NODE_INDEX ≥ 0 then
              { s2 with
                zipLog := s2.zipLog ++ [.zip_file_rename NEW_NODE_INDEX ("x".toList ++ ['/'])] }
            else s2).renameNode 3 ("x".toList ++ ['/']) true >>= fun s4 => pure (0, s4)) := by
  obtain ⟨s, hs⟩ := build_tree_exists ["a/b".toList, "a/c/d".toList] false (by decide)
  obtain ⟨hwf, hall⟩ := build_tree_inv hs
  have h0 : s.heap 0 = some { createRootNode with childs := [3] } :=
    build_tree_project (fun t => t.heap 0) _ hs (by decide)
  have h1 : s.heap 1 = some { createNodeForZipEntry "a/b".toList 0 with parent := some 3 } :=
    build_tree_project (fun t => t.heap 1) _ hs (by decide)
  have h2 : s.heap 2 = some { createNodeForZipEntry "a/c/d".toList 1 with parent := some 4 } :=
    build_tree_project (fun t => t.heap 2) _ hs (by decide)
  have h3 : s.heap 3 =
      some { createIntermediateDir "a".toList with parent := some 0, childs := [1, 4] } :=
    build_tree_project (fun t => t.heap 3) _ hs (by decide)
  have h4 : s.heap 4 =
      some { createIntermediateDir "a/c".toList with parent := some 3, childs := [2] } :=
    build_tree_project (fun t => t.heap 4) _ hs (by decide)
  have hnext : s.next = 5 := build_tree_project (fun t => t.next) _ hs (by decide)
  have hroot : s.m_root = 0 := build_tree_project (fun t => t.m_root) _ hs (by decide)
  have f1 : s.find "a/b".toList = some 1 :=
    build_tree_project (fun t => t.find "a/b".toList) _ hs (by decide)
  have f2 : s.find "a/c/d".toList = some 2 :=
    build_tree_project (fun t => t.find "a/c/d".toList) _ hs (by decide)
  have f3 : s.find "a".toList = some 3 :=
    build_tree_project (fun t => t.find "a".toList) _ hs (by decide)
  have f4 : s.find "a/c".toList = some 4 :=
    build_tree_project (fun t => t.find "a/c".toList) _ hs (by decide)
  have fx : s.find "x".toList = none :=
    build_tree_project (fun t => t.find "x".toList) _ hs (by decide)
  -- the child lists of the tree
  have hlists : ∀ q ndq c, s.heap q = some ndq → c ∈ ndq.childs →
      (q = 0 ∧ c = 3) ∨ (q = 3 ∧ (c = 1 ∨ c = 4)) ∨ (q = 4 ∧ c = 2) := by
    intro q ndq c hq hc
    match q, hq with
    | 0, hq =>
      rw [h0] at hq; cases hq
      simp only [List.mem_singleton] at hc
      exact Or.inl ⟨rfl, hc⟩
    | 1, hq =>
      rw [h1] at hq; cases hq
      simp [createNodeForZipEntry] at hc
    | 2, hq =>
      rw [h2] at hq; cases hq
      simp [createNodeForZipEntry] at hc
    | 3, hq =>
      rw [h3] at hq; cases hq
      simp only [List.mem_cons, List.mem_singleton, List.not_mem_nil, or_false] at hc
      exact Or.inr (Or.inl ⟨rfl, hc⟩)
    | 4, hq =>
      rw [h4] at hq; cases hq
      simp only [List.mem_singleton] at hc
      exact Or.inr (Or.inr ⟨rfl, hc⟩)
    | q + 5, hq =>
      rw [hwf.fresh (q + 5) (by omega)] at hq
      cases hq
  have hch : ChildsOK s := by
    intro q ndq c hq hc
    rcases hlists q ndq c hq hc with ⟨rfl, rfl⟩ | ⟨rfl, rfl | rfl⟩ | ⟨rfl, rfl⟩
    · exact ⟨_, h3, rfl⟩
    · exact ⟨_, h1, rfl⟩
    · exact ⟨_, h4, rfl⟩
    · exact ⟨_, h2, rfl⟩
  have hfiled : ChildsFiled s := by
    intro q ndq c hq hc
    rw [hroot]
    rcases hlists q ndq c hq hc with ⟨rfl, rfl⟩ | ⟨rfl, rfl | rfl⟩ | ⟨rfl, rfl⟩
    · exact ⟨by decide, _, f3⟩
    · exact ⟨by decide, _, f1⟩
    · exact ⟨by decide, _, f4⟩
    · exact ⟨by decide, _, f2⟩
  have hnodup : ChildsNodup s := by
    intro q ndq hq
    match q, hq with
    | 0, hq => rw [h0] at hq; cases hq; decide
    | 1, hq => rw [h1] at hq; cases hq; decide
    | 2, hq => rw [h2] at hq; cases hq; decide
    | 3, hq => rw [h3] at hq; cases hq; decide
    | 4, hq => rw [h4] at hq; cases hq; decide
    | q + 5, hq =>
      rw [hwf.fresh (q + 5) (by omega)] at hq
      cases hq
  refine ⟨s, hs, ?_⟩
  exact vmasfs_rename_directory ⟨fun _ => 0⟩ s s "a".toList "x".toList 3
    { createIntermediateDir "a".toList with parent := some 0, childs := [1, 4] }
    f3 (Or.inl ⟨fx, rfl⟩) hwf hall hch hfiled hnodup f3 (by rw [hroot]; decide) h3 rfl

/-! ## Writing past the end of the buffer -/

theorem chunkSize_eq : chunkSize = 4096 := rfl

theorem uniform_flatten_length (cs : List (List Nat)) (h : Uniform cs) :
    cs.flatten.length = cs.length * chunkSize := by
  induction cs with
  | nil => simp
  | cons c rest ih =>
    have hc := h c (List.mem_cons_self _ _)
    have := ih (fun x hx => h x (List.mem_cons_of_mem _ hx))
    simp only [List.flatten_cons, List.length_append, List.length_cons, hc, this]
    ring

theorem uniform_flatten_take (cs : List (List Nat)) (h : Uniform cs) (i : Nat) :
    (cs.take i).flatten = cs.flatten.take (i * chunkSize) := by
  induction cs generalizing i with
  | nil => simp
  | cons c rest ih =>
    have hc := h c (List.mem_cons_self _ _)
    cases i with
    | zero => simp
    | succ i =>
      have := ih (fun x hx => h x (List.mem_cons_of_mem _ hx)) i
      simp only [List.take_succ_cons, List.flatten_cons, this]
      rw [List.take_append_eq_append_take, hc]
      have h1 : List.take ((i + 1) * chunkSize) c = c := by
        apply List.take_of_length_le
        rw [hc]
        nlinarith
      have h2 : (i + 1) * chunkSize - chunkSize = i * chunkSize := by
        rw [Nat.add_mul, Nat.one_mul, Nat.add_sub_cancel]
      rw [h1, h2]

theorem uniform_flatten_drop (cs : List (List Nat)) (h : Uniform cs) (i : Nat) :
    (cs.drop i).flatten = cs.flatten.drop (i * chunkSize) := by
  induction cs generalizing i with
  | nil => simp
  | cons c rest ih =>
    have hc := h c (List.mem_cons_self _ _)
    cases i with
    | zero => simp
    | succ i =>
      have := ih (fun x hx => h x (List.mem_cons_of_mem _ hx)) i
      simp only [List.drop_succ_cons, List.flatten_cons, this]
      rw [List.drop_append_eq_append_drop, hc]
      have h1 : List.drop ((i + 1) * chunkSize) c = [] := by
        apply List.drop_of_length_le
        rw [hc]
        nlinarith
      have h2 : (i + 1) * chunkSize - chunkSize = i * chunkSize := by
        rw [Nat.add_mul, Nat.one_mul, Nat.add_sub_cancel]
      rw [h1, h2, List.nil_append]

theorem get_append_length (A B : List (List Nat)) (c : List Nat) :
    (A ++ c :: B).get? A.length = some c := by
  induction A with
  | nil => rfl
  | cons a A ih => simpa using ih

theorem set_append_length (A B : List (List Nat)) (c c' : List Nat) :
    (A ++ c :: B).set A.length c' = A ++ c' :: B := by
  induction A with
  | nil => simp
  | cons a A ih => simp [ih]

theorem writeLoop_spec :
    ∀ (k : Nat) (src : List Nat) (A B : List (List Nat)) (pos : Nat), Uniform B →
      pos ≤ chunkSize → (src ≠ [] → pos < chunkSize) → src.length < k →
      pos + src.length ≤ B.length * chunkSize →
      ∃ B', BigBuffer.writeLoop k (A ++ B) A.length pos src = .ok (A ++ B') ∧ Uniform B' ∧
        B'.length = B.length ∧ B'.flatten = splice B.flatten pos src := by
  intro k
  induction k with
  | zero => intro src A B pos _ _ _ hk; omega
  | succ k ih =>
    intro src A B pos hB hpos hpos' hk hfit
    by_cases hsrc : src = []
    · subst hsrc
      refine ⟨B, by simp [BigBuffer.writeLoop], hB, rfl, ?_⟩
      have hlen := uniform_flatten_length B hB
      simp [splice]
    · have hpos2 := hpos' hsrc
      have hsl : 0 < src.length := List.length_pos.mpr hsrc
      cases B with
      | nil =>
        simp only [List.length_nil, Nat.zero_mul] at hfit
        omega
      | cons c B2 =>
        have hc : c.length = chunkSize := hB c (List.mem_cons_self _ _)
        have hB2 : Uniform B2 := fun x hx => hB x (List.mem_cons_of_mem _ hx)
        have hcs := chunkSize_eq
        -- the chunk written
        have hw : (chunkWrite c src pos).2 = min src.length (chunkSize - pos) := rfl
        have hc' : (chunkWrite c src pos).1.length = chunkSize := by
          simp only [chunkWrite, List.length_append, List.length_take, List.length_drop, hc]
          omega
        simp only [List.length_cons] at hfit
        obtain ⟨B2', h1, h2, h3, h4⟩ := ih (src.drop (chunkWrite c src pos).2)
          (A ++ [(chunkWrite c src pos).1]) B2 0 hB2 (by omega) (fun _ => by omega)
          (by simp only [List.length_drop, hw]; omega)
          (by simp only [List.length_drop, hw]; rw [Nat.add_mul] at hfit; omega)
        refine ⟨(chunkWrite c src pos).1 :: B2', ?_, ?_, by simp [h3], ?_⟩
        · rw [BigBuffer.writeLoop, if_neg hsrc, get_append_length]
          simp only [set_append_length]
          have : A ++ (chunkWrite c src pos).1 :: B2 =
              (A ++ [(chunkWrite c src pos).1]) ++ B2 := by simp
          rw [this]
          have hl : A.length + 1 = (A ++ [(chunkWrite c src pos).1]).length := by simp
          rw [hl, h1]
          simp
        · intro x hx
          rcases List.mem_cons.mp hx with rfl | hx
          · exact hc'
          · exact h2 x hx
        · simp only [List.flatten_cons, h4, splice]
          by_cases hfits : src.length ≤ chunkSize - pos
          · -- the rest of `src` fits the chunk
            have hmin : min src.length (chunkSize - pos) = src.length := by omega
            simp only [chunkWrite, hmin, List.take_length, List.drop_length, List.length_nil,
              List.take_zero, List.nil_append, List.append_nil, Nat.zero_add, List.drop_zero]
            rw [List.take_append_of_le_length (by omega),
              List.drop_append_of_le_length (by omega)]
            simp
          · have hmin : min src.length (chunkSize - pos) = chunkSize - pos := by omega
            simp only [chunkWrite, hmin, List.take_zero, List.nil_append, Nat.zero_add,
              List.length_drop]
            rw [List.take_append_of_le_length (by omega)]
            have hd1 : List.drop (pos + (chunkSize - pos)) c = [] := by
              apply List.drop_of_length_le
              omega
            have hd2 : List.drop (pos + src.length) (c ++ B2.flatten) =
                List.drop (src.length - (chunkSize - pos)) B2.flatten := by
              have hsub : pos + src.length - chunkSize = src.length - (chunkSize - pos) := by
                omega
              rw [List.drop_append_eq_append_drop, List.drop_of_length_le (by omega), hc, hsub]
              simp only [List.nil_append]
            rw [hd1, hd2]
            simp only [List.append_nil, List.append_assoc]
            rw [← List.append_assoc (List.take (chunkSize - pos) src), List.take_append_drop]

theorem readLoop_spec :
    ∀ (k size : Nat) (A B : List (List Nat)) (pos : Nat), Uniform B →
      pos ≤ chunkSize → (size ≠ 0 → pos < chunkSize) → size < k →
      pos + size ≤ B.length * chunkSize →
      BigBuffer.readLoop k (A ++ B) A.length pos size =
        .ok ((B.flatten.drop pos).take size) := by
  intro k
  induction k with
  | zero => intro size A B pos _ _ _ hk; omega
  | succ k ih =>
    intro size A B pos hB hpos hpos' hk hfit
    by_cases hsize : size = 0
    · subst hsize
      simp [BigBuffer.readLoop]
    · have hpos2 := hpos' hsize
      have hcs := chunkSize_eq
      cases B with
      | nil =>
        simp only [List.length_nil, Nat.zero_mul] at hfit
        omega
      | cons c B2 =>
        have hc : c.length = chunkSize := hB c (List.mem_cons_self _ _)
        have hB2 : Uniform B2 := fun x hx => hB x (List.mem_cons_of_mem _ hx)
        have hr : (chunkRead c pos size).length = min size (chunkSize - pos) := by
          simp only [chunkRead, List.length_take, List.length_drop, hc]
          omega
        simp only [List.length_cons] at hfit
        rw [Nat.add_mul] at hfit
        have hrest := ih (size - (chunkRead c pos size).length) (A ++ [c]) B2 0 hB2 (by omega)
          (fun _ => by omega) (by rw [hr]; omega) (by rw [hr]; omega)
        have hl : A.length + 1 = (A ++ [c]).length := by simp
        have hsplit : A ++ c :: B2 = (A ++ [c]) ++ B2 := by simp
        rw [BigBuffer.readLoop, if_neg hsize, get_append_length]
        simp only []
        rw [hsplit, hl, hrest]
        simp only [ok_bind, pure, Except.pure, List.drop_zero, List.flatten_cons, hr]
        congr 1
        rw [List.drop_append_of_le_length (by omega), List.take_append_eq_append_take,
          List.length_drop, hc]
        unfold chunkRead
        by_cases hfits : size ≤ chunkSize - pos
        · have hmin : min size (chunkSize - pos) = size := by omega
          have e : size - (chunkSize - pos) = 0 := by omega
          rw [hmin, e, Nat.sub_self]
        · have hmin : min size (chunkSize - pos) = chunkSize - pos := by omega
          have e1 : List.take (chunkSize - pos) (List.drop pos c) = List.drop pos c :=
            List.take_of_length_le (by simp only [List.length_drop, hc]; omega)
          have e2 : List.take size (List.drop pos c) = List.drop pos c :=
            List.take_of_length_le (by simp only [List.length_drop, hc]; omega)
          rw [hmin, e1, e2]

theorem write_flat (cs : List (List Nat)) (src : List Nat) (offset : Nat) (hcs : Uniform cs)
    (hfit : offset + src.length ≤ cs.length * chunkSize) :
    ∃ cs', BigBuffer.writeLoop (src.length + 1) cs (offset / chunkSize) (offset % chunkSize)
        src = .ok cs' ∧
      Uniform cs' ∧ cs'.length = cs.length ∧ cs'.flatten = splice cs.flatten offset src := by
  have hC := chunkSize_eq
  have hi : offset / chunkSize ≤ cs.length := by
    rw [hC] at hfit ⊢
    omega
  have hA : (cs.take (offset / chunkSize)).length = offset / chunkSize := by
    rw [List.length_take]
    omega
  have hBu : Uniform (cs.drop (offset / chunkSize)) := fun x hx => hcs x (List.mem_of_mem_drop hx)
  obtain ⟨B', h1, h2, h3, h4⟩ := writeLoop_spec (src.length + 1) src
    (cs.take (offset / chunkSize)) (cs.drop (offset / chunkSize)) (offset % chunkSize) hBu
    (by rw [hC]; omega) (fun _ => by rw [hC]; omega) (by omega)
    (by rw [List.length_drop]; rw [hC] at hfit ⊢; omega)
  rw [List.take_append_drop, hA] at h1
  refine ⟨_, h1, ?_, ?_, ?_⟩
  · intro x hx
    rcases List.mem_append.mp hx with hx | hx
    · exact hcs x (List.mem_of_mem_take hx)
    · exact h2 x hx
  · rw [List.length_append, h3, ← List.length_append, List.take_append_drop]
  · rw [List.flatten_append, h4, uniform_flatten_take cs hcs, uniform_flatten_drop cs hcs]
    unfold splice
    have ho : offset / chunkSize * chunkSize + offset % chunkSize = offset := by
      rw [Nat.mul_comm]
      exact Nat.div_add_mod offset chunkSize
    rw [List.drop_drop, List.take_drop]
    have e1 : offset / chunkSize * chunkSize + (offset % chunkSize + src.length) =
        offset + src.length := by omega
    rw [e1, ← List.append_assoc, ← List.append_assoc]
    congr 2
    have := List.take_append_drop (offset / chunkSize * chunkSize) (List.take offset cs.flatten)
    rw [List.take_take] at this
    have e2 : min (offset / chunkSize * chunkSize) offset = offset / chunkSize * chunkSize := by
      omega
    rw [e2] at this
    rw [ho]
    exact this

theorem read_flat (cs : List (List Nat)) (size offset : Nat) (hcs : Uniform cs)
    (hfit : offset + size ≤ cs.length * chunkSize) :
    BigBuffer.readLoop (size + 1) cs (offset / chunkSize) (offset % chunkSize) size =
      .ok ((cs.flatten.drop offset).take size) := by
  have hC := chunkSize_eq
  have hi : offset / chunkSize ≤ cs.length := by
    rw [hC] at hfit ⊢
    omega
  have hA : (cs.take (offset / chunkSize)).length = offset / chunkSize := by
    rw [List.length_take]
    omega
  have hBu : Uniform (cs.drop (offset / chunkSize)) := fun x hx => hcs x (List.mem_of_mem_drop hx)
  have h := readLoop_spec (size + 1) size
    (cs.take (offset / chunkSize)) (cs.drop (offset / chunkSize)) (offset % chunkSize) hBu
    (by rw [hC]; omega) (fun _ => by rw [hC]; omega) (by omega)
    (by rw [List.length_drop]; rw [hC] at hfit ⊢; omega)
  rw [List.take_append_drop, hA, uniform_flatten_drop cs hcs, List.drop_drop] at h
  have ho : offset / chunkSize * chunkSize + offset % chunkSize = offset := by
    rw [Nat.mul_comm]
    exact Nat.div_add_mod offset chunkSize
  rw [h]
  congr 3

theorem splice_take (F src : List Nat) (o n : Nat) (hn : n ≤ o) (ho : o ≤ F.length) :
    (splice F o src).take n = F.take n := by
  unfold splice
  rw [List.append_assoc, List.take_append_of_le_length (by rw [List.length_take]; omega),
    List.take_take]
  congr 1
  omega

theorem splice_gap (F src : List Nat) (o a : Nat) (ha : a ≤ o) (ho : o ≤ F.length) :
    ((splice F o src).drop a).take (o - a) = (F.drop a).take (o - a) := by
  unfold splice
  rw [List.append_assoc, List.drop_append_of_le_length (by rw [List.length_take]; omega),
    List.take_append_of_le_length (by rw [List.length_drop, List.length_take]; omega),
    List.drop_take, List.take_take, Nat.min_self]

theorem splice_mid (F src : List Nat) (o : Nat) (ho : o ≤ F.length) :
    ((splice F o src).drop o).take src.length = src := by
  unfold splice
  have hl : (List.take o F).length = o := by rw [List.length_take]; omega
  rw [List.append_assoc, List.drop_append_eq_append_drop, hl, Nat.sub_self, List.drop_zero,
    List.drop_of_length_le (by omega), List.nil_append, List.take_append_of_le_length (le_refl _),
    List.take_length]

theorem flatten_replicate_zeroChunk (n : Nat) :
    (List.replicate n zeroChunk).flatten = List.replicate (n * chunkSize) 0 := by
  induction n with
  | zero => simp
  | succ n ih =>
    rw [List.replicate_succ, List.flatten_cons, ih, zeroChunk, Nat.add_mul, Nat.one_mul,
      Nat.add_comm, List.replicate_add]

theorem chunksCount_exact (n : Nat) (h : n ≤ 2 ^ 44 - 4096) :
    chunksCount n = (n + 4095) / 4096 := by
  unfold chunksCount
  rw [chunkSize_eq]
  norm_num at h ⊢
  omega

theorem chunkNumber_exact (o : Nat) (h : o ≤ 2 ^ 44 - 4096) :
    chunkNumber o = o / chunkSize := by
  unfold chunkNumber
  rw [chunkSize_eq]
  norm_num at h ⊢
  omega

theorem chunksCount_mul_ge (len : Nat) (h : len ≤ 2 ^ 44 - 4096) :
    len ≤ chunksCount len * chunkSize := by
  rw [chunksCount_exact len h, chunkSize_eq]
  omega

theorem chunksCount_mono {a b : Nat} (h : a ≤ b) (hb : b ≤ 2 ^ 44 - 4096) :
    chunksCount a ≤ chunksCount b := by
  rw [chunksCount_exact a (le_trans h hb), chunksCount_exact b hb]
  omega

theorem resizeChunks_grow (cs : List (List Nat)) (n : Nat) (h : cs.length ≤ n) :
    resizeChunks cs n = cs ++ List.replicate (n - cs.length) zeroChunk := by
  unfold resizeChunks
  rw [List.take_of_length_le h]

theorem sizeToInt_small (n : Nat) (h : n < 2 ^ 31) : sizeToInt n = (n : Int) := by
  unfold sizeToInt
  have h1 : n % 2 ^ 32 = n := Nat.mod_eq_of_lt (by omega)
  rw [h1, if_pos h]

/-- The clearing of the tail of the last chunk in `BigBuffer::write`. -/
theorem clear_flat (b : BigBuffer) (hwf : b.WellFormed) (offset : Nat) (hoff : offset > b.len)
    (hb : b.len ≤ 2 ^ 44 - 4096) :
    ∃ cs1, b.clearLast offset = .ok cs1 ∧
      Uniform cs1 ∧ cs1.length = b.chunks.length ∧
      cs1.flatten = b.chunks.flatten.take b.len ++
        List.replicate (b.chunks.flatten.length - b.len) 0 := by
  obtain ⟨hlen, huni⟩ := hwf
  have hC := chunkSize_eq
  have hF := uniform_flatten_length b.chunks huni
  have hcn := chunkNumber_exact b.len hb
  have hcc := chunksCount_exact b.len hb
  have hco : chunkOffset b.len = b.len % chunkSize := rfl
  rw [BigBuffer.clearLast, hcn, hco]
  by_cases hlast : b.len / chunkSize < chunksCount b.len
  · have hcount : chunksCount b.len = b.len / chunkSize + 1 := by
      rw [hcc] at hlast ⊢
      rw [hC] at hlast ⊢
      omega
    have hd : (b.chunks.drop (b.len / chunkSize)).length = 1 := by
      rw [List.length_drop, hlen, hcount]
      omega
    obtain ⟨c, hc⟩ := List.length_eq_one.mp hd
    have hsplit : b.chunks = b.chunks.take (b.len / chunkSize) ++ [c] := by
      rw [← hc, List.take_append_drop]
    have hA : (b.chunks.take (b.len / chunkSize)).length = b.len / chunkSize := by
      rw [List.length_take, hlen, hcount]
      omega
    have hcl : c.length = chunkSize := huni c (by rw [hsplit]; simp)
    have hAu : Uniform (b.chunks.take (b.len / chunkSize)) :=
      fun x hx => huni x (List.mem_of_mem_take hx)
    have hAF := uniform_flatten_length _ hAu
    rw [hA] at hAF
    have hget : b.chunks.get? (b.len / chunkSize) = some c := by
      rw [hsplit]
      have := get_append_length (b.chunks.take (b.len / chunkSize)) [] c
      rw [hA] at this
      exact this
    have hset : b.chunks.set (b.len / chunkSize) (chunkClearTail c (b.len % chunkSize)) =
        b.chunks.take (b.len / chunkSize) ++ [chunkClearTail c (b.len % chunkSize)] := by
      have := set_append_length (b.chunks.take (b.len / chunkSize)) [] c
        (chunkClearTail c (b.len % chunkSize))
      rw [hA, ← hsplit] at this
      exact this
    rw [if_pos ⟨hoff, hlast⟩, hget]
    refine ⟨_, rfl, ?_, ?_, ?_⟩
    · rw [hset]
      intro x hx
      rcases List.mem_append.mp hx with hx | hx
      · exact hAu x hx
      · rw [List.mem_singleton.mp hx]
        simp only [chunkClearTail, List.length_append, List.length_take, List.length_replicate,
          hcl]
        omega
    · rw [List.length_set]
    · rw [hset, List.flatten_append]
      have hFs : b.chunks.flatten = (b.chunks.take (b.len / chunkSize)).flatten ++ c := by
        conv_lhs => rw [hsplit]
        simp
      have hmod : b.len - b.len / chunkSize * chunkSize = b.len % chunkSize := by
        rw [hC]
        omega
      have hFl : b.chunks.flatten.length - b.len = chunkSize - b.len % chunkSize := by
        rw [hF, hlen, hcount, hC]
        omega
      have e : List.take b.len (b.chunks.take (b.len / chunkSize)).flatten =
          (b.chunks.take (b.len / chunkSize)).flatten :=
        List.take_of_length_le (by rw [hAF, hC]; omega)
      have htake : List.take b.len b.chunks.flatten =
          (b.chunks.take (b.len / chunkSize)).flatten ++ c.take (b.len % chunkSize) := by
        rw [hFs, List.take_append_eq_append_take, hAF, hmod, e]
      rw [hFl, htake]
      simp [chunkClearTail]
  · have hcount : chunksCount b.len * chunkSize = b.len := by
      rw [hcc] at hlast ⊢
      rw [hC] at hlast ⊢
      omega
    rw [if_neg (fun h => hlast h.2)]
    refine ⟨_, rfl, huni, rfl, ?_⟩
    rw [hF, hlen, hcount, Nat.sub_self, List.replicate_zero, List.append_nil,
      List.take_of_length_le (by rw [hF, hlen, hcount])]

/-- C14, as stated, fails for the byte `X` (88) written at offset `2^44` into
the empty buffer: `offset > len` and `size > 0`, one chunk is allocated
(`chunksCount (2^44 + 1)` is 1) and the byte goes to chunk
`chunkNumber (2^44) = 0`; the call returns 1 and the new length is `2^44 + 1`,
yet byte 0, which lies in `[len, offset)`, reads back as `X`, not as zero. -/
theorem write_past_end_counterexample :
    (BigBuffer.mk [] 0).WellFormed ∧ (0 : Nat) < 2 ^ 44 ∧ [88].length > 0 ∧
    ∃ b', (BigBuffer.mk [] 0).write [88] (2 ^ 44) = .ok (1, b') ∧
      b'.len = 2 ^ 44 + 1 ∧ b'.chunks.length = 1 ∧ b'.read 1 0 = .ok [88] := by
  have hn : chunkNumber (2 ^ 44) = 0 := by decide
  have ho : chunkOffset (2 ^ 44) = 0 := by decide
  have hlen : max 0 ((2 ^ 44 + [88].length) % 2 ^ 64) = 2 ^ 44 + 1 := by decide
  have hc : chunksCount (2 ^ 44 + 1) = 1 := by decide
  have hz : chunksCount 0 = 0 := by decide
  have hz2 : chunkNumber 0 = 0 := by decide
  have hcw : chunkWrite zeroChunk [88] 0 = (88 :: List.replicate 4095 0, 1) := by
    simp only [chunkWrite, zeroChunk, chunkSize_eq, List.length_singleton, List.take_zero,
      List.nil_append, Nat.sub_zero, Nat.zero_add, List.drop_replicate]
    rfl
  have hclear : (BigBuffer.mk [] 0).clearLast (2 ^ 44) = .ok [] := by
    simp [BigBuffer.clearLast, hz, hz2]
  have hw : BigBuffer.writeLoop ([88].length + 1) (resizeChunks [] 1) 0 0 [88] =
      .ok [88 :: List.replicate 4095 0] := by
    have hr : resizeChunks [] 1 = [zeroChunk] := rfl
    rw [hr]
    simp only [BigBuffer.writeLoop, List.length_singleton, List.get?_cons_zero, hcw,
      List.set_cons_zero, List.drop_one, List.tail_cons, if_true, if_false, reduceCtorEq]
  have hcr : chunkRead (88 :: List.replicate 4095 0) 0 1 = [88] := by
    simp only [chunkRead, List.drop_zero, chunkSize_eq]
    rfl
  refine ⟨⟨by decide, by simp⟩, by norm_num, by decide,
    ⟨[88 :: List.replicate 4095 0], 2 ^ 44 + 1⟩, ?_, rfl, rfl, ?_⟩
  · unfold BigBuffer.write
    rw [hclear]
    simp only [ok_bind, hlen, hc, hn, ho, hw, pure, Except.pure]
    rfl
  · have hs : (if 0 ≥ 2 ^ 44 + 1 then 0 else min 1 (2 ^ 44 + 1 - 0)) = 1 := by decide
    unfold BigBuffer.read
    simp only [hs, hz2]
    have ho0 : chunkOffset 0 = 0 := by decide
    rw [ho0]
    simp only [BigBuffer.readLoop, List.get?_cons_zero, hcr, List.length_singleton,
      Nat.sub_self, if_true, if_false, one_ne_zero, ok_bind, pure, Except.pure, List.append_nil]

/-- C14, amended: a write past the end of a well-formed buffer
(`chunksCount len` chunks of `chunkSize` bytes), with `offset > len`, at least
one byte to write, `offset + size <= 2^44 - 4096` (the lengths for which the
32-bit `chunksCount` and `chunkNumber` are exact) and `size < 2^31` (the sizes
the `int` result can hold): `write` returns `size`, the new length is
`offset + size`, the buffer is well formed again, the bytes `[len, offset)`
read back as zeros, the bytes `[offset, offset + size)` read back as `src`, and
the bytes `[0, len)` read back as before. -/
theorem write_past_end (b : BigBuffer) (hwf : b.WellFormed) (src : List Nat) (offset : Nat)
    (hoff : offset > b.len) (hsize : src.length > 0)
    (hbound : offset + src.length ≤ 2 ^ 44 - 4096) (hint : src.length < 2 ^ 31) :
    ∃ b', b.write src offset = .ok ((src.length : Int), b') ∧ b'.len = offset + src.length ∧
      b'.WellFormed ∧
      b'.read (offset - b.len) b.len = .ok (List.replicate (offset - b.len) 0) ∧
      b'.read src.length offset = .ok src ∧
      ∃ old, b.read b.len 0 = .ok old ∧ b'.read b.len 0 = .ok old := by
  have hC := chunkSize_eq
  have hblen : b.len ≤ 2 ^ 44 - 4096 := by omega
  obtain ⟨cs1, hclear, hu1, hl1, hf1⟩ := clear_flat b hwf offset hoff hblen
  obtain ⟨hlen, huni⟩ := hwf
  have hF := uniform_flatten_length b.chunks huni
  have hmod : (offset + src.length) % 2 ^ 64 = offset + src.length :=
    Nat.mod_eq_of_lt (by omega)
  have hmax : max b.len ((offset + src.length) % 2 ^ 64) = offset + src.length := by
    rw [hmod]
    omega
  have hge := chunksCount_mul_ge b.len hblen
  have hmono : chunksCount b.len ≤ chunksCount (offset + src.length) :=
    chunksCount_mono (by omega) hbound
  have hge2 := chunksCount_mul_ge (offset + src.length) hbound
  have hn0 : chunkNumber 0 = 0 / chunkSize := chunkNumber_exact 0 (by omega)
  have hnl : chunkNumber b.len = b.len / chunkSize := chunkNumber_exact b.len hblen
  have hno : chunkNumber offset = offset / chunkSize := chunkNumber_exact offset (by omega)
  have ho0 : chunkOffset 0 = 0 % chunkSize := rfl
  have hol : chunkOffset b.len = b.len % chunkSize := rfl
  have hoo : chunkOffset offset = offset % chunkSize := rfl
  have hres : resizeChunks cs1 (chunksCount (offset + src.length)) =
      cs1 ++ List.replicate (chunksCount (offset + src.length) - cs1.length) zeroChunk :=
    resizeChunks_grow cs1 _ (by rw [hl1, hlen]; exact hmono)
  -- the chunks after the buffer has grown
  have hu2 : Uniform (cs1 ++ List.replicate (chunksCount (offset + src.length) - cs1.length)
      zeroChunk) := by
    intro x hx
    rcases List.mem_append.mp hx with hx | hx
    · exact hu1 x hx
    · rw [(List.mem_replicate.mp hx).2]
      simp [zeroChunk]
  have hl2 : (cs1 ++ List.replicate (chunksCount (offset + src.length) - cs1.length)
      zeroChunk).length = chunksCount (offset + src.length) := by
    rw [List.length_append, List.length_replicate, hl1, hlen]
    omega
  have hf2 : (cs1 ++ List.replicate (chunksCount (offset + src.length) - cs1.length)
      zeroChunk).flatten = b.chunks.flatten.take b.len ++
        List.replicate (chunksCount (offset + src.length) * chunkSize - b.len) 0 := by
    rw [List.flatten_append, hf1, flatten_replicate_zeroChunk, List.append_assoc,
      ← List.replicate_add, hF, hl1, hlen]
    congr 2
    have : (chunksCount (offset + src.length) - chunksCount b.len) * chunkSize =
        chunksCount (offset + src.length) * chunkSize -
          chunksCount b.len * chunkSize := Nat.sub_mul _ _ _
    have hm : chunksCount b.len * chunkSize ≤
        chunksCount (offset + src.length) * chunkSize := Nat.mul_le_mul_right _ hmono
    omega
  obtain ⟨cs3, hw, hu3, hl3, hf3⟩ := write_flat _ src offset hu2 (by rw [hl2]; exact hge2)
  have hF2len : (b.chunks.flatten.take b.len ++
      List.replicate (chunksCount (offset + src.length) * chunkSize - b.len) 0).length =
      chunksCount (offset + src.length) * chunkSize := by
    rw [List.length_append, List.length_take, List.length_replicate, hF, hlen]
    omega
  have hfit3 : offset + src.length ≤ cs3.length * chunkSize := by
    rw [hl3, hl2]
    exact hge2
  refine ⟨⟨cs3, offset + src.length⟩, ?_, rfl, ⟨by rw [hl3, hl2], hu3⟩, ?_, ?_, ?_⟩
  · unfold BigBuffer.write
    rw [hclear]
    simp only [ok_bind, hmax, hres, hno, hoo, hw, pure, Except.pure, sizeToInt_small _ hint]
  · have hs : (if b.len ≥ offset + src.length then 0
        else min (offset - b.len) (offset + src.length - b.len)) = offset - b.len := by
      rw [if_neg (by omega)]
      omega
    unfold BigBuffer.read
    simp only [hs, hnl, hol]
    rw [read_flat cs3 _ _ hu3 (by omega), hf3, hf2,
      splice_gap _ _ _ _ (le_of_lt hoff) (by rw [hF2len]; omega),
      List.drop_append_eq_append_drop, List.length_take, hF]
    have h1 : min b.len (b.chunks.length * chunkSize) = b.len := by rw [hlen]; omega
    have hm : min (offset - b.len)
        (chunksCount (offset + src.length) * chunkSize - b.len) = offset - b.len := by
      omega
    rw [h1, Nat.sub_self, List.drop_zero,
      List.drop_of_length_le (by rw [List.length_take, hF, h1]), List.nil_append,
      List.take_replicate, hm]
  · have hs : (if offset ≥ offset + src.length then 0
        else min src.length (offset + src.length - offset)) = src.length := by
      rw [if_neg (by omega)]
      omega
    unfold BigBuffer.read
    simp only [hs, hno, hoo]
    rw [read_flat cs3 _ _ hu3 hfit3, hf3, splice_mid _ _ _ (by rw [hf2, hF2len]; omega)]
  · refine ⟨b.chunks.flatten.take b.len, ?_, ?_⟩
    · have hs : (if 0 ≥ b.len then 0 else min b.len (b.len - 0)) = b.len := by
        by_cases h0 : 0 ≥ b.len
        · rw [if_pos h0]; omega
        · rw [if_neg h0]; omega
      unfold BigBuffer.read
      simp only [hs, hn0, ho0]
      rw [read_flat b.chunks _ _ huni (by rw [hlen]; omega), List.drop_zero]
    · have hs : (if 0 ≥ offset + src.length then 0
          else min b.len (offset + src.length - 0)) = b.len := by
        rw [if_neg (by omega)]
        omega
      unfold BigBuffer.read
      simp only [hs, hn0, ho0]
      rw [read_flat cs3 _ _ hu3 (by omega), List.drop_zero, hf3,
        splice_take _ _ _ _ (le_of_lt hoff) (by rw [hf2, hF2len]; omega), hf2,
        List.take_append_of_le_length (by rw [List.length_take, hF, hlen]; omega),
        List.take_take, Nat.min_self]

/-- C14 amended, for the byte `X` (88) written at offset 8191 into the empty
buffer: the call returns 1, the length is 8192, the first 8191 bytes read as
zeros and the last as `X`. -/
theorem write_past_end_witness :
    ∃ b', (BigBuffer.mk [] 0).write [88] 8191 = .ok (([88].length : Int), b') ∧
      b'.len = 8191 + [88].length ∧ b'.WellFormed ∧
      b'.read (8191 - 0) 0 = .ok (List.replicate (8191 - 0) 0) ∧
      b'.read [88].length 8191 = .ok [88] ∧
      ∃ old, (BigBuffer.mk [] 0).read 0 0 = .ok old ∧ b'.read 0 0 = .ok old :=
  write_past_end ⟨[], 0⟩ ⟨by decide, by simp⟩ [88] 8191 (by decide) (by decide)
    (by norm_num) (by norm_num)

/-! ## Parent names, the assertions of `convertFileName`, and chunk indices -/

/-- C25: for every length `len <= 2^44 - 4096` and every byte offset
`o < len`, `o` is `chunkNumber o * 4096 + chunkOffset o` with
`chunkOffset o < 4096`, and `chunkNumber o < chunksCount len`: the chunk that
holds a byte below `len` is one of the chunks allocated for `len` bytes. -/
theorem chunk_index_in_bounds (len o : Nat) (hlen : len ≤ 2 ^ 44 - 4096) (ho : o < len) :
    o = chunkNumber o * 4096 + chunkOffset o ∧ chunkOffset o < 4096 ∧
      chunkNumber o < chunksCount len := by
  unfold chunkNumber chunkOffset chunksCount
  rw [chunkSize_eq]
  norm_num at hlen ⊢
  omega

/-- C25 at the last byte of a buffer of two full chunks. -/
theorem chunk_index_in_bounds_witness :
    8191 = chunkNumber 8191 * 4096 + chunkOffset 8191 ∧ chunkOffset 8191 < 4096 ∧
      chunkNumber 8191 < chunksCount 8192 :=
  chunk_index_in_bounds 8192 8191 (by norm_num) (by norm_num)

/-- C21, as stated, fails: for a node with the path `a/b`, whose short name
`b` follows the last `/`, `getParentName` returns `a`, which is not the path
up to and including the last `/` (`a/`). -/
theorem getParentName_counterexample :
    ∃ nd : FileNode, nd.full_name = "a/b".toList ∧ nd.name = nameOffset nd.full_name ∧
      nd.shortName = "b".toList ∧ nd.getParentName = "a".toList ∧
      nd.full_name.take (nameOffset nd.full_name) = "a/".toList ∧
      nd.getParentName ≠ nd.full_name.take (nameOffset nd.full_name) :=
  ⟨{ full_name := "a/b".toList, name := 2, is_dir := false, id := 0, childs := [],
      parent := none, state := .CLOSED, metadataChanged := false }, by decide⟩

theorem nameOffset_zero_of_not_mem (k : List Char) (h : '/' ∉ k) : nameOffset k = 0 := by
  by_contra hne
  have hpos : 0 < nameOffset k := Nat.pos_of_ne_zero hne
  have := (nameOffset_split k hpos).1
  apply h
  rw [this]
  simp

/-- C21, amended: for every node whose `name` pointer is at the start of the
suffix of the full path that follows the last `/`, the key `findParent` looks
up is `getParentName`; when the full path contains a `/`, the full path is
`getParentName`, then that last `/`, then the short name, so `getParentName`
is the path up to but excluding the last `/`; when the full path contains no
`/`, `getParentName` is the empty string. -/
theorem getParentName_spec (s : VmasFSData) (nd : FileNode)
    (hname : nd.name = nameOffset nd.full_name) :
    s.findParent nd = s.find nd.getParentName ∧
    ('/' ∈ nd.full_name →
      nd.full_name = nd.getParentName ++ '/' :: nd.shortName ∧ '/' ∉ nd.shortName) ∧
    ('/' ∉ nd.full_name → nd.getParentName = []) := by
  refine ⟨rfl, ?_, ?_⟩
  · intro hmem
    have hpos := nameOffset_pos_of_mem nd.full_name hmem
    have hsplit := nameOffset_split nd.full_name hpos
    unfold FileNode.getParentName FileNode.shortName
    rw [hname, if_pos hpos]
    exact hsplit
  · intro hmem
    unfold FileNode.getParentName
    rw [hname, nameOffset_zero_of_not_mem nd.full_name hmem]
    simp

/-- C21 amended, at the node with the path `a/b/c`. -/
theorem getParentName_spec_witness :
    VmasFSData.initial.findParent (createNodeForZipEntry "a/b/c".toList 0) =
        VmasFSData.initial.find (createNodeForZipEntry "a/b/c".toList 0).getParentName ∧
    ('/' ∈ (createNodeForZipEntry "a/b/c".toList 0).full_name →
      (createNodeForZipEntry "a/b/c".toList 0).full_name =
          (createNodeForZipEntry "a/b/c".toList 0).getParentName ++
            '/' :: (createNodeForZipEntry "a/b/c".toList 0).shortName ∧
        '/' ∉ (createNodeForZipEntry "a/b/c".toList 0).shortName) ∧
    ('/' ∉ (createNodeForZipEntry "a/b/c".toList 0).full_name →
      (createNodeForZipEntry "a/b/c".toList 0).getParentName = []) :=
  getParentName_spec VmasFSData.initial (createNodeForZipEntry "a/b/c".toList 0) (by decide)

theorem needPrefixOf_true (names : List (List Char)) (name : List Char) (hmem : name ∈ names)
    (h : name.head? = some '/' ∨ startsWith name "../".toList = true) :
    needPrefixOf true names = true := by
  unfold needPrefixOf
  simp only [Bool.true_and, List.any_eq_true, Bool.or_eq_true, decide_eq_true_eq]
  exact ⟨name, hmem, h⟩

/-- No call of `convertFileName` that `build_tree` makes fails an assertion
(or the step bound of its component loop): it returns or throws. -/
theorem convertFileName_returns_or_throws (names : List (List Char)) (ro : Bool)
    (name : List Char) (hmem : name ∈ names) :
    (∃ out, convertFileName name ro (needPrefixOf ro names) = .ok out) ∨
    ∃ e, convertFileName name ro (needPrefixOf ro names) = .error e ∧ e.isThrown = true := by
  rcases convertFileName_cases name ro (needPrefixOf ro names) with
    ⟨_, h⟩ | ⟨_, _, h⟩ | ⟨_, r, hr, _, h⟩ | ⟨_, k, r, hr, _, _, h⟩ | ⟨_, _, _, _, _, h⟩
  · exact Or.inr ⟨_, h, rfl⟩
  · exact Or.inr ⟨_, h, rfl⟩
  · rw [h]
    cases ro with
    | false => exact Or.inr ⟨_, rfl, rfl⟩
    | true =>
      have hnp := needPrefixOf_true names name hmem (Or.inl (by rw [hr]; rfl))
      rw [hnp]
      by_cases hd : hasDotComponent r
      · simp only [Bool.true_eq_false, if_false, if_pos hd]
        exact Or.inr ⟨_, rfl, rfl⟩
      · simp only [Bool.true_eq_false, if_false, if_neg hd]
        exact Or.inl ⟨_, rfl⟩
  · rw [h]
    cases ro with
    | false => exact Or.inr ⟨_, rfl, rfl⟩
    | true =>
      have hnp := needPrefixOf_true names name hmem
        (Or.inr (by rw [hr]; exact (startsWith_iff _ _).mpr (upSegments_starts k r)))
      rw [hnp]
      by_cases hd : hasDotComponent r
      · simp only [Bool.true_eq_false, if_false, if_pos hd]
        exact Or.inr ⟨_, rfl, rfl⟩
      · simp only [Bool.true_eq_false, if_false, if_neg hd]
        exact Or.inl ⟨_, rfl⟩
  · rw [h]
    by_cases hd : hasDotComponent name
    · rw [if_pos hd]
      exact Or.inr ⟨_, rfl, rfl⟩
    · rw [if_neg hd]
      exact Or.inl ⟨_, rfl⟩

/-- C22: for every list of archive entry names, either mode and every name of
the list, with `needPrefix` as `build_tree` computes it: when the call is
read-only and the name begins with `/` or `../`, `needPrefix` is true
(`assert(needPrefix)`); when `validateFileName` returns, the name is not
empty (`assert(fname[0] != 0)`); the remainder that the prefix part hands on
does not begin with `/` (`assert(fname[0] != '/')`); and the call of
`convertFileName` returns or throws, it does not fail an assertion. -/
theorem convertFileName_assertions (names : List (List Char)) (ro : Bool)
    (name : List Char) (hmem : name ∈ names) :
    (ro = true → (name.head? = some '/' ∨ startsWith name "../".toList = true) →
      needPrefixOf ro names = true) ∧
    (validateFileName name = .ok () → name ≠ []) ∧
    (∀ converted rest, validateFileName name = .ok () →
      convertHead name ro (needPrefixOf ro names) = .ok (converted, rest) →
      rest.head? ≠ some '/') ∧
    ((∃ out, convertFileName name ro (needPrefixOf ro names) = .ok out) ∨
      ∃ e, convertFileName name ro (needPrefixOf ro names) = .error e ∧ e.isThrown = true) := by
  have hall := convertFileName_returns_or_throws names ro name hmem
  refine ⟨?_, ?_, ?_, hall⟩
  · intro hro h
    subst hro
    exact needPrefixOf_true names name hmem h
  · intro hv hnil
    subst hnil
    simp [validateFileName] at hv
  · intro converted rest hv hh hhead
    have hne : rest ≠ [] := by
      intro hnil
      subst hnil
      cases hhead
    have hnn : name ≠ [] := by
      intro hnil
      subst hnil
      simp [validateFileName] at hv
    have : convertFileName name ro (needPrefixOf ro names) = .error .assertion := by
      unfold convertFileName
      rw [hv]
      simp only [if_neg hnn, hh]
      unfold convertTail
      rw [if_neg hne, if_pos hhead]
    rcases hall with ⟨out, ho⟩ | ⟨e, he, hthrown⟩
    · rw [this] at ho
      cases ho
    · rw [this] at he
      cases he
      cases hthrown

/-- C22 for the archive with the entries `/etc/x`, `../y` and `z`, mounted
read-only, at the entry `../y`. -/
theorem convertFileName_assertions_witness :
    (true = true →
      ("../y".toList.head? = some '/' ∨ startsWith "../y".toList "../".toList = true) →
      needPrefixOf true ["/etc/x".toList, "../y".toList, "z".toList] = true) ∧
    (validateFileName "../y".toList = .ok () → "../y".toList ≠ []) ∧
    (∀ converted rest, validateFileName "../y".toList = .ok () →
      convertHead "../y".toList true
          (needPrefixOf true ["/etc/x".toList, "../y".toList, "z".toList]) =
        .ok (converted, rest) →
      rest.head? ≠ some '/') ∧
    ((∃ out, convertFileName "../y".toList true
        (needPrefixOf true ["/etc/x".toList, "../y".toList, "z".toList]) = .ok out) ∨
      ∃ e, convertFileName "../y".toList true
          (needPrefixOf true ["/etc/x".toList, "../y".toList, "z".toList]) = .error e ∧
        e.isThrown = true) :=
  convertFileName_assertions ["/etc/x".toList, "../y".toList, "z".toList] true "../y".toList
    (by decide)

/-! ## The parent of a node handed to `removeNode` -/

/-- In a well-formed tree whose nodes are connected, a node of the map other
than the root has a parent, which is another node of the tree. -/
theorem connected_parent {s : VmasFSData} (hwf : WF s) (hall : AllConnected s)
    {key : List Char} {node : Nat} (hk : s.find key = some node) (hroot : node ≠ s.m_root) :
    ∃ nd par pd, s.heap node = some nd ∧ nd.parent = some par ∧ s.heap par = some pd ∧
      par ≠ node := by
  obtain ⟨nd, par, pd, h1, h2, h3, h4, _, _⟩ := hall key node hk hroot
  obtain ⟨nd', e, a, b⟩ := hwf.filed key node hk
  rw [h1] at e
  cases e
  refine ⟨nd, par, pd, h1, h2, h4, ?_⟩
  have hkey : nd.full_name ≠ [] := by
    intro e
    rw [a] at e
    rw [e, hwf.root] at hk
    cases hk
    exact hroot rfl
  have hpn_ne : nd.getParentName ≠ nd.full_name := by
    intro e
    by_cases h0 : nd.getParentName = []
    · exact hkey (e ▸ h0)
    · have := getParentName_length_lt nd (by rw [b, a]) h0
      rw [e] at this
      omega
  exact hwf.ptr_ne h3 (a ▸ hk) hpn_ne

/-- In a well-formed tree whose nodes are connected, such as the tree
`build_tree` returns, `vmasfs_unlink` returns for every path, and
`vmasfs_rmdir` returns for every path that does not resolve to the root: the
root is the only node for which the assertion of `removeNode` fails.  A node
that is not a directory is not the root, so `vmasfs_unlink` never passes the
root on, and every node of the map other than the root has a parent. -/
theorem removeNode_parent_not_null (zip : ZipLib) (s : VmasFSData) (path : List Char)
    (hwf : WF s) (hall : AllConnected s) :
    (∃ r t, vmasfs_unlink zip s path = .ok (r, t)) ∧
    (s.find path.tail ≠ some s.m_root → ∃ r t, vmasfs_rmdir zip s path = .ok (r, t)) ∧
    (∀ node nd, s.find path.tail = some node → s.heap node = some nd → nd.is_dir = false →
      node ≠ s.m_root) ∧
    (∀ node, s.find path.tail = some node → node ≠ s.m_root →
      ∃ nd par, s.heap node = some nd ∧ nd.parent = some par ∧
        ∃ r t, s.removeNode zip node = .ok (r, t)) := by
  have hnotroot : ∀ node nd, s.find path.tail = some node → s.heap node = some nd →
      nd.is_dir = false → node ≠ s.m_root := by
    intro node nd _ hnd hd e
    obtain ⟨rd, hr, hrd⟩ := hwf.rootDir
    rw [e, hr] at hnd
    cases hnd
    rw [hrd] at hd
    cases hd
  have hrem : ∀ node, s.find path.tail = some node → node ≠ s.m_root →
      ∃ nd par, s.heap node = some nd ∧ nd.parent = some par ∧
        ∃ r t, s.removeNode zip node = .ok (r, t) := by
    intro node hk hroot
    obtain ⟨nd, par, pd, h1, h2, h3, hne⟩ := connected_parent hwf hall hk hroot
    exact ⟨nd, par, h1, h2, _, _, removeNode_eq zip s node par nd pd h1 h2 h3 hne⟩
  refine ⟨?_, ?_, hnotroot, hrem⟩
  · by_cases hp : path = []
    · exact ⟨-ENOENT, s, by simp [vmasfs_unlink, hp]⟩
    · cases hf : s.find path.tail with
      | none => exact ⟨-ENOENT, s, by simp [vmasfs_unlink, hp, hf]⟩
      | some node =>
        obtain ⟨nd, hnd, _, _⟩ := hwf.filed _ node hf
        cases hd : nd.is_dir with
        | true =>
          exact ⟨-EISDIR, s, by
            simp [vmasfs_unlink, hp, hf, VmasFSData.deref, hnd, ok_bind, hd]⟩
        | false =>
          obtain ⟨_, _, _, _, r, t, hr⟩ := hrem node hf (hnotroot node nd hf hnd hd)
          exact ⟨-r, t, by
            simp [vmasfs_unlink, hp, hf, VmasFSData.deref, hnd, ok_bind, hd, hr]⟩
  · intro hroot
    by_cases hp : path = []
    · exact ⟨-ENOENT, s, by simp [vmasfs_rmdir, hp]⟩
    · cases hf : s.find path.tail with
      | none => exact ⟨-ENOENT, s, by simp [vmasfs_rmdir, hp, hf]⟩
      | some node =>
        obtain ⟨nd, hnd, _, _⟩ := hwf.filed _ node hf
        cases hd : nd.is_dir with
        | false =>
          exact ⟨-ENOTDIR, s, by
            simp [vmasfs_rmdir, hp, hf, VmasFSData.deref, hnd, ok_bind, hd]⟩
        | true =>
          by_cases hc : nd.childs = []
          · have hnr : node ≠ s.m_root := by
              intro e
              rw [hf, e] at hroot
              exact hroot rfl
            obtain ⟨_, _, _, _, r, t, hr⟩ := hrem node hf hnr
            exact ⟨-r, t, by
              simp [vmasfs_rmdir, hp, hf, VmasFSData.deref, hnd, ok_bind, hd, hc, hr]⟩
          · exact ⟨-ENOTEMPTY, s, by
              simp [vmasfs_rmdir, hp, hf, VmasFSData.deref, hnd, ok_bind, hd, hc]⟩

/-- The calls on the path `/a/b` in the tree built from the entry `a/b`. -/
theorem removeNode_parent_not_null_witness :
    ∃ s, build_tree ["a/b".toList] false = .ok s ∧
      (∃ r t, vmasfs_unlink ⟨fun _ => 0⟩ s "/a/b".toList = .ok (r, t)) ∧
      (s.find "/a/b".toList.tail ≠ some s.m_root →
        ∃ r t, vmasfs_rmdir ⟨fun _ => 0⟩ s "/a/b".toList = .ok (r, t)) ∧
      (∀ node nd, s.find "/a/b".toList.tail = some node → s.heap node = some nd →
        nd.is_dir = false → node ≠ s.m_root) ∧
      (∀ node, s.find "/a/b".toList.tail = some node → node ≠ s.m_root →
        ∃ nd par, s.heap node = some nd ∧ nd.parent = some par ∧
          ∃ r t, s.removeNode ⟨fun _ => 0⟩ node = .ok (r, t)) := by
  obtain ⟨s, hs⟩ := build_tree_exists ["a/b".toList] false (by decide)
  exact ⟨s, hs, removeNode_parent_not_null ⟨fun _ => 0⟩ s "/a/b".toList
    (build_tree_inv hs).1 (build_tree_inv hs).2⟩

/-! ## The child lists after `build_tree` -/

theorem attach_childs (s : VmasFSData) (p par : Nat) (nd pd : FileNode)
    (h1 : s.heap p = some nd) (h2 : s.heap par = some pd) (hne : par ≠ p)
    (hpar : nd.parent = none) (hch : ChildsOK s) (hnd : ChildsNodup s) :
    ChildsOK ((s.store p { nd with parent := some par }).store par (pd.appendChild p)) ∧
    ChildsNodup ((s.store p { nd with parent := some par }).store par (pd.appendChild p)) := by
  have hnot : ∀ q ndq, s.heap q = some ndq → p ∉ ndq.childs := by
    intro q ndq hq hm
    obtain ⟨cd, e, a⟩ := hch q ndq p hq hm
    rw [h1] at e
    cases e
    rw [hpar] at a
    cases a
  have hheap : ∀ q, ((s.store p { nd with parent := some par }).store par
      (pd.appendChild p)).heap q =
      if q = par then some (pd.appendChild p)
      else if q = p then some { nd with parent := some par } else s.heap q := fun _ => rfl
  have hold : ∀ q0 ndq0 c, s.heap q0 = some ndq0 → c ∈ ndq0.childs →
      ∃ cd, ((s.store p { nd with parent := some par }).store par
        (pd.appendChild p)).heap c = some cd ∧ cd.parent = some q0 := by
    intro q0 ndq0 c hq0 hc
    obtain ⟨cd, e, a⟩ := hch q0 ndq0 c hq0 hc
    have hcp : c ≠ p := by
      rintro rfl
      exact hnot q0 ndq0 hq0 hc
    rw [hheap]
    by_cases hcpar : c = par
    · subst hcpar
      rw [h2] at e
      cases e
      exact ⟨pd.appendChild p, by simp, a⟩
    · rw [if_neg hcpar, if_neg hcp]
      exact ⟨cd, e, a⟩
  constructor
  · intro q ndq c hq hc
    rw [hheap] at hq
    by_cases hqpar : q = par
    · subst hqpar
      rw [if_pos rfl] at hq
      cases hq
      simp only [FileNode.appendChild, List.mem_append, List.mem_singleton] at hc
      rcases hc with hc | hc
      · exact hold q pd c h2 hc
      · subst hc
        rw [hheap, if_neg (fun e => hne e.symm), if_pos rfl]
        exact ⟨_, rfl, rfl⟩
    · rw [if_neg hqpar] at hq
      by_cases hqp : q = p
      · subst hqp
        rw [if_pos rfl] at hq
        cases hq
        exact hold q nd c h1 hc
      · rw [if_neg hqp] at hq
        exact hold q ndq c hq hc
  · intro q ndq hq
    rw [hheap] at hq
    by_cases hqpar : q = par
    · subst hqpar
      rw [if_pos rfl] at hq
      cases hq
      simp only [FileNode.appendChild]
      rw [List.nodup_append]
      refine ⟨hnd q pd h2, List.nodup_singleton p, ?_⟩
      intro a ha hb
      simp only [List.mem_singleton] at hb
      subst hb
      exact hnot q pd h2 ha
    · rw [if_neg hqpar] at hq
      by_cases hqp : q = p
      · subst hqp
        rw [if_pos rfl] at hq
        cases hq
        exact hnd q nd h1
      · rw [if_neg hqp] at hq
        exact hnd q ndq hq

theorem withDir_childs (s : VmasFSData) (hwf : WF s) (pn : List Char) (hch : ChildsOK s)
    (hnd : ChildsNodup s) : ChildsOK (s.withDir pn) ∧ ChildsNodup (s.withDir pn) := by
  have hheap : ∀ q, (s.withDir pn).heap q =
      if q = s.next then some (createIntermediateDir pn) else s.heap q := fun _ => rfl
  constructor
  · intro q ndq c hq hc
    rw [hheap] at hq
    by_cases hqn : q = s.next
    · rw [if_pos hqn] at hq
      cases hq
      cases hc
    · rw [if_neg hqn] at hq
      obtain ⟨cd, e, a⟩ := hch q ndq c hq hc
      exact ⟨cd, withDir_heap_old s hwf pn c cd e, a⟩
  · intro q ndq hq
    rw [hheap] at hq
    by_cases hqn : q = s.next
    · rw [if_pos hqn] at hq
      cases hq
      exact List.nodup_nil
    · rw [if_neg hqn] at hq
      exact hnd q ndq hq

/-- The child lists stay sound when `connectNodeToTree` connects a node that
has no parent yet: every member of a child list has that list's owner as its
parent, and no list holds a node twice. -/
theorem connect_childs : ∀ (n : Nat) (s : VmasFSData) (p : Nat) (nd : FileNode)
    (t : VmasFSData), WF s → s.heap p = some nd → s.find nd.full_name = some p →
    nd.full_name ≠ [] → nd.full_name.length < n → nd.parent = none →
    ChildsOK s → ChildsNodup s → s.connectNodeToTree n p = .ok t →
    ChildsOK t ∧ ChildsNodup t := by
  intro n
  induction n with
  | zero => intro s p nd t _ _ _ _ h; omega
  | succ n ih =>
    intro s p nd t hwf hp hfile hne hlen hpar hch hnd hres
    have hname : nd.name = nameOffset nd.full_name := by
      obtain ⟨nd', e, _, b⟩ := hwf.filed _ p hfile
      rw [hp] at e
      cases e
      exact b
    have hpn_ne : nd.getParentName ≠ nd.full_name := by
      intro e
      by_cases h0 : nd.getParentName = []
      · exact hne (e ▸ h0)
      · have := getParentName_length_lt nd hname h0
        rw [e] at this
        omega
    cases hf : s.find nd.getParentName with
    | none =>
      have hpn : nd.getParentName ≠ [] := by
        intro e
        rw [e, hwf.root] at hf
        cases hf
      have hlt := getParentName_length_lt nd hname hpn
      have hwf2 := withDir_wf s hwf nd.getParentName hpn
      have hnew : (s.withDir nd.getParentName).heap s.next =
          some (createIntermediateDir nd.getParentName) := by
        simp [VmasFSData.withDir]
      have hfind2 : (s.withDir nd.getParentName).find
          (createIntermediateDir nd.getParentName).full_name = some s.next := by
        rw [withDir_find]
        simp [createIntermediateDir]
      have hpnext : p ≠ s.next := by
        have := hwf.lt_next hp
        omega
      have hlen2 : (createIntermediateDir nd.getParentName).full_name.length < n := by
        simp only [createIntermediateDir]
        omega
      obtain ⟨hch2, hnd2⟩ := withDir_childs s hwf nd.getParentName hch hnd
      rw [connect_unfold_none n s p nd hp hf] at hres
      cases hrec : (s.withDir nd.getParentName).connectNodeToTree n s.next with
      | error e =>
        rw [hrec, error_bind] at hres
        cases hres
      | ok t3 =>
        rw [hrec, ok_bind] at hres
        obtain ⟨hch3, hnd3⟩ := ih (s.withDir nd.getParentName) s.next
          (createIntermediateDir nd.getParentName) t3 hwf2 hnew hfind2 hpn hlen2 rfl hch2 hnd2 hrec
        rcases connect_spec n (s.withDir nd.getParentName) s.next
            (createIntermediateDir nd.getParentName) hwf2 hnew hfind2 hpn hlen2 with
          he | ⟨t3', hok, _, hg3, _, _, _⟩
        · rw [hrec] at he
          cases he
        · rw [hrec] at hok
          cases hok
          obtain ⟨nd3, e3, _, _, _, _, _, g3⟩ :=
            hg3.heap p nd (withDir_heap_old s hwf _ p nd hp)
          obtain ⟨pd3, e4, _, _, _, _, _, _⟩ := hg3.heap s.next _ hnew
          have hne2 : s.next ≠ p := fun e => hpnext e.symm
          rw [attach_eq t3 p s.next nd3 pd3 e3 e4 hne2] at hres
          cases hres
          exact attach_childs t3 p s.next nd3 pd3 e3 e4 hne2 ((g3 hpnext).trans hpar) hch3 hnd3
    | some par =>
      obtain ⟨pd, e, a, _⟩ := hwf.filed _ par hf
      have hne2 : par ≠ p := by
        rintro rfl
        rw [hp] at e
        cases e
        exact hpn_ne a.symm
      rw [connect_unfold_some n s p par nd pd hp hf e] at hres
      by_cases hdir : pd.is_dir = true
      · rw [if_pos hdir, attach_eq s p par nd pd hp e hne2] at hres
        cases hres
        exact attach_childs s p par nd pd hp e hne2 hpar hch hnd
      · rw [if_neg hdir] at hres
        cases hres

/-- The loop of `build_tree` that connects the nodes keeps the child lists
sound: it connects a node only while the node has no parent, because the
directories that `connectNodeToTree` adds to the map sort before the
iterator. -/
theorem connectLoop_childs : ∀ (n : Nat) (s : VmasFSData) (cur : Option (List Char))
    (t : VmasFSData), WF s → Unvisited s cur → ChildsOK s → ChildsNodup s →
    (∀ c, cur = some c → (s.find c).isSome = true) →
    s.connectLoop n cur = .ok t → ChildsOK t ∧ ChildsNodup t := by
  intro n
  induction n with
  | zero =>
    intro s cur t _ _ _ _ _ h
    simp [VmasFSData.connectLoop] at h
  | succ n ih =>
    intro s cur t hwf hunv hch hnd hsome h
    cases cur with
    | none =>
      simp only [VmasFSData.connectLoop, Except.ok.injEq] at h
      subst h
      exact ⟨hch, hnd⟩
    | some c =>
      have hcs := hsome c rfl
      obtain ⟨node, hnode⟩ := Option.isSome_iff_exists.mp hcs
      obtain ⟨nd, hndn, hfull, _⟩ := hwf.filed c node hnode
      rw [connectLoop_unfold n s c node nd hnode hndn] at h
      by_cases hroot : node = s.m_root
      · have hif : (if node ≠ s.m_root then
            s.connectNodeToTree (nd.full_name.length + 1) node else .ok s) = .ok s := by
          simp [hroot]
        rw [hif, ok_bind] at h
        refine ih s (s.files.upper (some c)) t hwf ?_ hch hnd
          (fun b hb => (upper_mem s.files (some c) b hb).1) h
        intro key q ndq b hk hq hb hlt
        have hcb : ltstr c b = true := (upper_mem s.files (some c) b hb).2
        have hkc : ltstr key c = false := by
          cases hx : ltstr key c with
          | false => rfl
          | true =>
            rw [ltstr_trans _ _ _ hx hcb] at hlt
            cases hlt
        exact hunv key q ndq c hk hq rfl hkc
      · have hif : (if node ≠ s.m_root then
            s.connectNodeToTree (nd.full_name.length + 1) node else .ok s) =
            s.connectNodeToTree (nd.full_name.length + 1) node := by
          simp [hroot]
        rw [hif] at h
        have hne : nd.full_name ≠ [] := by
          intro e
          rw [hfull] at e
          subst e
          rw [hwf.root] at hnode
          cases hnode
          exact hroot rfl
        have hfile : s.find nd.full_name = some node := by rw [hfull]; exact hnode
        have hpar : nd.parent = none := hunv c node nd c hnode hndn rfl (ltstr_irrefl c)
        cases hconn : s.connectNodeToTree (nd.full_name.length + 1) node with
        | error e =>
          rw [hconn, error_bind] at h
          cases h
        | ok s1 =>
          rw [hconn, ok_bind] at h
          obtain ⟨hch1, hnd1⟩ := connect_childs (nd.full_name.length + 1) s node nd s1 hwf hndn
            hfile hne (by omega) hpar hch hnd hconn
          rcases connect_spec (nd.full_name.length + 1) s node nd hwf hndn hfile hne
              (by omega) with
            he | ⟨s1', hok, hwf1, hg, _, hnew, _⟩
          · rw [hconn] at he
            cases he
          · rw [hconn] at hok
            cases hok
            refine ih s1 (s1.files.upper (some c)) t hwf1 ?_ hch1 hnd1
              (fun b hb => (upper_mem s1.files (some c) b hb).1) h
            intro key q ndq b hk hq hb hlt
            have hcb : ltstr c b = true := (upper_mem s1.files (some c) b hb).2
            have hkc : ltstr key c = false := by
              cases hx : ltstr key c with
              | false => rfl
              | true =>
                rw [ltstr_trans _ _ _ hx hcb] at hlt
                cases hlt
            cases hs : s.find key with
            | none =>
              obtain ⟨x1, x2, _⟩ := hnew key q hk hs
              rw [hfull] at x1 x2
              rw [ ltstr_of_prefix _ _ x1 x2] at hkc
              cases hkc
            | some q' =>
              have hq' := hg.files key q' hs
              rw [hk] at hq'
              cases hq'
              have hkey : key ≠ c := by
                rintro rfl
                rw [hcb] at hlt
                cases hlt
              have hqn : q ≠ node := hwf.ptr_ne hs hnode hkey
              obtain ⟨nd0, e0, _, _⟩ := hwf.filed key q hs
              obtain ⟨nd1, e1, _, _, _, _, _, g1⟩ := hg.heap q nd0 e0
              rw [hq] at e1
              cases e1
              exact (g1 hqn).trans (hunv key q nd0 c hs e0 rfl hkc)

theorem withEntry_unconnected (s : VmasFSData) (cname : List Char) (i : Nat)
    (h : Unconnected s) : Unconnected (s.withEntry cname i) := by
  intro q nd hq
  have hheap : (s.withEntry cname i).heap q =
      if q = s.next then some (createNodeForZipEntry cname i) else s.heap q := rfl
  rw [hheap] at hq
  by_cases hqn : q = s.next
  · rw [if_pos hqn] at hq
    cases hq
    exact ⟨rfl, rfl⟩
  · rw [if_neg hqn] at hq
    exact h q nd hq

theorem addEntries_unconnected (ro np : Bool) : ∀ (names : List (List Char)) (i : Nat)
    (s t : VmasFSData), Unconnected s → VmasFSData.addEntries ro np names i s = .ok t →
    Unconnected t := by
  intro names
  induction names with
  | nil =>
    intro i s t hu h
    simp only [VmasFSData.addEntries, Except.ok.injEq] at h
    exact h ▸ hu
  | cons name rest ih =>
    intro i s t hu h
    rw [addEntries_unfold] at h
    cases hc : convertFileName name ro np with
    | error e => rw [hc, error_bind] at h; cases h
    | ok converted =>
      rw [hc, ok_bind] at h
      by_cases hd : (s.files.find converted).isSome = true
      · rw [if_pos hd] at h; cases h
      · rw [if_neg hd] at h
        exact ih (i + 1) _ t (withEntry_unconnected s converted i hu) h

theorem initial_unconnected : Unconnected VmasFSData.initial := by
  intro q nd hq
  have hheap : VmasFSData.initial.heap q = if q = 0 then some createRootNode else none := rfl
  rw [hheap] at hq
  by_cases hq0 : q = 0
  · rw [if_pos hq0] at hq
    cases hq
    exact ⟨rfl, rfl⟩
  · rw [if_neg hq0] at hq
    cases hq

/-- After a successful `build_tree` every member of a child list has the owner
of the list as its parent, and no child list holds a node twice. -/
theorem build_tree_childs {names : List (List Char)} {ro : Bool} {t : VmasFSData}
    (h : build_tree names ro = .ok t) : ChildsOK t ∧ ChildsNodup t := by
  cases he : build_entries names ro with
  | error e =>
    simp only [build_tree, he, error_bind] at h
    cases h
  | ok s =>
    have hwf := build_entries_wf he
    have hu : Unconnected s := by
      rw [build_entries_eq] at he
      exact addEntries_unconnected ro _ names 0 _ s initial_unconnected he
    have hbt : build_tree names ro =
        s.connectLoop (s.files.length + 1) (s.files.upper none) := by
      simp only [build_tree, he, ok_bind]
    rw [hbt] at h
    refine connectLoop_childs _ s _ t hwf ?_ ?_ ?_
      (fun b hb => (upper_mem s.files none b hb).1) h
    · intro key q nd c _ hq _ _
      exact (hu q nd hq).1
    · intro q ndq c hq hc
      rw [(hu q ndq hq).2] at hc
      cases hc
    · intro q ndq hq
      rw [(hu q ndq hq).2]
      exact List.nodup_nil

/-- C23: after every successful `build_tree`, each node of the map other than
the root (archive entry or synthesized intermediate directory) has a parent,
occurs exactly once in the child list of that parent and occurs in the child
list of no other node.  For every node at all, being in a child list means
that the owner of the list is the parent of the node. -/
theorem build_tree_child_lists (names : List (List Char)) (ro : Bool) (t : VmasFSData)
    (h : build_tree names ro = .ok t) :
    (∀ key p, t.find key = some p → p ≠ t.m_root →
      ∃ nd par pd, t.heap p = some nd ∧ nd.parent = some par ∧ t.heap par = some pd ∧
        pd.childs.count p = 1 ∧
        ∀ q ndq, t.heap q = some ndq → q ≠ par → p ∉ ndq.childs) ∧
    (∀ q ndq p, t.heap q = some ndq → p ∈ ndq.childs →
      ndq.childs.count p = 1 ∧ ∃ nd, t.heap p = some nd ∧ nd.parent = some q) := by
  obtain ⟨hwf, hall⟩ := build_tree_inv h
  obtain ⟨hch, hnd⟩ := build_tree_childs h
  constructor
  · intro key p hk hp
    obtain ⟨nd, par, pd, h1, h2, _, h4, _, h6⟩ := hall key p hk hp
    refine ⟨nd, par, pd, h1, h2, h4, List.count_eq_one_of_mem (hnd par pd h4) h6, ?_⟩
    intro q ndq hq hqpar hm
    obtain ⟨cd, e, a⟩ := hch q ndq p hq hm
    rw [h1] at e
    cases e
    rw [h2] at a
    cases a
    exact hqpar rfl
  · intro q ndq p hq hm
    exact ⟨List.count_eq_one_of_mem (hnd q ndq hq) hm, hch q ndq p hq hm⟩

/-- C23 at the tree built from the entries `a/b/c` and `a/d`, with the
synthesized directories `a` and `a/b`. -/
theorem build_tree_child_lists_witness :
    ∃ t, build_tree ["a/b/c".toList, "a/d".toList] false = .ok t ∧
      (∀ key p, t.find key = some p → p ≠ t.m_root →
        ∃ nd par pd, t.heap p = some nd ∧ nd.parent = some par ∧ t.heap par = some pd ∧
          pd.childs.count p = 1 ∧
          ∀ q ndq, t.heap q = some ndq → q ≠ par → p ∉ ndq.childs) ∧
      (∀ q ndq p, t.heap q = some ndq → p ∈ ndq.childs →
        ndq.childs.count p = 1 ∧ ∃ nd, t.heap p = some nd ∧ nd.parent = some q) := by
  obtain ⟨t, ht⟩ := build_tree_exists ["a/b/c".toList, "a/d".toList] false (by decide)
  exact ⟨t, ht, build_tree_child_lists ["a/b/c".toList, "a/d".toList] false t ht⟩

end VmasFS
